import Mathlib

/-!
# HSG: a single-layer short-edge / long-edge proximity graph

A shallow embedding of `source/HSG.h` (namespace `HSG`): the record types, the insertion
probe `search_add`, the connectivity test `connected`, the insertion `add` and the query
`nearest_neighbors_search` / `search`.

Modelling conventions.

* Distances live in an arbitrary linearly ordered type `D` (exact arithmetic); a data pointer
  `const float *` is the list of coordinates it points to.
* `std::priority_queue` is a list held in pop order (`top` is the head, `pop` drops the head);
  `std::multimap<float, uint64_t>` is a list ordered by key, equal keys in insertion order;
  `std::unordered_set` / `std::unordered_map` are duplicate-free lists.
* Every function returns an `Option`.  `none` stands for an execution without a defined
  result: `top()` or `rbegin()` on an empty container, `find()->second` on a missing key, an
  index outside a `std::vector`, or a loop that has used up its fuel.
* The function pointer `Index::similarity` and the kernel
  `Space::Euclidean2::distance_to_zero` come from `space.h`, which is missing from the
  sources; both are parameters (`similarity`, `distance_to_zero`).
* The locals `processing_offset`, `processing_distance` of `search_add` and `nearest_offset`
  of `nearest_neighbors_search` are references (`auto &`) bound to `waiting_vectors.top()`,
  the first slot of the `std::vector` that holds the queue.  A read through them gives what
  that slot holds at the time of the read.  In phase three of `search_add` the reads follow
  `pop()`: the slot then holds the next pair of the queue, or still the pair just erased
  when that was the only one.  In phases one and two of `search_add` and in phase one of
  `nearest_neighbors_search` the read follows the pushes of the turn: when nothing was
  pushed the slot holds the top as before; after a push the vector may have moved, and the
  reference then points into storage that was freed.  What is read after a push is decided
  by the C++ library and the allocator, not by the sources: it is the parameter `stale`.
  The worked runs use `gnu_read`, the behaviour of GNU libstdc++ with glibc.
* `Index::count` is kept as a natural number: it counts the stored records and cannot wrap.

Two more sources are embedded in part.  From `example/example_nnhnsw.cpp` the two loaders
`load_vector` and `load_neighbors` over a file given as a list of bytes.  From
`source/ehnsw.h` (namespace `ehnsw`) the records of the layered index and the function
`query` with the functions it calls; their names carry the prefix `ehnsw.`, a
`std::map<float, uint64_t>` is a list ordered by key with pairwise different keys, and an
exception thrown is an `Except.error`.
-/

namespace HSG

/-- Modelled from the spec: the metric tags of `Space::Metric` (declared in `space.h`, which
is missing from the sources); the spec lists Euclidean², InnerProduct and Cosine. -/
inductive Metric where
  | Euclidean2
  | InnerProduct
  | Cosine
deriving DecidableEq, Repr

/-- The class `Vector`: one indexed record with its five edge containers. -/
structure Vector (D : Type) where
  id : Nat
  offset : Nat
  data : List D
  short_edge_out : List (D × Nat)
  short_edge_in : List Nat
  long_edge_out : List (D × Nat)
  long_edge_in : List (Nat × D)
  keep_connected : List Nat
deriving DecidableEq, Repr

/-- The constructor `Vector(id, offset, data_address)`: all edge containers start empty. -/
def Vector.new {D : Type} (id offset : Nat) (data_address : List D) : Vector D :=
  { id := id, offset := offset, data := data_address, short_edge_out := [], short_edge_in := [],
    long_edge_out := [], long_edge_in := [], keep_connected := [] }

/-- The class `Index_Parameters`. -/
structure Index_Parameters where
  dimension : Nat
  space_metric : Metric
  magnification : Nat
  termination_number : Nat
  short_edge_lower_limit : Nat
  short_edge_upper_limit : Nat
  cover_range : Nat
deriving DecidableEq, Repr

/-- The constructor of `Index_Parameters`.  Its initialiser list has no entry for
`short_edge_upper_limit`, so that member keeps an indeterminate value; the value is the extra
argument `indeterminate`.  The sum is taken in `uint64_t`. -/
def Index_Parameters.new (dimension : Nat) (space_metric : Metric) (magnification : Nat)
    (short_edge_lower_limit : Nat) (cover_range : Nat) (indeterminate : Nat) : Index_Parameters :=
  { dimension := dimension, space_metric := space_metric, magnification := magnification,
    termination_number := (short_edge_lower_limit + magnification) % 2 ^ 64,
    short_edge_lower_limit := short_edge_lower_limit,
    short_edge_upper_limit := indeterminate, cover_range := cover_range }

/-- The class `Index` without its function pointer `similarity`, which is passed to the
functions below as an argument.  `empty` is a stack with its top at the head. -/
structure Index (D : Type) where
  parameters : Index_Parameters
  count : Nat
  vectors : List (Vector D)
  empty : List Nat
  zero : List D
  id_to_offset : List (Nat × Nat)
deriving DecidableEq, Repr

/-- The value of `std::numeric_limits<uint64_t>::max()`, the id of the zero point. -/
def uint64_max : Nat := 2 ^ 64 - 1

/-- Insertion into the `std::unordered_map` `id_to_offset`: a key already present keeps its
old value. -/
def umap_insert (m : List (Nat × Nat)) (key value : Nat) : List (Nat × Nat) :=
  if m.any (fun e => e.1 == key) then m else m ++ [(key, value)]

/-- The constructor of `Index`: one record, the zero point, at offset 0. -/
def Index.new {D : Type} [Zero D] (space : Metric) (dimension short_edge_lower_limit
    magnification cover_range : Nat) (indeterminate : Nat) : Index D :=
  { parameters := Index_Parameters.new dimension space magnification short_edge_lower_limit
      cover_range indeterminate,
    count := 1,
    vectors := [Vector.new uint64_max 0 (List.replicate dimension 0)],
    empty := [],
    zero := List.replicate dimension 0,
    id_to_offset := umap_insert [] uint64_max 0 }

/-- The comparison `operator<` of `std::pair<float, uint64_t>`. -/
def pair_lt {D : Type} [LinearOrder D] (a b : D × Nat) : Bool :=
  decide (a.1 < b.1) || (!decide (b.1 < a.1) && decide (a.2 < b.2))

/-- Push into a priority queue held in pop order: the new element goes in front of the
first element it is to be popped before. -/
def pq_push {α : Type} (before : α → α → Bool) (x : α) : List α → List α
  | [] => [x]
  | y :: ys => if before x y then x :: y :: ys else y :: pq_push before x ys

/-- Push into `waiting_vectors`, a priority queue with `std::greater<>` (least pair on top). -/
def min_push {D : Type} [LinearOrder D] (x : D × Nat) (q : List (D × Nat)) : List (D × Nat) :=
  pq_push pair_lt x q

/-- Push into `nearest_neighbors`, a default priority queue (greatest pair on top). -/
def max_push {D : Type} [LinearOrder D] (x : D × Nat) (q : List (D × Nat)) : List (D × Nat) :=
  pq_push (fun a b => pair_lt b a) x q

/-- Insertion into a `std::multimap<float, uint64_t>`: after every entry whose key is not
greater than the new key. -/
def multimap_insert {D : Type} [LinearOrder D] (x : D × Nat) : List (D × Nat) → List (D × Nat)
  | [] => [x]
  | y :: ys => if x.1 < y.1 then x :: y :: ys else y :: multimap_insert x ys

/-- Insertion into a `std::unordered_set<uint64_t>`. -/
def set_insert (x : Nat) (s : List Nat) : List Nat :=
  if x ∈ s then s else s ++ [x]

/-- Write through a reference `index.vectors[i]`: `none` when `i` is out of range. -/
def Index.update {D : Type} (index : Index D) (i : Nat) (f : Vector D → Vector D) :
    Option (Index D) :=
  match index.vectors[i]? with
  | none => none
  | some v => some { index with vectors := index.vectors.set i (f v) }

/-- The loop shared by all phases of the searches: every offset of the list that is not yet
visited is marked and pushed into `waiting_vectors` with its distance to the target. -/
def visit {D : Type} [LinearOrder D] (similarity : List D → List D → Nat → D) (index : Index D)
    (target_vector : List D) :
    List Nat → List Bool × List (D × Nat) → Option (List Bool × List (D × Nat))
  | [], state => some state
  | neighbor_offset :: rest, (visited, waiting_vectors) =>
    match visited[neighbor_offset]? with
    | none => none
    | some true => visit similarity index target_vector rest (visited, waiting_vectors)
    | some false =>
      match index.vectors[neighbor_offset]? with
      | none => none
      | some neighbor =>
        visit similarity index target_vector rest
          (visited.set neighbor_offset true,
            min_push (similarity target_vector neighbor.data index.parameters.dimension,
              neighbor_offset) waiting_vectors)

/-- The three loops over `short_edge_out`, `short_edge_in` and `keep_connected` of one
record, in that order. -/
def visit_short {D : Type} [LinearOrder D] (similarity : List D → List D → Nat → D)
    (index : Index D) (target_vector : List D) (processing_vector : Vector D)
    (state : List Bool × List (D × Nat)) : Option (List Bool × List (D × Nat)) :=
  (visit similarity index target_vector (processing_vector.short_edge_out.map Prod.snd) state).bind
    fun state1 =>
  (visit similarity index target_vector processing_vector.short_edge_in state1).bind
    fun state2 =>
  visit similarity index target_vector processing_vector.keep_connected state2

/-- What a read through a reference into freed or regrown storage of `waiting_vectors`
gives: the sources do not decide it, the C++ library and the allocator do.  The arguments are
the index the probe runs on, the queue as it was when the reference was bound, and the queue
at the time of the read; the value is the number read as `processing_offset`. -/
abbrev Stale_Read (D : Type) : Type := Index D → List (D × Nat) → List (D × Nat) → Nat

/-- The value of `processing_offset` (`nearest_offset`) at the test that ends a turn of the
first two phases (lines 149, 207 and 673).  The reference was bound to the top slot when the
queue was `bound`; the queue is `current` now and its top has the offset `top`.  When the
turn pushed nothing the slot still holds the top; after a push the value is what `stale`
gives. -/
def reread {D : Type} (stale : Stale_Read D) (index : Index D)
    (bound current : List (D × Nat)) (top : Nat) : Nat :=
  if current.length = bound.length then top else stale index bound current

/-- Phase one of `search_add` (lines 128-153): follow the long edges until the offset read
through `processing_offset` is that of the top of `waiting_vectors`. -/
def search_add_phase1 {D : Type} [LinearOrder D] (similarity : List D → List D → Nat → D)
    (stale : Stale_Read D) (index : Index D) (target_vector : List D) :
    Nat → List Bool → List (D × Nat) → List (D × Nat) →
      Option (List Bool × List (D × Nat) × List (D × Nat))
  | 0, _, _, _ => none
  | fuel + 1, visited, waiting_vectors, long_path =>
    match waiting_vectors.head? with
    | none => none
    | some top =>
      match index.vectors[top.2]? with
      | none => none
      | some processing_vector =>
        match visit similarity index target_vector
            (processing_vector.long_edge_out.map Prod.snd) (visited, waiting_vectors) with
        | none => none
        | some (visited1, waiting1) =>
          match waiting1.head? with
          | none => none
          | some top1 =>
            if reread stale index waiting_vectors waiting1 top1.2 = top1.2 then
              some (visited1, waiting1, long_path ++ [top])
            else search_add_phase1 similarity stale index target_vector fuel visited1 waiting1
              (long_path ++ [top])

/-- Phase two of `search_add` (lines 157-213): follow the short edges until the offset read
through `processing_offset` is that of the top of `waiting_vectors`; after every other turn
the top of the queue is appended to `short_path`. -/
def search_add_phase2 {D : Type} [LinearOrder D] (similarity : List D → List D → Nat → D)
    (stale : Stale_Read D) (index : Index D) (target_vector : List D) :
    Nat → List Bool → List (D × Nat) → List (D × Nat) →
      Option (List Bool × List (D × Nat) × List (D × Nat))
  | 0, _, _, _ => none
  | fuel + 1, visited, waiting_vectors, short_path =>
    match waiting_vectors.head? with
    | none => none
    | some top =>
      match index.vectors[top.2]? with
      | none => none
      | some processing_vector =>
        match visit_short similarity index target_vector processing_vector
            (visited, waiting_vectors) with
        | none => none
        | some (visited1, waiting1) =>
          match waiting1.head? with
          | none => none
          | some top1 =>
            if reread stale index waiting_vectors waiting1 top1.2 = top1.2 then
              some (visited1, waiting1, short_path)
            else search_add_phase2 similarity stale index target_vector fuel visited1 waiting1
              (short_path ++ [top1])

/-- The branch on `nearest_neighbors` (lines 225-240, 689-704) made for the pair
`processing` that is read as distance and offset: `none` is a `top()` on an empty queue,
`some none` is the `break`, `some (some q)` continues with the queue `q`. -/
def harvest {D : Type} [LinearOrder D] (limit : Nat) (processing : D × Nat)
    (nearest_neighbors : List (D × Nat)) : Option (Option (List (D × Nat))) :=
  if nearest_neighbors.length < limit then
    some (some (max_push processing nearest_neighbors))
  else
    match nearest_neighbors.head? with
    | none => none
    | some worst =>
      if processing.1 < worst.1 then
        some (some (max_push processing nearest_neighbors.tail))
      else some none

/-- Phase three of `search_add` (lines 217-286).  The record `processing_vector` is that of
the top pair, bound before `pop()`.  The pair `(processing_distance, processing_offset)` is
read through the references after `pop()`: it is the next pair of the queue, or the popped
pair itself when the queue held no other.  That pair is kept while `nearest_neighbors` has
room or it beats the farthest kept one; then the short edges of `processing_vector` are
visited. -/
def search_add_phase3 {D : Type} [LinearOrder D] (similarity : List D → List D → Nat → D)
    (index : Index D) (target_vector : List D) :
    Nat → List Bool → List (D × Nat) → List (D × Nat) → Option (List (D × Nat))
  | 0, _, _, _ => none
  | _ + 1, _, [], nearest_neighbors => some nearest_neighbors
  | fuel + 1, visited, processing :: waiting_vectors, nearest_neighbors =>
    match index.vectors[processing.2]? with
    | none => none
    | some processing_vector =>
      match harvest index.parameters.termination_number
          (waiting_vectors.head?.getD processing) nearest_neighbors with
      | none => none
      | some none => some nearest_neighbors
      | some (some nearest1) =>
        match visit_short similarity index target_vector processing_vector
            (visited, waiting_vectors) with
        | none => none
        | some (visited1, waiting1) =>
          search_add_phase3 similarity index target_vector fuel visited1 waiting1 nearest1

/-- The function `search_add`: returns `long_path`, `short_path` and `nearest_neighbors`
(the latter in pop order, farthest first).  Each loop runs on `vectors.size() + 1` units of
fuel. -/
def search_add {D : Type} [LinearOrder D] (similarity : List D → List D → Nat → D)
    (distance_to_zero : List D → Nat → D) (stale : Stale_Read D) (index : Index D)
    (target_vector : List D) :
    Option (List (D × Nat) × List (D × Nat) × List (D × Nat)) :=
  let waiting_vectors : List (D × Nat) :=
    min_push (distance_to_zero target_vector index.parameters.dimension, 0) []
  let visited := List.replicate index.vectors.length false
  if 0 < visited.length then
    (search_add_phase1 similarity stale index target_vector (index.vectors.length + 1)
      (visited.set 0 true) waiting_vectors []).bind fun r1 =>
    (search_add_phase2 similarity stale index target_vector (index.vectors.length + 1)
      r1.1 r1.2.1 []).bind fun r2 =>
    (search_add_phase3 similarity index target_vector (index.vectors.length + 1)
      r2.1 r2.2.1 []).bind fun nearest_neighbors =>
    some (r1.2.2, r2.2.2, nearest_neighbors)
  else none

/-- The innermost loops of `connected`: every offset of the list that is not yet visited is
marked and inserted into `next`. -/
def connected_mark : List Nat → List Bool × List Nat → Option (List Bool × List Nat)
  | [], state => some state
  | t1 :: rest, (visited, next) =>
    match visited[t1]? with
    | none => none
    | some true => connected_mark rest (visited, next)
    | some false => connected_mark rest (visited.set t1 true, set_insert t1 next)

/-- One round of `connected`: for every offset in `last`, the loops over `short_edge_in`,
`short_edge_out` and `keep_connected` of that record. -/
def connected_round {D : Type} (index : Index D) :
    List Nat → List Bool × List Nat → Option (List Bool × List Nat)
  | [], state => some state
  | i :: rest, state =>
    match index.vectors[i]? with
    | none => none
    | some t =>
      (connected_mark t.short_edge_in state).bind fun state1 =>
      (connected_mark (t.short_edge_out.map Prod.snd) state1).bind fun state2 =>
      (connected_mark t.keep_connected state2).bind fun state3 =>
      connected_round index rest state3

/-- The loop `for (round = 0; round < 4; ++round)` of `connected`.  The body never assigns
`last`, so every round walks the same set. -/
def connected_rounds {D : Type} (index : Index D) (last : List Nat) :
    Nat → List Bool × List Nat → Option (List Bool × List Nat)
  | 0, state => some state
  | rounds + 1, state =>
    (connected_round index last state).bind fun state1 =>
    connected_rounds index last rounds state1

/-- The function `connected(index, vector, offset)`. -/
def connected {D : Type} (index : Index D) (vector : Vector D) (offset : Nat) : Option Bool :=
  let visited := List.replicate index.vectors.length false
  if vector.offset < visited.length then
    (connected_rounds index (set_insert vector.offset []) 4
      (visited.set vector.offset true, [])).bind fun state =>
    state.1[offset]?
  else none

/-- The statement `v.short_edge_out.insert(x)`. -/
def Vector.out_insert {D : Type} [LinearOrder D] (x : D × Nat) (v : Vector D) : Vector D :=
  { v with short_edge_out := multimap_insert x v.short_edge_out }

/-- The statement `v.short_edge_out.erase(std::prev(v.short_edge_out.end()))`. -/
def Vector.out_erase_last {D : Type} (v : Vector D) : Vector D :=
  { v with short_edge_out := v.short_edge_out.dropLast }

/-- The statement `v.short_edge_in.insert(o)`. -/
def Vector.in_insert {D : Type} (o : Nat) (v : Vector D) : Vector D :=
  { v with short_edge_in := set_insert o v.short_edge_in }

/-- The statement `v.short_edge_in.erase(o)`. -/
def Vector.in_erase {D : Type} (o : Nat) (v : Vector D) : Vector D :=
  { v with short_edge_in := v.short_edge_in.erase o }

/-- The statement `v.keep_connected.insert(o)`. -/
def Vector.keep_insert {D : Type} (o : Nat) (v : Vector D) : Vector D :=
  { v with keep_connected := set_insert o v.keep_connected }

/-- The body of the `if` at lines 408-419 of `add`, entered after the farthest out-edge of
the neighbour has been erased: unless the neighbour still has `farest_offset` among its
in-edges or `connected` finds it, the edge is put back or a `keep_connected` pair is
recorded. -/
def protect {D : Type} [LinearOrder D] (index : Index D) (neighbor_index : Nat)
    (farest_distance : D) (farest_offset : Nat) : Option (Index D) :=
  match index.vectors[neighbor_index]? with
  | none => none
  | some neighbor =>
    if farest_offset ∈ neighbor.short_edge_in then some index
    else
      match connected index neighbor farest_offset with
      | none => none
      | some true => some index
      | some false =>
        if neighbor.short_edge_out.length < index.parameters.short_edge_upper_limit then
          index.update neighbor_index (Vector.out_insert (farest_distance, farest_offset))
        else
          (index.update neighbor_index (Vector.keep_insert farest_offset)).bind fun index1 =>
          index1.update farest_offset (Vector.keep_insert neighbor.offset)

/-- The last two statements of both linking branches of `add`: the neighbour gets the out-edge
`(distance, offset)` and the new record gets the neighbour as in-edge. -/
def link_back {D : Type} [LinearOrder D] (index : Index D) (offset neighbor_index : Nat)
    (distance : D) (neighbor_offset : Nat) : Option (Index D) :=
  (index.update neighbor_index (Vector.out_insert (distance, offset))).bind fun index1 =>
  index1.update offset (Vector.in_insert neighbor_offset)

/-- One turn of the loop at lines 376-426 of `add`, for the pair `candidate` taken from the
top of `nearest_neighbors`.  `offset` is the offset of the new record; `neighbor` is the
record `index.vectors[candidate.second]`. -/
def bind_candidate {D : Type} [LinearOrder D] (index : Index D) (offset : Nat)
    (candidate : D × Nat) : Option (Index D) :=
  match index.vectors[candidate.2]? with
  | none => none
  | some neighbor0 =>
    (index.update offset (Vector.out_insert (candidate.1, neighbor0.offset))).bind
      fun index1 =>
    (index1.update candidate.2 (Vector.in_insert offset)).bind fun index2 =>
    match index2.vectors[candidate.2]? with
    | none => none
    | some neighbor =>
      if neighbor.short_edge_out.length < index2.parameters.short_edge_lower_limit then
        link_back index2 offset candidate.2 candidate.1 neighbor.offset
      else
        match neighbor.short_edge_out.getLast? with
        | none => none
        | some farest =>
          if candidate.1 < farest.1 then
            (index2.update candidate.2 Vector.out_erase_last).bind fun index3 =>
            (index3.update farest.2 (Vector.in_erase neighbor.offset)).bind fun index4 =>
            (protect index4 candidate.2 farest.1 farest.2).bind fun index5 =>
            link_back index5 offset candidate.2 candidate.1 neighbor.offset
          else some index2

/-- The loop at lines 376-426 of `add`: `nearest_neighbors` is drained from its top. -/
def bind_short_edges {D : Type} [LinearOrder D] (index : Index D) (offset : Nat) :
    List (D × Nat) → Option (Index D)
  | [] => some index
  | candidate :: nearest_neighbors =>
    (bind_candidate index offset candidate).bind fun index1 =>
    bind_short_edges index1 offset nearest_neighbors

/-- Lines 349-366 of `add`: the count goes up by one and the record is stored, at the end of
`vectors` or at the offset on top of the stack `empty`; the id is entered in `id_to_offset`.
Returns the index and the offset of the new record. -/
def add_allocate {D : Type} (index : Index D) (id : Nat) (added_vector_data : List D) :
    Option (Index D × Nat) :=
  let offset := index.count
  let index1 := { index with count := index.count + 1 }
  match index1.empty with
  | [] =>
    some ({ index1 with
              vectors := index1.vectors ++ [Vector.new id offset added_vector_data],
              id_to_offset := umap_insert index1.id_to_offset id offset }, offset)
  | top :: rest =>
    ({ index1 with empty := rest }.update top fun v =>
      { v with id := id, data := added_vector_data }).bind fun index2 =>
    some ({ index2 with id_to_offset := umap_insert index2.id_to_offset id top }, top)

/-- The function `add(index, id, added_vector_data)`.  The block guarded by
`cover_range <= short_path.size()` at lines 430-432 is empty, so neither path is used. -/
def add {D : Type} [LinearOrder D] (similarity : List D → List D → Nat → D)
    (distance_to_zero : List D → Nat → D) (stale : Stale_Read D) (index : Index D) (id : Nat)
    (added_vector_data : List D) : Option (Index D) :=
  (add_allocate index id added_vector_data).bind fun allocated =>
  match allocated.1.vectors[allocated.2]? with
  | none => none
  | some _ =>
    (search_add similarity distance_to_zero stale allocated.1 added_vector_data).bind
      fun probe =>
    bind_short_edges allocated.1 allocated.2 probe.2.2

/-- The first loop of `nearest_neighbors_search` (lines 642-649): every out-going long edge
of the zero point is marked and pushed, without a test of `visited`. -/
def seed {D : Type} [LinearOrder D] (similarity : List D → List D → Nat → D) (index : Index D)
    (target_vector : List D) :
    List Nat → List Bool × List (D × Nat) → Option (List Bool × List (D × Nat))
  | [], state => some state
  | neighbor_offset :: rest, (visited, waiting_vectors) =>
    if neighbor_offset < visited.length then
      match index.vectors[neighbor_offset]? with
      | none => none
      | some neighbor =>
        seed similarity index target_vector rest
          (visited.set neighbor_offset true,
            min_push (similarity target_vector neighbor.data index.parameters.dimension,
              neighbor_offset) waiting_vectors)
    else none

/-- Phase one of `nearest_neighbors_search` (lines 653-677): follow the long edges until the
offset read through `nearest_offset` is that of the top of `waiting_vectors`. -/
def search_phase1 {D : Type} [LinearOrder D] (similarity : List D → List D → Nat → D)
    (stale : Stale_Read D) (index : Index D) (target_vector : List D) :
    Nat → List Bool → List (D × Nat) → Option (List Bool × List (D × Nat))
  | 0, _, _ => none
  | fuel + 1, visited, waiting_vectors =>
    match waiting_vectors.head? with
    | none => none
    | some top =>
      match index.vectors[top.2]? with
      | none => none
      | some nearest_vector =>
        match visit similarity index target_vector
            (nearest_vector.long_edge_out.map Prod.snd) (visited, waiting_vectors) with
        | none => none
        | some (visited1, waiting1) =>
          match waiting1.head? with
          | none => none
          | some top1 =>
            if reread stale index waiting_vectors waiting1 top1.2 = top1.2 then
              some (visited1, waiting1)
            else search_phase1 similarity stale index target_vector fuel visited1 waiting1

/-- Phase two of `nearest_neighbors_search` (lines 681-751).  Here the distance and the
offset of the top pair are copied before `pop()` (`auto` without `&`), so the popped pair
itself is the one kept, with the external id stored instead of the offset;
`limit = top_k + magnification`. -/
def search_phase2 {D : Type} [LinearOrder D] (similarity : List D → List D → Nat → D)
    (index : Index D) (target_vector : List D) (limit : Nat) :
    Nat → List Bool → List (D × Nat) → List (D × Nat) → Option (List (D × Nat))
  | 0, _, _, _ => none
  | _ + 1, _, [], nearest_neighbors => some nearest_neighbors
  | fuel + 1, visited, processing :: waiting_vectors, nearest_neighbors =>
    match index.vectors[processing.2]? with
    | none => none
    | some processing_vector =>
      match harvest limit (processing.1, processing_vector.id) nearest_neighbors with
      | none => none
      | some none => some nearest_neighbors
      | some (some nearest1) =>
        match visit_short similarity index target_vector processing_vector
            (visited, waiting_vectors) with
        | none => none
        | some (visited1, waiting1) =>
          search_phase2 similarity index target_vector limit fuel visited1 waiting1 nearest1

/-- The function `nearest_neighbors_search`: the returned queue is in pop order (farthest
first).  The sum `top_k + magnification` is taken in `uint64_t`. -/
def nearest_neighbors_search {D : Type} [LinearOrder D]
    (similarity : List D → List D → Nat → D) (stale : Stale_Read D) (index : Index D)
    (target_vector : List D) (top_k magnification : Nat) : Option (List (D × Nat)) :=
  let visited := List.replicate index.vectors.length false
  match index.vectors[0]? with
  | none => none
  | some zero_vector =>
    (seed similarity index target_vector (zero_vector.long_edge_out.map Prod.snd)
      (visited.set 0 true, [])).bind fun seeded =>
    (search_phase1 similarity stale index target_vector (index.vectors.length + 1)
      seeded.1 seeded.2).bind fun r1 =>
    search_phase2 similarity index target_vector ((top_k + magnification) % 2 ^ 64)
      (index.vectors.length + zero_vector.long_edge_out.length + 1) r1.1 r1.2 []

/-- The function `search`: its two argument checks are commented out in the source, so it
only forwards to `nearest_neighbors_search`. -/
def search {D : Type} [LinearOrder D] (similarity : List D → List D → Nat → D)
    (stale : Stale_Read D) (index : Index D) (query_vector : List D) (top_k : Nat)
    (magnification : Nat) : Option (List (D × Nat)) :=
  nearest_neighbors_search similarity stale index query_vector top_k magnification

/-- A run of `add` calls, one for each `(id, data)` pair of the list, in order. -/
def add_all {D : Type} [LinearOrder D] (similarity : List D → List D → Nat → D)
    (distance_to_zero : List D → Nat → D) (stale : Stale_Read D) :
    Index D → List (Nat × List D) → Option (Index D)
  | index, [] => some index
  | index, entry :: rest =>
    (add similarity distance_to_zero stale index entry.1 entry.2).bind fun index1 =>
    add_all similarity distance_to_zero stale index1 rest

/-- The members of a record that `add` never assigns once the record is stored. -/
def Vector.core {D : Type} (v : Vector D) :
    Nat × Nat × List D × List (D × Nat) × List (Nat × D) :=
  (v.id, v.offset, v.data, v.long_edge_out, v.long_edge_in)

/-- Everything in an index apart from the short edges and `keep_connected` sets. -/
def Index.frame {D : Type} (index : Index D) :
    List (Nat × Nat × List D × List (D × Nat) × List (Nat × D)) × Index_Parameters × Nat ×
      List Nat × List D × List (Nat × Nat) :=
  (index.vectors.map Vector.core, index.parameters, index.count, index.empty, index.zero,
    index.id_to_offset)

/-- The structural facts every run of `add` calls on a fresh index keeps: the stack `empty`
holds nothing, `count` is the number of records, the zero point exists, every record sits at
its own offset, and no record has a long edge. -/
def Index.frame_ok {D : Type} (index : Index D) : Prop :=
  index.empty = [] ∧ index.count = index.vectors.length ∧ 0 < index.vectors.length ∧
    ∀ (i : Nat) (v : Vector D), index.vectors[i]? = some v →
      v.offset = i ∧ v.long_edge_out = [] ∧ v.long_edge_in = []

/-- Every offset stored in a short edge or a `keep_connected` set of the record is below
`bound`. -/
def Vector.edges_below {D : Type} (v : Vector D) (bound : Nat) : Prop :=
  (∀ e ∈ v.short_edge_out, e.2 < bound) ∧ (∀ o ∈ v.short_edge_in, o < bound) ∧
    ∀ o ∈ v.keep_connected, o < bound

/-- The same for every record of the index. -/
def Index.edges_below {D : Type} (index : Index D) (bound : Nat) : Prop :=
  ∀ (i : Nat) (v : Vector D), index.vectors[i]? = some v → v.edges_below bound

/-- The number of short out-edges of the record at offset `j` (0 when there is none). -/
def Index.out_degree {D : Type} (index : Index D) (j : Nat) : Nat :=
  match index.vectors[j]? with
  | some v => v.short_edge_out.length
  | none => 0

/-- The invariant of a run of `add` calls used below: the structural facts of `frame_ok`,
and every stored short-edge or `keep_connected` offset indexes an existing record. -/
def Index.sound {D : Type} (index : Index D) : Prop :=
  index.frame_ok ∧ index.edges_below index.vectors.length

/-- Modelled from the spec: the kernel `Space::Euclidean2::distance` of `space.h`, which is
missing from the sources.  The spec names the metric Euclidean² and asks that it be
non-negative, symmetric and zero on equal arguments; this is the sum of the squared
coordinate differences over the first `dimension` coordinates, in exact arithmetic. -/
def Euclidean2.distance {D : Type} [Ring D] (vector1 vector2 : List D) (dimension : Nat) : D :=
  ((List.zipWith (fun x y => (x - y) * (x - y)) vector1 vector2).take dimension).sum

/-- Modelled from the spec: the kernel `Space::Euclidean2::distance_to_zero` of the missing
`space.h`, the Euclidean² distance between a vector and the origin. -/
def Euclidean2.distance_to_zero {D : Type} [Ring D] (vector : List D) (dimension : Nat) : D :=
  ((vector.map fun x => x * x).take dimension).sum

/-- The offsets a search can step to from the record at offset `x`: the entries of its five
edge containers. -/
def Index.steps {D : Type} (index : Index D) (x : Nat) : List Nat :=
  match index.vectors[x]? with
  | none => []
  | some v =>
    v.short_edge_out.map Prod.snd ++ v.short_edge_in ++ v.keep_connected ++
      v.long_edge_out.map Prod.snd ++ v.long_edge_in.map Prod.fst

/-- Offset `y` is reached from offset `x` by a walk along such steps. -/
def Index.reaches {D : Type} (index : Index D) (x y : Nat) : Prop :=
  Relation.ReflTransGen (fun a b => b ∈ index.steps a) x y

/-- Whether a push onto a `std::vector` that holds `n` elements moves it to new storage
under GNU libstdc++, where a full vector doubles its capacity: the capacity after `n` pushes
is the least power of two that is not below `n`. -/
def regrows (n : Nat) : Bool :=
  (List.range (n + 1)).any fun k => 2 ^ k == n

/-- The stale read under GNU libstdc++ with glibc.  When a push of the turn has moved the
queue, the reference points into the freed block, where the allocator has written its own
data over the place of the offset: the number read is no offset of a record (`2^64 - 1`
here).  When no push has moved it, the reference is still the top slot of the queue and the
offset of the top is read. -/
def gnu_read {D : Type} : Stale_Read D := fun _ bound current =>
  if (List.range current.length).any (fun n => decide (bound.length ≤ n) && regrows n) then
    uint64_max
  else (current.head?.map Prod.snd).getD 0

/-- The stale read of a library under which the queue is never moved by a push (its storage
is reserved ahead): the reference is still the top slot of the queue and the offset of the
top is read. -/
def steady_read {D : Type} : Stale_Read D := fun _ _ current =>
  (current.head?.map Prod.snd).getD 0

/-- A fresh index over the integers: dimension 1, Euclidean², lower limit 1, magnification 0,
cover range 1; the uninitialised upper limit holds 2. -/
def line_index : Index Int := Index.new Metric.Euclidean2 1 1 0 1 2

/-- The index `line_index` after `add(index, 1, (10))`. -/
def line_one : Index Int :=
  { parameters := line_index.parameters, count := 2,
    vectors := [
      { id := uint64_max, offset := 0, data := [0], short_edge_out := [(100, 1)],
        short_edge_in := [1], long_edge_out := [], long_edge_in := [], keep_connected := [] },
      { id := 1, offset := 1, data := [10], short_edge_out := [(100, 0)],
        short_edge_in := [0], long_edge_out := [], long_edge_in := [], keep_connected := [] }],
    empty := [], zero := [0], id_to_offset := [(uint64_max, 0), (1, 1)] }

/-- Three insertions on the line: the points 10, 1 and 11 with ids 1, 2 and 3. -/
def line_entries : List (Nat × List Int) := [(1, [10]), (2, [1]), (3, [11])]

/-- The index `line_index` after the three insertions of `line_entries`. -/
def line_three : Index Int :=
  { parameters := line_index.parameters, count := 4,
    vectors := [
      { id := uint64_max, offset := 0, data := [0], short_edge_out := [(100, 1)],
        short_edge_in := [], long_edge_out := [], long_edge_in := [],
        keep_connected := [] },
      { id := 1, offset := 1, data := [10], short_edge_out := [(81, 2)],
        short_edge_in := [0, 2], long_edge_out := [], long_edge_in := [],
        keep_connected := [] },
      { id := 2, offset := 2, data := [1], short_edge_out := [(81, 1)],
        short_edge_in := [1, 3], long_edge_out := [], long_edge_in := [],
        keep_connected := [] },
      { id := 3, offset := 3, data := [11], short_edge_out := [(100, 2)],
        short_edge_in := [], long_edge_out := [], long_edge_in := [],
        keep_connected := [] }],
    empty := [], zero := [0], id_to_offset := [(uint64_max, 0), (1, 1), (2, 2), (3, 3)] }

/-- Three more insertions on the line: the points 1, 3 and 2 with ids 1, 2 and 3. -/
def stranded_entries : List (Nat × List Int) := [(1, [1]), (2, [3]), (3, [2])]

/-- The index `line_index` after the three insertions of `stranded_entries`.  The third
insertion erases the out-edge `(9, 0)` of the record at offset 2 and puts it back (line 412)
without putting the offset 2 back into `short_edge_in` of the zero point. -/
def stranded_index : Index Int :=
  { parameters := line_index.parameters, count := 4,
    vectors := [
      { id := uint64_max, offset := 0, data := [0], short_edge_out := [(1, 1)],
        short_edge_in := [1], long_edge_out := [], long_edge_in := [],
        keep_connected := [] },
      { id := 1, offset := 1, data := [1], short_edge_out := [(1, 0)],
        short_edge_in := [0], long_edge_out := [], long_edge_in := [],
        keep_connected := [] },
      { id := 2, offset := 2, data := [3], short_edge_out := [(1, 3), (9, 0)],
        short_edge_in := [3], long_edge_out := [], long_edge_in := [],
        keep_connected := [] },
      { id := 3, offset := 3, data := [2], short_edge_out := [(1, 2)],
        short_edge_in := [2], long_edge_out := [], long_edge_in := [],
        keep_connected := [] }],
    empty := [], zero := [0], id_to_offset := [(uint64_max, 0), (1, 1), (2, 2), (3, 3)] }

/-- The four corners of the unit square with ids 1 to 4, over the rationals. -/
def square_entries : List (Nat × List ℚ) :=
  [(1, [0, 0]), (2, [1, 0]), (3, [0, 1]), (4, [1, 1])]

/-- The conversion of a `uint64_t` value to `int64_t` (two's complement). -/
def to_int64 (x : Nat) : Int :=
  if x % 2 ^ 64 < 2 ^ 63 then ((x % 2 ^ 64 : Nat) : Int) else ((x % 2 ^ 64 : Nat) : Int) - 2 ^ 64

/-- The function `get_offset(index, id)`: `index.id_to_offset.find(id)->second`, converted to
the return type `int64_t`.  `none` when the id is not a key, where `find` returns `end()`. -/
def get_offset {D : Type} (index : Index D) (id : Nat) : Option Int :=
  match index.id_to_offset.find? (fun e => e.1 == id) with
  | none => none
  | some e => some (to_int64 e.2)

/-- The map `id_to_offset` lists the records in storage order, each id once. -/
def Index.ids_ok {D : Type} (index : Index D) : Prop :=
  index.id_to_offset = index.vectors.map (fun v => (v.id, v.offset)) ∧
    (index.vectors.map Vector.id).Nodup

/-- Modelled from the spec: a kernel for the metric tag `InnerProduct`, which `space.h`
(missing from the sources) would supply.  The spec names the metric and gives no formula;
this is the inner product of the first `dimension` coordinates, a symmetric function. -/
def InnerProduct.distance {D : Type} [Ring D] (vector1 vector2 : List D) (dimension : Nat) :
    D :=
  ((List.zipWith (fun x y => x * y) vector1 vector2).take dimension).sum

/-- The record at offset `x` exists and `y` is in the list `sel` reads off it. -/
def Index.lists {D : Type} (index : Index D) (sel : Vector D → List Nat) (x y : Nat) : Prop :=
  ∃ v, index.vectors[x]? = some v ∧ y ∈ sel v

/-- The record at offset `x` has a short out-edge to offset `y`. -/
def Index.has_out {D : Type} (index : Index D) (x y : Nat) : Prop :=
  index.lists (fun v => v.short_edge_out.map Prod.snd) x y

/-- The record at offset `x` has offset `y` in its `short_edge_in`. -/
def Index.has_in {D : Type} (index : Index D) (x y : Nat) : Prop :=
  index.lists (fun v => v.short_edge_in) x y

/-- The record at offset `x` has offset `y` in its `keep_connected`. -/
def Index.has_keep {D : Type} (index : Index D) (x y : Nat) : Prop :=
  index.lists (fun v => v.keep_connected) x y

/-- Two offsets are linked when either record lists the other in its `short_edge_out`,
`short_edge_in` or `keep_connected`. -/
def Index.linked {D : Type} (index : Index D) (x y : Nat) : Prop :=
  index.has_out x y ∨ index.has_in x y ∨ index.has_keep x y ∨
    index.has_out y x ∨ index.has_in y x ∨ index.has_keep y x

/-- Two offsets are joined when a chain of linked offsets leads from one to the other. -/
def Index.joined {D : Type} (index : Index D) (x y : Nat) : Prop :=
  Relation.ReflTransGen index.linked x y

/-- Every entry that the first index lists in a short edge container or `keep_connected`
set is listed by the second index too. -/
def Index.grows {D : Type} (index index1 : Index D) : Prop :=
  ∀ x y, (index.has_out x y → index1.has_out x y) ∧ (index.has_in x y → index1.has_in x y) ∧
    (index.has_keep x y → index1.has_keep x y)

/-- The `keep_connected` sets are symmetric. -/
def Index.keep_sym {D : Type} (index : Index D) : Prop :=
  ∀ a b, index.has_keep a b → index.has_keep b a

/-- The index after the three insertions of `stranded_entries` on a fresh index like
`line_index` whose uninitialised upper limit holds 0: the out-edge `(9, 0)` erased from the
record at offset 2 is not put back, the zero point and the record at offset 2 are entered in
each other's `keep_connected` (lines 416-417). -/
def reserve_index : Index Int :=
  { parameters := (Index.new Metric.Euclidean2 1 1 0 1 0 : Index Int).parameters, count := 4,
    vectors := [
      { id := uint64_max, offset := 0, data := [0], short_edge_out := [(1, 1)],
        short_edge_in := [1], long_edge_out := [], long_edge_in := [],
        keep_connected := [2] },
      { id := 1, offset := 1, data := [1], short_edge_out := [(1, 0)],
        short_edge_in := [0], long_edge_out := [], long_edge_in := [],
        keep_connected := [] },
      { id := 2, offset := 2, data := [3], short_edge_out := [(1, 3)],
        short_edge_in := [3], long_edge_out := [], long_edge_in := [],
        keep_connected := [0] },
      { id := 3, offset := 3, data := [2], short_edge_out := [(1, 2)],
        short_edge_in := [2], long_edge_out := [], long_edge_in := [],
        keep_connected := [] }],
    empty := [], zero := [0], id_to_offset := [(uint64_max, 0), (1, 1), (2, 2), (3, 3)] }

/-- The offset `y` is reached from the offset `x` following `short_edge_out` entries alone. -/
def Index.out_reaches {D : Type} (index : Index D) (x y : Nat) : Prop :=
  Relation.ReflTransGen index.has_out x y

/-- The index `line_index` after `add(index, 1, (10))` and `add(index, 2, (1))`. -/
def line_two : Index Int :=
  { parameters := line_index.parameters, count := 3,
    vectors := [
      { id := uint64_max, offset := 0, data := [0], short_edge_out := [(100, 1)],
        short_edge_in := [], long_edge_out := [], long_edge_in := [],
        keep_connected := [] },
      { id := 1, offset := 1, data := [10], short_edge_out := [(81, 2)],
        short_edge_in := [0, 2], long_edge_out := [], long_edge_in := [],
        keep_connected := [] },
      { id := 2, offset := 2, data := [1], short_edge_out := [(81, 1)],
        short_edge_in := [1], long_edge_out := [], long_edge_in := [],
        keep_connected := [] }],
    empty := [], zero := [0], id_to_offset := [(uint64_max, 0), (1, 1), (2, 2)] }

/-- A fresh index over the integers with lower limit 1 and magnification 1 (termination
number 2); the uninitialised upper limit holds 1. -/
def twin_index : Index Int := Index.new Metric.Euclidean2 1 1 1 1 1

/-- The index `twin_index` after `add(index, 1, (10))`. -/
def twin_one : Index Int :=
  { parameters := twin_index.parameters, count := 2,
    vectors := [
      { id := uint64_max, offset := 0, data := [0], short_edge_out := [(100, 1)],
        short_edge_in := [1], long_edge_out := [], long_edge_in := [], keep_connected := [] },
      { id := 1, offset := 1, data := [10], short_edge_out := [(100, 0)],
        short_edge_in := [0], long_edge_out := [], long_edge_in := [], keep_connected := [] }],
    empty := [], zero := [0], id_to_offset := [(uint64_max, 0), (1, 1)] }

/-- The index `twin_one` after `add(index, 2, (1))`: the probe returns the pair `(81, 1)`
twice, and the new record holds it twice in `short_edge_out`. -/
def twin_two : Index Int :=
  { parameters := twin_index.parameters, count := 3,
    vectors := [
      { id := uint64_max, offset := 0, data := [0], short_edge_out := [(100, 1)],
        short_edge_in := [], long_edge_out := [], long_edge_in := [], keep_connected := [] },
      { id := 1, offset := 1, data := [10], short_edge_out := [(81, 2)],
        short_edge_in := [0, 2], long_edge_out := [], long_edge_in := [],
        keep_connected := [] },
      { id := 2, offset := 2, data := [1], short_edge_out := [(81, 1), (81, 1)],
        short_edge_in := [1], long_edge_out := [], long_edge_in := [], keep_connected := [] }],
    empty := [], zero := [0], id_to_offset := [(uint64_max, 0), (1, 1), (2, 2)] }

/-- Loop invariant of the probes: the listed offsets are pairwise different and each of them
is marked in `visited`. -/
def probe_ok (visited : List Bool) (offsets : List Nat) : Prop :=
  offsets.Nodup ∧ ∀ o ∈ offsets, visited[o]? = some true

/-- The members of a record that identify it: id, offset and data. -/
def Vector.label {D : Type} (v : Vector D) : Nat × Nat × List D := (v.id, v.offset, v.data)

/-- A hand-made index with a non-empty stack `empty`: `line_one` with the offset 1 marked as
free, the state a removal of the record at offset 1 would leave for `add` to reuse. -/
def reuse_index : Index Int := { line_one with empty := [1] }

/-- The index `reuse_index` after `add(index, 5, (3))`. -/
def reuse_result : Index Int :=
  { parameters := line_index.parameters, count := 3,
    vectors := [
      { id := uint64_max, offset := 0, data := [0], short_edge_out := [(9, 1)],
        short_edge_in := [1], long_edge_out := [], long_edge_in := [],
        keep_connected := [] },
      { id := 5, offset := 1, data := [3], short_edge_out := [(9, 0), (100, 0)],
        short_edge_in := [0], long_edge_out := [], long_edge_in := [],
        keep_connected := [] }],
    empty := [], zero := [0], id_to_offset := [(uint64_max, 0), (1, 1), (5, 1)] }

/-- An input file stream of `example_nnhnsw.cpp`: the bytes not yet read, and whether the
stream is still good (a read that runs past the end of the file sets `failbit`). -/
structure Input_Stream where
  bytes : List Nat
  good : Bool
deriving DecidableEq, Repr

/-- The call `stream.read(buffer, n)` on a buffer holding `old`: on a good stream with `n`
bytes left the buffer gets them; with fewer bytes left it gets what is there, keeps the rest
of `old`, and the stream fails; a failed stream leaves the buffer alone. -/
def Input_Stream.read (s : Input_Stream) (n : Nat) (old : List Nat) : Input_Stream × List Nat :=
  if s.good then
    if n ≤ s.bytes.length then ({ bytes := s.bytes.drop n, good := true }, s.bytes.take n)
    else ({ bytes := [], good := false }, s.bytes ++ old.drop s.bytes.length)
  else (s, old)

/-- The number held by an object whose bytes are `bytes`, least significant byte first. -/
def little_endian (bytes : List Nat) : Nat :=
  bytes.foldr (fun b value => b + 256 * value) 0

/-- The inner loop of `load_vector` and `load_neighbors`: `n` reads of `width` bytes, each
into an element that was initialised to zero.  An element is kept as the number its bytes
spell (for a `float`, its 32-bit pattern). -/
def read_row (width : Nat) : Nat → Input_Stream → Input_Stream × List Nat
  | 0, s => (s, [])
  | n + 1, s =>
    let element := s.read width (List.replicate width 0)
    let rest := read_row width n element.1
    (rest.1, little_endian element.2 :: rest.2)

/-- The outer loop of `load_vector` and `load_neighbors`: `n` rows of `columns` elements. -/
def read_rows (width columns : Nat) : Nat → Input_Stream → Input_Stream × List (List Nat)
  | 0, s => (s, [])
  | n + 1, s =>
    let row := read_row width columns s
    let rest := read_rows width columns n row.1
    (rest.1, row.2 :: rest.2)

/-- How a call of a loader of `example_nnhnsw.cpp` ends when it does not return: with
`exit(code)`, or with an exception thrown while the result is allocated (`std::bad_alloc` or
`std::length_error`), which nothing in the program catches. -/
inductive Ending where
  | exits (code : Nat)
  | throws
deriving DecidableEq, Repr

/-- The function `load_vector(file_path)` of `example_nnhnsw.cpp`.  `file` holds the bytes of
the file at `file_path`, or `none` when it cannot be opened.  `allocates count dimension`
tells whether the construction of the `count` rows of `dimension` elements at line 38
completes; the memory at hand decides that, not the sources.  The result is
`Except.error (Ending.exits code)` when the program ends with `exit(code)`,
`Except.error Ending.throws` when the allocation throws, and `Except.ok vectors` when the
function returns; it is `none` when a loop counter of type `int` would pass `2^31 - 1`,
which is an overflow.  The line written to `std::cout` is left out. -/
def load_vector (allocates : Nat → Nat → Bool) (file : Option (List Nat)) :
    Option (Except Ending (List (List Nat))) :=
  match file with
  | none => some (Except.error (Ending.exits 0))
  | some bytes =>
    let vectors_file : Input_Stream := { bytes := bytes, good := true }
    let count := vectors_file.read 8 (List.replicate 8 0)
    let dimension := count.1.read 8 (List.replicate 8 0)
    if allocates (little_endian count.2) (little_endian dimension.2) then
      if little_endian count.2 < 2 ^ 31 ∧
          (little_endian count.2 = 0 ∨ little_endian dimension.2 < 2 ^ 31) then
        some (Except.ok (read_rows 4 (little_endian dimension.2) (little_endian count.2)
          dimension.1).2)
      else none
    else some (Except.error Ending.throws)

/-- The function `load_neighbors(file_path)` of `example_nnhnsw.cpp`, under the same
conventions; its elements are `uint64_t` and the allocation is at line 63. -/
def load_neighbors (allocates : Nat → Nat → Bool) (file : Option (List Nat)) :
    Option (Except Ending (List (List Nat))) :=
  match file with
  | none => some (Except.error (Ending.exits 0))
  | some bytes =>
    let neighbors_file : Input_Stream := { bytes := bytes, good := true }
    let count := neighbors_file.read 8 (List.replicate 8 0)
    let neighbor_count := count.1.read 8 (List.replicate 8 0)
    if allocates (little_endian count.2) (little_endian neighbor_count.2) then
      if little_endian count.2 < 2 ^ 31 ∧
          (little_endian count.2 = 0 ∨ little_endian neighbor_count.2 < 2 ^ 31) then
        some (Except.ok (read_rows 8 (little_endian neighbor_count.2) (little_endian count.2)
          neighbor_count.1).2)
      else none
    else some (Except.error Ending.throws)

/-- A property of records that the five writes of the binding loop keep. -/
def write_stable {D : Type} [LinearOrder D] (P : Vector D → Prop) : Prop :=
  ∀ v, P v → (∀ x, P (Vector.out_insert x v)) ∧ P (Vector.out_erase_last v) ∧
    (∀ o, P (Vector.in_insert o v)) ∧ (∀ o, P (Vector.in_erase o v)) ∧
    ∀ o, P (Vector.keep_insert o v)

/-- Every record of the index has the property `P`. -/
def Index.each {D : Type} (index : Index D) (P : Vector D → Prop) : Prop :=
  ∀ (j : Nat) (v : Vector D), index.vectors[j]? = some v → P v

/-- The entries of `short_edge_out` of the record at offset `j` (none when there is no such
record). -/
def Index.out_edges {D : Type} (index : Index D) (j : Nat) : List (D × Nat) :=
  match index.vectors[j]? with
  | some v => v.short_edge_out
  | none => []

/-- The candidates that the probe of the call `add(index, id, added_vector_data)` returns:
`search_add` is run on the index as allocated (lines 349-374 of `add`), and its
`nearest_neighbors` are given in pop order. -/
def add_candidates {D : Type} [LinearOrder D] (similarity : List D → List D → Nat → D)
    (distance_to_zero : List D → Nat → D) (stale : Stale_Read D) (index : Index D) (id : Nat)
    (added_vector_data : List D) : Option (List (D × Nat)) :=
  (add_allocate index id added_vector_data).bind fun allocated =>
  (search_add similarity distance_to_zero stale allocated.1 added_vector_data).map
    fun probe => probe.2.2

/-- The index `line_one` after `add(index, 2, (200))`: the zero point is the one candidate,
and the new record is farther from it than its only out-edge is long. -/
def line_far : Index Int :=
  { parameters := line_index.parameters, count := 3,
    vectors := [
      { id := uint64_max, offset := 0, data := [0], short_edge_out := [(100, 1)],
        short_edge_in := [1, 2], long_edge_out := [], long_edge_in := [],
        keep_connected := [] },
      { id := 1, offset := 1, data := [10], short_edge_out := [(100, 0)],
        short_edge_in := [0], long_edge_out := [], long_edge_in := [],
        keep_connected := [] },
      { id := 2, offset := 2, data := [200], short_edge_out := [(40000, 0)],
        short_edge_in := [], long_edge_out := [], long_edge_in := [],
        keep_connected := [] }],
    empty := [], zero := [0], id_to_offset := [(uint64_max, 0), (1, 1), (2, 2)] }

/-- The distance the insertion probe evaluates for the record at offset `o`: the seed value
`distance_to_zero(target)` for the zero point (line 120), and `similarity(target, data)`
for every other record (the pushes of the three phases). -/
def probe_distance {D : Type} (similarity : List D → List D → Nat → D)
    (distance_to_zero : List D → Nat → D) (index : Index D) (target_vector : List D)
    (o : Nat) : Option D :=
  if o = 0 then some (distance_to_zero target_vector index.parameters.dimension)
  else (index.vectors[o]?).map fun v =>
    similarity target_vector v.data index.parameters.dimension

/-- What the probe keeps track of: the offsets of the tracked pairs are pairwise different
and marked, every marked offset is tracked, every tracked pair carries the distance the probe
evaluates for its offset, the unmarked records are the untracked ones, and the zero point is
marked. -/
def tracked_ok {D : Type} (dist : Nat → Option D) (visited : List Bool)
    (tracked : List (D × Nat)) : Prop :=
  probe_ok visited (tracked.map Prod.snd) ∧
    (∀ o, visited[o]? = some true → o ∈ tracked.map Prod.snd) ∧
    (∀ e ∈ tracked, dist e.2 = some e.1) ∧
    tracked.length + visited.count false = visited.length ∧
    visited[0]? = some true

/-- The edges are wired consistently: every entry of a set `short_edge_in` is backed by an
out-edge in the other direction, no set `short_edge_in` holds an offset twice, and no record
lists itself in `short_edge_out` or `keep_connected`. -/
def Index.wired {D : Type} (index : Index D) : Prop :=
  (∀ a b, index.has_in a b → index.has_out b a) ∧
    index.each (fun v => v.short_edge_in.Nodup) ∧
    (∀ a, ¬ index.has_out a a) ∧ ∀ a, ¬ index.has_keep a a

/-- The index after `add(index, 1, (10))` and `add(index, 2, (-10))` on a fresh index with
lower limit 2 and magnification `2^64 - 1` (termination number 1), whose uninitialised upper
limit holds 0: the record at offset 1 is the one candidate of the second insertion. -/
def wrap_two : Index Int :=
  { parameters := (Index.new Metric.Euclidean2 1 2 (2 ^ 64 - 1) 1 0 : Index Int).parameters, count := 3,
    vectors := [
      { id := uint64_max, offset := 0, data := [0], short_edge_out := [(100, 1)],
        short_edge_in := [1], long_edge_out := [], long_edge_in := [],
        keep_connected := [] },
      { id := 1, offset := 1, data := [10], short_edge_out := [(100, 0), (400, 2)],
        short_edge_in := [0, 2], long_edge_out := [], long_edge_in := [],
        keep_connected := [] },
      { id := 2, offset := 2, data := [-10], short_edge_out := [(400, 1)],
        short_edge_in := [1], long_edge_out := [], long_edge_in := [],
        keep_connected := [] }],
    empty := [], zero := [0], id_to_offset := [(uint64_max, 0), (1, 1), (2, 2)] }

/-- The class `ehnsw::Vector<Dimension_Type>` of `source/ehnsw.h`: the coordinates of one
stored vector. -/
structure ehnsw.Vector (D : Type) where
  data : List D
deriving DecidableEq, Repr

/-- The class `ehnsw::Vector_In_Index`: a vector within one layer.  `out` is a
`std::map<float, uint64_t>`, a list ordered by key whose keys are pairwise different;
`in_edges` is the member `in` (a keyword of Lean), a `std::unordered_set`. -/
structure ehnsw.Vector_In_Index (D : Type) where
  global_offset : Nat
  out : List (D × Nat)
  in_edges : List Nat
deriving DecidableEq, Repr

/-- The class `ehnsw::Layer`: `vectors` is a `std::unordered_map` from global offsets to the
vectors of the layer, listed in its iteration order. -/
structure ehnsw.Layer (D : Type) where
  vectors : List (Nat × ehnsw.Vector_In_Index D)
  selected_vectors : List Nat
deriving DecidableEq, Repr

/-- The class `ehnsw::Index` without its function pointer `distance_calculation`, which is
passed to the functions below as an argument. -/
structure ehnsw.Index (D : Type) where
  vectors : List (ehnsw.Vector D)
  layers : List (ehnsw.Layer D)
  minimum_connect_number : Nat
  relaxed_monotonicity : Nat
  step : Nat
deriving DecidableEq, Repr

/-- The exceptions thrown by `ehnsw::query`: `std::logic_error` and
`std::invalid_argument`. -/
inductive ehnsw.Exception where
  | logic_error
  | invalid_argument
deriving DecidableEq, Repr

/-- Insertion into a `std::map<float, uint64_t>`: the pair goes in front of the first entry
with a greater key, and nothing is inserted when an entry with an equal key is there. -/
def ehnsw.map_insert {D : Type} [LinearOrder D] (x : D × Nat) :
    List (D × Nat) → List (D × Nat)
  | [] => [x]
  | y :: ys =>
    if x.1 < y.1 then x :: y :: ys
    else if y.1 < x.1 then y :: ehnsw.map_insert x ys
    else y :: ys

/-- The loops of `ehnsw.h` that insert, for every offset of a list, the pair of its distance
to the query and the offset itself into a map: lines 365-369 of `query` and lines 188-192 of
`nearest_neighbors`. -/
def ehnsw.scan {D : Type} [LinearOrder D] (distance_calculation : List D → List D → D)
    (index : ehnsw.Index D) (query_vector : List D) :
    List Nat → List (D × Nat) → Option (List (D × Nat))
  | [], result => some result
  | global_offset :: rest, result =>
    match index.vectors[global_offset]? with
    | none => none
    | some vector =>
      ehnsw.scan distance_calculation index query_vector rest
        (ehnsw.map_insert (distance_calculation query_vector vector.data, global_offset)
          result)

/-- The two inner loops of `nearest_neighbors` (lines 233-250): every offset of the list
that `flags.insert` newly enters is inserted into `waiting_vectors` with its distance to the
query. -/
def ehnsw.expand {D : Type} [LinearOrder D] (distance_calculation : List D → List D → D)
    (index : ehnsw.Index D) (query_vector : List D) :
    List Nat → List Nat × List (D × Nat) → Option (List Nat × List (D × Nat))
  | [], state => some state
  | global_offset :: rest, (flags, waiting_vectors) =>
    if global_offset ∈ flags then
      ehnsw.expand distance_calculation index query_vector rest (flags, waiting_vectors)
    else
      match index.vectors[global_offset]? with
      | none => none
      | some vector =>
        ehnsw.expand distance_calculation index query_vector rest
          (flags ++ [global_offset],
            ehnsw.map_insert (distance_calculation query_vector vector.data, global_offset)
              waiting_vectors)

/-- The `while` loop of `nearest_neighbors` (lines 204-251).  It runs on fuel, one unit for
each pair taken off `waiting_vectors`. -/
def ehnsw.nearest_neighbors_loop {D : Type} [LinearOrder D]
    (distance_calculation : List D → List D → D) (index : ehnsw.Index D)
    (layer : ehnsw.Layer D) (query_vector : List D) (top_k relaxed_monotonicity : Nat) :
    Nat → List (D × Nat) → List Nat → Nat → List (D × Nat) → Option (List (D × Nat))
  | 0, _, _, _, _ => none
  | _ + 1, [], _, _, nearest_neighbors => some nearest_neighbors
  | fuel + 1, processing :: waiting_vectors, flags, out_of_bound, nearest_neighbors =>
    let branch : Option (Nat × List (D × Nat)) :=
      if nearest_neighbors.length < top_k then
        some (out_of_bound, ehnsw.map_insert processing nearest_neighbors)
      else if nearest_neighbors.any (fun e => decide (processing.1 < e.1)) then
        some (0, (ehnsw.map_insert processing nearest_neighbors).dropLast)
      else if relaxed_monotonicity < out_of_bound then none
      else some ((out_of_bound + 1) % 2 ^ 64, nearest_neighbors)
    match branch with
    | none => some nearest_neighbors
    | some (out_of_bound1, nearest1) =>
      match layer.vectors.find? (fun e => e.1 == processing.2) with
      | none => none
      | some entry =>
        (ehnsw.expand distance_calculation index query_vector (entry.2.out.map Prod.snd)
          (set_insert processing.2 flags, waiting_vectors)).bind fun state1 =>
        (ehnsw.expand distance_calculation index query_vector entry.2.in_edges state1).bind
          fun state2 =>
        ehnsw.nearest_neighbors_loop distance_calculation index layer query_vector top_k
          relaxed_monotonicity fuel state2.2 state2.1 out_of_bound1 nearest1

/-- The function `ehnsw::nearest_neighbors`.  The sum `top_k + relaxed_monotonicity` is
taken in `uint64_t`.  A pair enters `waiting_vectors` only together with a newly flagged
offset, and such an offset is the start or is stored in an `out` or `in` container of the
layer, so the fuel given to the loop is two more than the number of those entries; more
fuel gives the same result (`nearest_neighbors_fuel`). -/
def ehnsw.nearest_neighbors {D : Type} [LinearOrder D]
    (distance_calculation : List D → List D → D) (index : ehnsw.Index D) (layer_number : Nat)
    (query_vector : List D) (start top_k relaxed_monotonicity : Nat) :
    Option (List (D × Nat)) :=
  match index.layers[layer_number]? with
  | none => none
  | some layer =>
    if layer.vectors.length < (top_k + relaxed_monotonicity) % 2 ^ 64 then
      ehnsw.scan distance_calculation index query_vector (layer.vectors.map Prod.fst) []
    else
      match index.vectors[start]? with
      | none => none
      | some vector =>
        ehnsw.nearest_neighbors_loop distance_calculation index layer query_vector top_k
          relaxed_monotonicity
          ((layer.vectors.map fun e => e.2.out.length + e.2.in_edges.length).sum + 2)
          (ehnsw.map_insert (distance_calculation query_vector vector.data, start) []) [] 0 []

/-- The loop at lines 387-391 of `query`: one search with `top_k = 1` in each of the layers
of the list, started from the first entry of the result of the layer above. -/
def ehnsw.descend {D : Type} [LinearOrder D] (distance_calculation : List D → List D → D)
    (index : ehnsw.Index D) (query_vector : List D) :
    List Nat → List (D × Nat) → Option (List (D × Nat))
  | [], result => some result
  | i :: rest, result =>
    match result.head? with
    | none => none
    | some first =>
      (ehnsw.nearest_neighbors distance_calculation index i query_vector first.2 1
        index.relaxed_monotonicity).bind fun result1 =>
      ehnsw.descend distance_calculation index query_vector rest result1

/-- The function `ehnsw::query(index, query_vector, top_k, relaxed_monotonicity)`; the last
argument has the default value 0 in the source.  The index is taken by `const` reference, so
the function has a result and no effect on the index: `Except.error` is the exception
thrown, `Except.ok` the returned map, in the order of its keys. -/
def ehnsw.query {D : Type} [LinearOrder D] (distance_calculation : List D → List D → D)
    (index : ehnsw.Index D) (query_vector : List D) (top_k relaxed_monotonicity : Nat) :
    Option (Except ehnsw.Exception (List (D × Nat))) :=
  match index.vectors with
  | [] => some (Except.error ehnsw.Exception.logic_error)
  | first :: _ =>
    if query_vector.length ≠ first.data.length then
      some (Except.error ehnsw.Exception.invalid_argument)
    else
      let relaxed_monotonicity1 :=
        if relaxed_monotonicity = 0 then top_k / 2 else relaxed_monotonicity
      if index.vectors.length < top_k then
        (ehnsw.scan distance_calculation index query_vector
          (List.range index.vectors.length) []).map Except.ok
      else if index.layers.length = 1 then
        ((index.layers[0]?).bind fun layer => layer.vectors.head?).bind fun start =>
        (ehnsw.nearest_neighbors distance_calculation index 0 query_vector start.1 top_k
          relaxed_monotonicity1).map Except.ok
      else
        (index.layers.getLast?.bind fun layer => layer.vectors.head?).bind fun start =>
        (ehnsw.nearest_neighbors distance_calculation index (index.layers.length - 1)
          query_vector start.1 1 index.relaxed_monotonicity).bind fun result =>
        (ehnsw.descend distance_calculation index query_vector
          (List.range' 1 (index.layers.length - 2)).reverse result).bind fun result1 =>
        match result1.head? with
        | none => none
        | some first1 =>
          (ehnsw.nearest_neighbors distance_calculation index 0 query_vector first1.2 top_k
            relaxed_monotonicity1).map Except.ok

/-- Modelled from the spec: a function for `ehnsw::Index::distance_calculation`, which
`distance.h` (missing from the sources) would supply.  The spec names the metric Euclidean²;
this is the sum of the squared coordinate differences of the two vectors, in exact
arithmetic. -/
def ehnsw.euclidean2 {D : Type} [Ring D] (vector1 vector2 : List D) : D :=
  Euclidean2.distance vector1 vector2 vector1.length

/-- The constructor `ehnsw::Index(distance_type)`: no vectors, no layers, and the three
numbers it assigns. -/
def ehnsw.Index.new {D : Type} : ehnsw.Index D :=
  { vectors := [], layers := [], minimum_connect_number := 5, relaxed_monotonicity := 100,
    step := 3 }

/-- An `ehnsw` index over the integers that stores the vectors `(1)` and `(-1)`.  Its layers
are those that `insert((1))` and `insert((-1))` leave under the Euclidean² distance, traced
by hand through `insert` and `add` of `ehnsw.h`, which are not embedded here; the branches
of `query` examined below read `vectors` only. -/
def tie_index : ehnsw.Index Int :=
  { vectors := [{ data := [1] }, { data := [-1] }],
    layers := [
      { vectors := [(0, { global_offset := 0, out := [], in_edges := [1] }),
          (1, { global_offset := 1, out := [(4, 0)], in_edges := [] })],
        selected_vectors := [1] },
      { vectors := [(1, { global_offset := 1, out := [], in_edges := [] })],
        selected_vectors := [] }],
    minimum_connect_number := 5, relaxed_monotonicity := 100, step := 3 }

/-- The offsets stored in the `out` and `in` containers of the vectors of a layer, with
repetitions. -/
def ehnsw.Layer.stored {D : Type} (layer : ehnsw.Layer D) : List Nat :=
  (layer.vectors.map fun e => e.2.out.map Prod.snd ++ e.2.in_edges).flatten

/-! ## Containers -/

theorem length_pq_push {α : Type} (before : α → α → Bool) (x : α) (q : List α) :
    (pq_push before x q).length = q.length + 1 := by
  induction q with
  | nil => rfl
  | cons y ys ih =>
    unfold pq_push
    split
    · rfl
    · simp [ih]

theorem mem_pq_push {α : Type} (before : α → α → Bool) (x y : α) (q : List α) :
    y ∈ pq_push before x q ↔ y = x ∨ y ∈ q := by
  induction q with
  | nil => simp [pq_push]
  | cons z zs ih =>
    unfold pq_push
    split
    · simp
    · simp only [List.mem_cons, ih]
      tauto

theorem length_multimap_insert {D : Type} [LinearOrder D] (x : D × Nat) (m : List (D × Nat)) :
    (multimap_insert x m).length = m.length + 1 := by
  induction m with
  | nil => rfl
  | cons y ys ih =>
    unfold multimap_insert
    split
    · rfl
    · simp [ih]

theorem mem_multimap_insert {D : Type} [LinearOrder D] (x y : D × Nat) (m : List (D × Nat)) :
    y ∈ multimap_insert x m ↔ y = x ∨ y ∈ m := by
  induction m with
  | nil => simp [multimap_insert]
  | cons z zs ih =>
    unfold multimap_insert
    split
    · simp
    · simp only [List.mem_cons, ih]
      tauto

theorem mem_set_insert (x y : Nat) (s : List Nat) : y ∈ set_insert x s ↔ y = x ∨ y ∈ s := by
  unfold set_insert
  split
  · constructor
    · exact Or.inr
    · rintro (h | h)
      · subst h; assumption
      · exact h
  · simp only [List.mem_append, List.mem_singleton]
    tauto

/-! ## Writes through `index.vectors[i]` -/

theorem update_eq_some {D : Type} {index index1 : Index D} {i : Nat} {f : Vector D → Vector D}
    (h : index.update i f = some index1) :
    ∃ v, index.vectors[i]? = some v ∧
      index1 = { index with vectors := index.vectors.set i (f v) } := by
  unfold Index.update at h
  split at h
  · exact absurd h (by simp)
  · next v hv => exact ⟨v, hv, (Option.some.inj h).symm⟩

theorem update_isSome {D : Type} (index : Index D) {i : Nat} (f : Vector D → Vector D)
    (h : i < index.vectors.length) : ∃ index1, index.update i f = some index1 := by
  unfold Index.update
  rw [List.getElem?_eq_getElem h]
  exact ⟨_, rfl⟩

theorem update_frame {D : Type} {index index1 : Index D} {i : Nat} {f : Vector D → Vector D}
    (h : index.update i f = some index1) (hf : ∀ v, (f v).core = v.core) :
    index1.frame = index.frame := by
  obtain ⟨v, hv, rfl⟩ := update_eq_some h
  have hm : (index.vectors.set i (f v)).map Vector.core = index.vectors.map Vector.core := by
    apply List.ext_getElem?
    intro j
    rw [List.map_set, List.getElem?_set]
    split
    · next hij =>
      subst hij
      rcases List.getElem?_eq_some.1 hv with ⟨hlt, hget⟩
      simp [hlt, hf, hget]
    · rfl
  simp only [Index.frame, hm]

theorem update_vectors_length {D : Type} {index index1 : Index D} {i : Nat}
    {f : Vector D → Vector D} (h : index.update i f = some index1) :
    index1.vectors.length = index.vectors.length := by
  obtain ⟨v, -, rfl⟩ := update_eq_some h
  simp

theorem update_getElem? {D : Type} {index index1 : Index D} {i : Nat}
    {f : Vector D → Vector D} (h : index.update i f = some index1) (j : Nat) :
    index1.vectors[j]? = if j = i then (index.vectors[i]?).map f else index.vectors[j]? := by
  obtain ⟨v, hv, rfl⟩ := update_eq_some h
  have hlt : i < index.vectors.length := by
    rcases List.getElem?_eq_some.1 hv with ⟨hlt, -⟩
    exact hlt
  simp only [List.getElem?_set]
  by_cases hij : i = j
  · subst hij
    simp [hlt, hv]
  · have hji : ¬ j = i := fun e => hij e.symm
    simp [hij, hji]

/-! ## The binding loop leaves everything but short edges and `keep_connected` alone -/

theorem link_back_frame {D : Type} [LinearOrder D] {index index1 : Index D}
    {offset neighbor_index neighbor_offset : Nat} {distance : D}
    (h : link_back index offset neighbor_index distance neighbor_offset = some index1) :
    index1.frame = index.frame := by
  unfold link_back at h
  obtain ⟨i1, h1, h2⟩ := Option.bind_eq_some.1 h
  exact (update_frame h2 (fun _ => rfl)).trans (update_frame h1 (fun _ => rfl))

theorem protect_frame {D : Type} [LinearOrder D] {index index1 : Index D}
    {neighbor_index farest_offset : Nat} {farest_distance : D}
    (h : protect index neighbor_index farest_distance farest_offset = some index1) :
    index1.frame = index.frame := by
  unfold protect at h
  split at h
  · exact absurd h (by simp)
  · split at h
    · rw [← Option.some.inj h]
    · split at h
      · exact absurd h (by simp)
      · rw [← Option.some.inj h]
      · split at h
        · exact update_frame h (fun _ => rfl)
        · obtain ⟨i1, h1, h2⟩ := Option.bind_eq_some.1 h
          exact (update_frame h2 (fun _ => rfl)).trans (update_frame h1 (fun _ => rfl))

theorem bind_candidate_frame {D : Type} [LinearOrder D] {index index1 : Index D}
    {offset : Nat} {candidate : D × Nat}
    (h : bind_candidate index offset candidate = some index1) :
    index1.frame = index.frame := by
  unfold bind_candidate at h
  split at h
  · exact absurd h (by simp)
  · obtain ⟨i1, h1, h⟩ := Option.bind_eq_some.1 h
    obtain ⟨i2, h2, h⟩ := Option.bind_eq_some.1 h
    have f2 : i2.frame = index.frame :=
      (update_frame h2 (fun _ => rfl)).trans (update_frame h1 (fun _ => rfl))
    split at h
    · exact absurd h (by simp)
    · split at h
      · exact (link_back_frame h).trans f2
      · split at h
        · exact absurd h (by simp)
        · split at h
          · obtain ⟨i3, h3, h⟩ := Option.bind_eq_some.1 h
            obtain ⟨i4, h4, h⟩ := Option.bind_eq_some.1 h
            obtain ⟨i5, h5, h⟩ := Option.bind_eq_some.1 h
            exact (link_back_frame h).trans ((protect_frame h5).trans
              ((update_frame h4 (fun _ => rfl)).trans
                ((update_frame h3 (fun _ => rfl)).trans f2)))
          · rw [← Option.some.inj h]
            exact f2

theorem bind_short_edges_frame {D : Type} [LinearOrder D] {offset : Nat}
    (nearest_neighbors : List (D × Nat)) {index index1 : Index D}
    (h : bind_short_edges index offset nearest_neighbors = some index1) :
    index1.frame = index.frame := by
  induction nearest_neighbors generalizing index with
  | nil =>
    unfold bind_short_edges at h
    rw [← Option.some.inj h]
  | cons c rest ih =>
    unfold bind_short_edges at h
    obtain ⟨i1, h1, h⟩ := Option.bind_eq_some.1 h
    exact (ih h).trans (bind_candidate_frame h1)

/-- What `add` changes outside the short edges when the stack `empty` holds no offset: one
record is appended, the count goes up, the id is entered. -/
theorem add_frame {D : Type} [LinearOrder D] {similarity : List D → List D → Nat → D}
    {distance_to_zero : List D → Nat → D} {stale : Stale_Read D} {index index1 : Index D} {id : Nat}
    {data : List D} (hempty : index.empty = [])
    (h : add similarity distance_to_zero stale index id data = some index1) :
    index1.frame =
      (index.vectors.map Vector.core ++ [(Vector.new id index.count data).core],
        index.parameters, index.count + 1, [], index.zero,
        umap_insert index.id_to_offset id index.count) := by
  unfold add at h
  obtain ⟨a, ha, h⟩ := Option.bind_eq_some.1 h
  split at h
  · exact absurd h (by simp)
  · obtain ⟨probe, -, h⟩ := Option.bind_eq_some.1 h
    rw [bind_short_edges_frame _ h]
    unfold add_allocate at ha
    simp only [hempty] at ha
    rw [← Option.some.inj ha]
    simp [Index.frame]

/-! ## Structural facts kept by `add` -/

theorem frame_ok_new {D : Type} [Zero D] (space : Metric) (dimension short_edge_lower_limit
    magnification cover_range indeterminate : Nat) :
    (Index.new space dimension short_edge_lower_limit magnification cover_range
      indeterminate : Index D).frame_ok := by
  refine ⟨rfl, rfl, Nat.one_pos, ?_⟩
  intro i v hv
  cases i with
  | zero =>
    simp only [Index.new, List.getElem?_cons_zero, Option.some.injEq] at hv
    subst hv
    exact ⟨rfl, rfl, rfl⟩
  | succ j => simp [Index.new] at hv

theorem frame_ok_add {D : Type} [LinearOrder D] {similarity : List D → List D → Nat → D}
    {distance_to_zero : List D → Nat → D} {stale : Stale_Read D} {index index1 : Index D} {id : Nat}
    {data : List D} (hok : index.frame_ok)
    (h : add similarity distance_to_zero stale index id data = some index1) :
    index1.frame_ok := by
  obtain ⟨hempty, hcount, hpos, hall⟩ := hok
  have hf := add_frame hempty h
  simp only [Index.frame, Prod.mk.injEq] at hf
  obtain ⟨hv, -, hc, he, -, -⟩ := hf
  have hlen : index1.vectors.length = index.vectors.length + 1 := by
    have := congrArg List.length hv
    simpa using this
  refine ⟨he, by omega, by omega, ?_⟩
  intro i v hiv
  have hcore : (index1.vectors.map Vector.core)[i]? = some v.core := by
    simp [hiv]
  rw [hv] at hcore
  by_cases hi : i < index.vectors.length
  · rw [List.getElem?_append_left (by simpa using hi)] at hcore
    simp only [List.getElem?_map, Option.map_eq_some'] at hcore
    obtain ⟨w, hw, hwc⟩ := hcore
    obtain ⟨h1, h2, h3⟩ := hall i w hw
    simp only [Vector.core, Prod.mk.injEq] at hwc
    obtain ⟨-, ho, -, hlo, hli⟩ := hwc
    exact ⟨ho ▸ h1, hlo ▸ h2, hli ▸ h3⟩
  · have hi2 : i = index.vectors.length := by
      have := (List.getElem?_eq_some.1 hiv).1
      omega
    subst hi2
    rw [List.getElem?_append_right (by simp)] at hcore
    simp only [List.length_map, Nat.sub_self, List.getElem?_cons_zero, Option.some.injEq,
      Vector.core, Vector.new, Prod.mk.injEq] at hcore
    obtain ⟨-, ho, -, hlo, hli⟩ := hcore
    exact ⟨by omega, hlo.symm, hli.symm⟩

theorem frame_ok_add_all {D : Type} [LinearOrder D] {similarity : List D → List D → Nat → D}
    {distance_to_zero : List D → Nat → D} {stale : Stale_Read D} (entries : List (Nat × List D))
    {index index1 : Index D} (hok : index.frame_ok)
    (h : add_all similarity distance_to_zero stale index entries = some index1) :
    index1.frame_ok := by
  induction entries generalizing index with
  | nil =>
    unfold add_all at h
    exact Option.some.inj h ▸ hok
  | cons e rest ih =>
    unfold add_all at h
    obtain ⟨i1, h1, h⟩ := Option.bind_eq_some.1 h
    exact ih (frame_ok_add hok h1) h

/-! ## The query on an index without long edges at the zero point -/

theorem search_phase1_nil {D : Type} [LinearOrder D] (similarity : List D → List D → Nat → D)
    (stale : Stale_Read D) (index : Index D) (target_vector : List D) (fuel : Nat) (visited : List Bool) :
    search_phase1 similarity stale index target_vector fuel visited [] = none := by
  cases fuel <;> rfl

/-- When the zero point has no out-going long edge, `nearest_neighbors_search` reaches
`waiting_vectors.top()` at line 655 with an empty queue. -/
theorem nearest_neighbors_search_no_long_edge {D : Type} [LinearOrder D]
    (similarity : List D → List D → Nat → D) (stale : Stale_Read D) (index : Index D)
    (target_vector : List D) (top_k magnification : Nat)
    (h : ∀ z, index.vectors[0]? = some z → z.long_edge_out = []) :
    nearest_neighbors_search similarity stale index target_vector top_k magnification = none := by
  unfold nearest_neighbors_search
  cases hz : index.vectors[0]? with
  | none => rfl
  | some z =>
    simp only [h z hz, List.map_nil, seed, Option.some_bind, search_phase1_nil,
      Option.none_bind]

theorem search_frame_ok {D : Type} [LinearOrder D]
    (similarity : List D → List D → Nat → D) (stale : Stale_Read D) {index : Index D}
    (hok : index.frame_ok) (query_vector : List D) (top_k magnification : Nat) :
    search similarity stale index query_vector top_k magnification = none :=
  nearest_neighbors_search_no_long_edge similarity stale index query_vector top_k magnification
    fun z hz => (hok.2.2.2 0 z hz).2.1

/-! ## The insertion probe returns -/

theorem count_false_set (visited : List Bool) (o : Nat) (h : visited[o]? = some false) :
    (visited.set o true).count false + 1 = visited.count false := by
  induction visited generalizing o with
  | nil => simp at h
  | cons b bs ih =>
    cases o with
    | zero =>
      simp only [List.getElem?_cons_zero, Option.some.injEq] at h
      subst h
      simp
    | succ k =>
      simp only [List.getElem?_cons_succ] at h
      have := ih k h
      simp only [List.set_cons_succ, List.count_cons]
      omega

/-- The marking loop returns when all offsets it is given are below `bound`; it only adds
pairs with such offsets to the queue, and every push marks one more record. -/
theorem visit_spec {D : Type} [LinearOrder D] (similarity : List D → List D → Nat → D)
    (index : Index D) (target_vector : List D) (bound : Nat)
    (hb : bound ≤ index.vectors.length) (offsets : List Nat) (ho : ∀ o ∈ offsets, o < bound)
    (visited : List Bool) (waiting : List (D × Nat))
    (hv : visited.length = index.vectors.length) :
    ∃ visited1 waiting1,
      visit similarity index target_vector offsets (visited, waiting) =
        some (visited1, waiting1) ∧
      visited1.length = index.vectors.length ∧
      (∀ e ∈ waiting1, e ∈ waiting ∨ e.2 < bound) ∧
      waiting1.length + visited1.count false = waiting.length + visited.count false ∧
      waiting.length ≤ waiting1.length ∧
      (waiting1.length = waiting.length → waiting1 = waiting) := by
  induction offsets generalizing visited waiting with
  | nil => exact ⟨visited, waiting, rfl, hv, fun e he => Or.inl he, rfl, le_refl _, fun _ => rfl⟩
  | cons o rest ih =>
    have ho1 : o < bound := ho o (List.mem_cons_self _ _)
    have hrest : ∀ x ∈ rest, x < bound := fun x hx => ho x (List.mem_cons_of_mem _ hx)
    have hov : o < visited.length := by omega
    unfold visit
    rw [List.getElem?_eq_getElem hov]
    cases hvo : visited[o] with
    | true => exact ih hrest visited waiting hv
    | false =>
      have hoi : o < index.vectors.length := by omega
      rw [List.getElem?_eq_getElem hoi]
      obtain ⟨v1, w1, h1, h2, h3, h4, h5, h6⟩ := ih hrest (visited.set o true)
        (min_push (similarity target_vector index.vectors[o].data index.parameters.dimension, o)
          waiting) (by simpa using hv)
      have hcount := count_false_set visited o (by rw [List.getElem?_eq_getElem hov, hvo])
      have hlen : (min_push (similarity target_vector index.vectors[o].data
          index.parameters.dimension, o) waiting).length = waiting.length + 1 :=
        length_pq_push _ _ _
      refine ⟨v1, w1, h1, h2, ?_, by omega, by omega, fun hc => by omega⟩
      intro e he
      rcases h3 e he with h | h
      · rcases (mem_pq_push _ _ _ _).1 h with h | h
        · right; rw [h]; exact ho1
        · left; exact h
      · right; exact h

/-- The three marking loops over the short edges of one record, under the same conditions. -/
theorem visit_short_spec {D : Type} [LinearOrder D] (similarity : List D → List D → Nat → D)
    (index : Index D) (target_vector : List D) (bound : Nat)
    (hb : bound ≤ index.vectors.length) (pv : Vector D) (hpv : pv.edges_below bound)
    (visited : List Bool) (waiting : List (D × Nat))
    (hv : visited.length = index.vectors.length) :
    ∃ visited1 waiting1,
      visit_short similarity index target_vector pv (visited, waiting) =
        some (visited1, waiting1) ∧
      visited1.length = index.vectors.length ∧
      (∀ e ∈ waiting1, e ∈ waiting ∨ e.2 < bound) ∧
      waiting1.length + visited1.count false = waiting.length + visited.count false ∧
      waiting.length ≤ waiting1.length ∧
      (waiting1.length = waiting.length → waiting1 = waiting) := by
  obtain ⟨hout, hin, hkc⟩ := hpv
  have hout1 : ∀ o ∈ pv.short_edge_out.map Prod.snd, o < bound := by
    intro o ho
    obtain ⟨e, he, rfl⟩ := List.mem_map.1 ho
    exact hout e he
  obtain ⟨v1, w1, e1, l1, m1, c1, g1, q1⟩ :=
    visit_spec similarity index target_vector bound hb _ hout1 visited waiting hv
  obtain ⟨v2, w2, e2, l2, m2, c2, g2, q2⟩ :=
    visit_spec similarity index target_vector bound hb _ hin v1 w1 l1
  obtain ⟨v3, w3, e3, l3, m3, c3, g3, q3⟩ :=
    visit_spec similarity index target_vector bound hb _ hkc v2 w2 l2
  refine ⟨v3, w3, ?_, l3, ?_, by omega, by omega, ?_⟩
  · unfold visit_short
    rw [e1, Option.some_bind, e2, Option.some_bind, e3]
  · intro e he
    rcases m3 e he with h | h
    · rcases m2 e h with h | h
      · exact m1 e h
      · exact Or.inr h
    · exact Or.inr h
  · intro hc
    have a3 : w3 = w2 := q3 (by omega)
    have a2 : w2 = w1 := q2 (by omega)
    have a1 : w1 = waiting := q1 (by omega)
    rw [a3, a2, a1]

/-- Phase one on an index without long edges: one turn, the queue is unchanged. -/
theorem search_add_phase1_no_long {D : Type} [LinearOrder D]
    (similarity : List D → List D → Nat → D) (stale : Stale_Read D) (index : Index D)
    (target_vector : List D)
    (hlong : ∀ (i : Nat) (v : Vector D), index.vectors[i]? = some v → v.long_edge_out = [])
    (fuel : Nat) (visited : List Bool) (top : D × Nat) (rest long_path : List (D × Nat))
    (htop : top.2 < index.vectors.length) :
    search_add_phase1 similarity stale index target_vector (fuel + 1) visited (top :: rest)
        long_path =
      some (visited, top :: rest, long_path ++ [top]) := by
  have hl := hlong top.2 _ (List.getElem?_eq_getElem htop)
  simp only [search_add_phase1, List.head?, List.getElem?_eq_getElem htop, hl, List.map_nil,
    visit, reread, if_true]

/-- Phase two returns when it is given more fuel than there are unmarked records, whatever
is read after the pushes: a turn that does not end the loop has pushed a pair. -/
theorem search_add_phase2_spec {D : Type} [LinearOrder D]
    (similarity : List D → List D → Nat → D) (stale : Stale_Read D) (index : Index D)
    (target_vector : List D) (bound : Nat) (hb : bound ≤ index.vectors.length) (hidx : index.edges_below bound)
    (fuel : Nat) (visited : List Bool) (waiting short_path : List (D × Nat))
    (hfuel : visited.count false < fuel) (hv : visited.length = index.vectors.length)
    (hne : waiting ≠ []) (hw : ∀ e ∈ waiting, e.2 < bound) :
    ∃ visited1 waiting1 short_path1,
      search_add_phase2 similarity stale index target_vector fuel visited waiting short_path =
        some (visited1, waiting1, short_path1) ∧
      visited1.length = index.vectors.length ∧ waiting1 ≠ [] ∧
      (∀ e ∈ waiting1, e.2 < bound) ∧
      waiting1.length + visited1.count false = waiting.length + visited.count false := by
  induction fuel generalizing visited waiting short_path with
  | zero => omega
  | succ fuel ih =>
    cases waiting with
    | nil => exact absurd rfl hne
    | cons top rest =>
      have htop : top.2 < index.vectors.length :=
        lt_of_lt_of_le (hw top (List.mem_cons_self _ _)) hb
      obtain ⟨v1, w1, e1, l1, m1, c1, g1, q1⟩ :=
        visit_short_spec similarity index target_vector bound hb index.vectors[top.2]
          (hidx top.2 _ (List.getElem?_eq_getElem htop)) visited (top :: rest) hv
      have hw1 : ∀ e ∈ w1, e.2 < bound := by
        intro e he
        rcases m1 e he with h | h
        · exact hw e h
        · exact h
      cases w1 with
      | nil => simp at g1
      | cons top1 rest1 =>
        by_cases heq : reread stale index (top :: rest) (top1 :: rest1) top1.2 = top1.2
        · refine ⟨v1, top1 :: rest1, short_path, ?_, l1, by simp, hw1, c1⟩
          simp only [search_add_phase2, List.head?, List.getElem?_eq_getElem htop, e1]
          rw [if_pos heq]
        · have hlt : (top :: rest).length < (top1 :: rest1).length := by
            rcases Nat.lt_or_ge (top :: rest).length (top1 :: rest1).length with h | h
            · exact h
            · have hsame : (top1 :: rest1).length = (top :: rest).length := by omega
              exact absurd (by unfold reread; rw [if_pos hsame]) heq
          obtain ⟨v2, w2, p2, e2, l2, n2, m2, c2⟩ :=
            ih v1 (top1 :: rest1) (short_path ++ [top1]) (by omega) l1 (by simp) hw1
          refine ⟨v2, w2, p2, ?_, l2, n2, m2, by omega⟩
          simp only [search_add_phase2, List.head?, List.getElem?_eq_getElem htop, e1]
          rw [if_neg heq]
          exact e2

theorem mem_of_mem_tail_list {α : Type} {a : α} {l : List α} (h : a ∈ l.tail) : a ∈ l := by
  cases l with
  | nil => simp at h
  | cons b bs => exact List.mem_cons_of_mem _ h

/-- The branch on `nearest_neighbors` is defined once the limit is positive; the queue it
leaves is within the limit and holds old entries or the pair it was given. -/
theorem harvest_spec {D : Type} [LinearOrder D] (limit : Nat) (hlimit : 1 ≤ limit)
    (processing : D × Nat) (nearest : List (D × Nat)) (hlen : nearest.length ≤ limit) :
    harvest limit processing nearest = some none ∨
      ∃ nearest1, harvest limit processing nearest = some (some nearest1) ∧
        nearest1.length ≤ limit ∧ ∀ e ∈ nearest1, e = processing ∨ e ∈ nearest := by
  unfold harvest
  split
  · right
    refine ⟨_, rfl, ?_, fun e he => (mem_pq_push _ _ _ _).1 he⟩
    rw [max_push, length_pq_push]
    omega
  · cases nearest with
    | nil => simp at *; omega
    | cons worst rest =>
      simp only [List.head?, List.tail_cons]
      split
      · right
        refine ⟨_, rfl, ?_, ?_⟩
        · rw [max_push, length_pq_push]
          simpa using hlen
        · intro e he
          rcases (mem_pq_push _ _ _ _).1 he with h | h
          · exact Or.inl h
          · exact Or.inr (List.mem_cons_of_mem _ h)
      · left; rfl

/-- Phase three returns when it is given more fuel than there are waiting plus unmarked
records; the pairs it keeps have offsets below `bound` and number at most the limit. -/
theorem search_add_phase3_spec {D : Type} [LinearOrder D]
    (similarity : List D → List D → Nat → D) (index : Index D) (target_vector : List D)
    (bound : Nat) (hb : bound ≤ index.vectors.length) (hidx : index.edges_below bound)
    (hlimit : 1 ≤ index.parameters.termination_number)
    (fuel : Nat) (visited : List Bool) (waiting nearest : List (D × Nat))
    (hfuel : waiting.length + visited.count false < fuel)
    (hv : visited.length = index.vectors.length)
    (hw : ∀ e ∈ waiting, e.2 < bound) (hn : ∀ e ∈ nearest, e.2 < bound)
    (hlen : nearest.length ≤ index.parameters.termination_number) :
    ∃ nearest1,
      search_add_phase3 similarity index target_vector fuel visited waiting nearest =
        some nearest1 ∧
      (∀ e ∈ nearest1, e.2 < bound) ∧
      nearest1.length ≤ index.parameters.termination_number := by
  induction fuel generalizing visited waiting nearest with
  | zero => omega
  | succ fuel ih =>
    cases waiting with
    | nil => exact ⟨nearest, by simp [search_add_phase3], hn, hlen⟩
    | cons processing rest =>
      have hp : processing.2 < bound := hw processing (List.mem_cons_self _ _)
      have htop : processing.2 < index.vectors.length := lt_of_lt_of_le hp hb
      have hrest : ∀ e ∈ rest, e.2 < bound := fun e he => hw e (List.mem_cons_of_mem _ he)
      have hread : (rest.head?.getD processing).2 < bound := by
        cases rest with
        | nil => exact hp
        | cons next more => exact hrest next (List.mem_cons_self _ _)
      simp only [search_add_phase3, List.getElem?_eq_getElem htop]
      rcases harvest_spec _ hlimit (rest.head?.getD processing) nearest hlen with
        h | ⟨n1, h, hl1, hm1⟩
      · rw [h]
        exact ⟨nearest, rfl, hn, hlen⟩
      · rw [h]
        obtain ⟨v1, w1, e1, l1, m1, c1, g1, q1⟩ :=
          visit_short_spec similarity index target_vector bound hb index.vectors[processing.2]
            (hidx processing.2 _ (List.getElem?_eq_getElem htop)) visited rest hv
        simp only [e1]
        apply ih v1 w1 n1 _ l1
        · intro e he
          rcases m1 e he with h | h
          · exact hrest e h
          · exact h
        · intro e he
          rcases hm1 e he with h | h
          · rw [h]; exact hread
          · exact hn e h
        · exact hl1
        · simp only [List.length_cons] at hfuel
          omega

/-- The insertion probe returns on an index without long edges whose short edges and
`keep_connected` entries lie below `bound`: the candidates it hands back number at most
`termination_number` and have offsets below `bound`. -/
theorem search_add_spec {D : Type} [LinearOrder D]
    (similarity : List D → List D → Nat → D) (distance_to_zero : List D → Nat → D)
    (stale : Stale_Read D)
    (index : Index D) (target_vector : List D) (bound : Nat) (hpos : 0 < bound)
    (hb : bound ≤ index.vectors.length) (hidx : index.edges_below bound)
    (hlong : ∀ (i : Nat) (v : Vector D), index.vectors[i]? = some v → v.long_edge_out = [])
    (hlimit : 1 ≤ index.parameters.termination_number) :
    ∃ probe, search_add similarity distance_to_zero stale index target_vector = some probe ∧
      (∀ e ∈ probe.2.2, e.2 < bound) ∧
      probe.2.2.length ≤ index.parameters.termination_number := by
  have hn : 0 < index.vectors.length := lt_of_lt_of_le hpos hb
  have hv0 : ((List.replicate index.vectors.length false).set 0 true).length =
      index.vectors.length := by simp
  have hcount : ((List.replicate index.vectors.length false).set 0 true).count false + 1 ≤
      index.vectors.length := by
    have h1 := count_false_set (List.replicate index.vectors.length false) 0
      (by rw [List.getElem?_replicate, if_pos hn])
    have h2 : (List.replicate index.vectors.length false).count false ≤
        (List.replicate index.vectors.length false).length := List.count_le_length _ _
    simp only [List.length_replicate] at h2
    omega
  have hw0 : ∀ e ∈ [(distance_to_zero target_vector index.parameters.dimension, 0)],
      e.2 < bound := by
    intro e he
    rw [List.mem_singleton.1 he]
    exact hpos
  obtain ⟨v2, w2, p2, e2, l2, n2, m2, c2⟩ :=
    search_add_phase2_spec similarity stale index target_vector bound hb hidx
      (index.vectors.length + 1) _ [(distance_to_zero target_vector index.parameters.dimension, 0)]
      [] (by omega) hv0 (by simp) hw0
  obtain ⟨n3, e3, m3, l3⟩ :=
    search_add_phase3_spec similarity index target_vector bound hb hidx hlimit
      (index.vectors.length + 1) v2 w2 [] (by simp only [List.length_singleton] at c2; omega)
      l2 m2 (by simp) (by simp)
  refine ⟨([] ++ [(distance_to_zero target_vector index.parameters.dimension, 0)], p2, n3),
    ?_, m3, l3⟩
  unfold search_add
  simp only [min_push, pq_push, List.length_replicate, if_pos hn]
  rw [search_add_phase1_no_long similarity stale index target_vector hlong _ _ _ _ _
    (by simpa using hn)]
  simp only [Option.some_bind, e2, e3]

/-! ## The connectivity test returns -/

theorem connected_mark_spec (bound : Nat) (offsets : List Nat) (ho : ∀ o ∈ offsets, o < bound)
    (visited : List Bool) (next : List Nat) (hv : visited.length = bound) :
    ∃ state, connected_mark offsets (visited, next) = some state ∧ state.1.length = bound := by
  induction offsets generalizing visited next with
  | nil => exact ⟨_, rfl, hv⟩
  | cons o rest ih =>
    have ho1 : o < visited.length := by
      rw [hv]
      exact ho o (List.mem_cons_self _ _)
    have hrest : ∀ x ∈ rest, x < bound := fun x hx => ho x (List.mem_cons_of_mem _ hx)
    unfold connected_mark
    rw [List.getElem?_eq_getElem ho1]
    cases visited[o] with
    | true => exact ih hrest visited next hv
    | false => exact ih hrest _ _ (by simpa using hv)

theorem connected_round_spec {D : Type} (index : Index D)
    (hidx : index.edges_below index.vectors.length) (last : List Nat)
    (hlast : ∀ i ∈ last, i < index.vectors.length) (state : List Bool × List Nat)
    (hv : state.1.length = index.vectors.length) :
    ∃ state1, connected_round index last state = some state1 ∧
      state1.1.length = index.vectors.length := by
  induction last generalizing state with
  | nil => exact ⟨_, rfl, hv⟩
  | cons i rest ih =>
    have hi : i < index.vectors.length := hlast i (List.mem_cons_self _ _)
    obtain ⟨hout, hin, hkc⟩ := hidx i _ (List.getElem?_eq_getElem hi)
    have hout1 : ∀ o ∈ index.vectors[i].short_edge_out.map Prod.snd,
        o < index.vectors.length := by
      intro o ho
      obtain ⟨e, he, rfl⟩ := List.mem_map.1 ho
      exact hout e he
    obtain ⟨s1, e1, l1⟩ := connected_mark_spec _ _ hin state.1 state.2 hv
    obtain ⟨s2, e2, l2⟩ := connected_mark_spec _ _ hout1 s1.1 s1.2 l1
    obtain ⟨s3, e3, l3⟩ := connected_mark_spec _ _ hkc s2.1 s2.2 l2
    obtain ⟨s4, e4, l4⟩ := ih (fun x hx => hlast x (List.mem_cons_of_mem _ hx)) s3 l3
    refine ⟨s4, ?_, l4⟩
    unfold connected_round
    simp only [List.getElem?_eq_getElem hi]
    rw [show state = (state.1, state.2) from rfl, e1, Option.some_bind,
      show s1 = (s1.1, s1.2) from rfl, e2, Option.some_bind,
      show s2 = (s2.1, s2.2) from rfl, e3, Option.some_bind]
    exact e4

theorem connected_rounds_spec {D : Type} (index : Index D)
    (hidx : index.edges_below index.vectors.length) (last : List Nat)
    (hlast : ∀ i ∈ last, i < index.vectors.length) (rounds : Nat)
    (state : List Bool × List Nat) (hv : state.1.length = index.vectors.length) :
    ∃ state1, connected_rounds index last rounds state = some state1 ∧
      state1.1.length = index.vectors.length := by
  induction rounds generalizing state with
  | zero => exact ⟨_, rfl, hv⟩
  | succ r ih =>
    obtain ⟨s1, e1, l1⟩ := connected_round_spec index hidx last hlast state hv
    obtain ⟨s2, e2, l2⟩ := ih s1 l1
    refine ⟨s2, ?_, l2⟩
    unfold connected_rounds
    rw [e1, Option.some_bind]
    exact e2

/-- The test `connected` returns when all stored offsets, the offset of the start record
and the looked-for offset index existing records. -/
theorem connected_spec {D : Type} (index : Index D)
    (hidx : index.edges_below index.vectors.length) (vector : Vector D)
    (hvec : vector.offset < index.vectors.length) (offset : Nat)
    (hoff : offset < index.vectors.length) :
    ∃ b, connected index vector offset = some b := by
  have hlast : ∀ i ∈ set_insert vector.offset [], i < index.vectors.length := by
    intro i hi
    rcases (mem_set_insert _ _ _).1 hi with h | h
    · rw [h]; exact hvec
    · simp at h
  obtain ⟨s, e, l⟩ := connected_rounds_spec index hidx _ hlast 4
    (((List.replicate index.vectors.length false).set vector.offset true), []) (by simp)
  have hs : offset < s.1.length := by omega
  refine ⟨s.1[offset], ?_⟩
  unfold connected
  simp only [List.length_replicate, if_pos hvec, e, Option.some_bind]
  exact List.getElem?_eq_getElem hs

/-! ## Effect of a write on bounds and degrees -/

theorem update_edges_below {D : Type} {index index1 : Index D} {i bound : Nat}
    {f : Vector D → Vector D} (h : index.update i f = some index1)
    (hidx : index.edges_below bound)
    (hf : ∀ v, index.vectors[i]? = some v → v.edges_below bound → (f v).edges_below bound) :
    index1.edges_below bound := by
  intro j w hw
  rw [update_getElem? h j] at hw
  split at hw
  · obtain ⟨v, hv, rfl⟩ := Option.map_eq_some'.1 hw
    exact hf v hv (hidx i v hv)
  · exact hidx j w hw

theorem update_out_degree {D : Type} {index index1 : Index D} {i : Nat}
    {f : Vector D → Vector D} (h : index.update i f = some index1) (g : Nat → Nat)
    (hg : ∀ v, (f v).short_edge_out.length = g v.short_edge_out.length) (j : Nat) :
    index1.out_degree j = if j = i then g (index.out_degree i) else index.out_degree j := by
  obtain ⟨v, hv, -⟩ := update_eq_some h
  unfold Index.out_degree
  rw [update_getElem? h j]
  by_cases hji : j = i
  · simp [hji, hv, hg]
  · simp [hji]

theorem update_out_degree_same {D : Type} {index index1 : Index D} {i : Nat}
    {f : Vector D → Vector D} (h : index.update i f = some index1)
    (hf : ∀ v, (f v).short_edge_out.length = v.short_edge_out.length) (j : Nat) :
    index1.out_degree j = index.out_degree j := by
  rw [update_out_degree h id hf j]
  split <;> rename_i hj
  · rw [hj]; rfl
  · rfl

theorem frame_getElem? {D : Type} {index index1 : Index D} (h : index1.frame = index.frame)
    {i : Nat} {v1 : Vector D} (hv : index1.vectors[i]? = some v1) :
    ∃ v, index.vectors[i]? = some v ∧ v.core = v1.core := by
  simp only [Index.frame, Prod.mk.injEq] at h
  have hcore : (index1.vectors.map Vector.core)[i]? = some v1.core := by simp [hv]
  rw [h.1] at hcore
  simp only [List.getElem?_map, Option.map_eq_some'] at hcore
  exact hcore

theorem frame_length {D : Type} {index index1 : Index D} (h : index1.frame = index.frame) :
    index1.vectors.length = index.vectors.length := by
  simp only [Index.frame, Prod.mk.injEq] at h
  simpa using congrArg List.length h.1

theorem frame_parameters {D : Type} {index index1 : Index D}
    (h : index1.frame = index.frame) : index1.parameters = index.parameters := by
  simp only [Index.frame, Prod.mk.injEq] at h
  exact h.2.1

theorem frame_offset {D : Type} {index index1 : Index D} (h : index1.frame = index.frame)
    (hoff : ∀ (i : Nat) (v : Vector D), index.vectors[i]? = some v → v.offset = i) :
    ∀ (i : Nat) (v : Vector D), index1.vectors[i]? = some v → v.offset = i := by
  intro i v1 hv1
  obtain ⟨v, hv, hc⟩ := frame_getElem? h hv1
  simp only [Vector.core, Prod.mk.injEq] at hc
  rw [← hc.2.1]
  exact hoff i v hv

theorem update_parameters {D : Type} {index index1 : Index D} {i : Nat}
    {f : Vector D → Vector D} (h : index.update i f = some index1) :
    index1.parameters = index.parameters := by
  obtain ⟨v, -, rfl⟩ := update_eq_some h
  rfl

theorem edges_below_out_insert {D : Type} [LinearOrder D] {v : Vector D} {bound : Nat}
    (x : D × Nat) (hx : x.2 < bound) (h : v.edges_below bound) :
    (Vector.out_insert x v).edges_below bound := by
  refine ⟨?_, h.2.1, h.2.2⟩
  intro e he
  rcases (mem_multimap_insert _ _ _).1 he with h1 | h1
  · rw [h1]; exact hx
  · exact h.1 e h1

theorem edges_below_out_erase_last {D : Type} {v : Vector D} {bound : Nat}
    (h : v.edges_below bound) : (Vector.out_erase_last v).edges_below bound :=
  ⟨fun e he => h.1 e (List.dropLast_subset _ he), h.2.1, h.2.2⟩

theorem edges_below_in_insert {D : Type} {v : Vector D} {bound : Nat} (o : Nat)
    (ho : o < bound) (h : v.edges_below bound) : (Vector.in_insert o v).edges_below bound := by
  refine ⟨h.1, ?_, h.2.2⟩
  intro x hx
  rcases (mem_set_insert _ _ _).1 hx with h1 | h1
  · rw [h1]; exact ho
  · exact h.2.1 x h1

theorem edges_below_in_erase {D : Type} {v : Vector D} {bound : Nat} (o : Nat)
    (h : v.edges_below bound) : (Vector.in_erase o v).edges_below bound :=
  ⟨h.1, fun x hx => h.2.1 x (List.mem_of_mem_erase hx), h.2.2⟩

theorem edges_below_keep_insert {D : Type} {v : Vector D} {bound : Nat} (o : Nat)
    (ho : o < bound) (h : v.edges_below bound) :
    (Vector.keep_insert o v).edges_below bound := by
  refine ⟨h.1, h.2.1, ?_⟩
  intro x hx
  rcases (mem_set_insert _ _ _).1 hx with h1 | h1
  · rw [h1]; exact ho
  · exact h.2.2 x h1

/-! ## One turn of the binding loop returns -/

theorem link_back_spec {D : Type} [LinearOrder D] (index : Index D)
    (offset neighbor_index neighbor_offset : Nat) (distance : D) (bound : Nat)
    (hidx : index.edges_below bound) (hni : neighbor_index < index.vectors.length)
    (hoff : offset < index.vectors.length) (hob : offset < bound)
    (hnb : neighbor_offset < bound) :
    ∃ index1, link_back index offset neighbor_index distance neighbor_offset = some index1 ∧
      index1.edges_below bound ∧
      ∀ j, index1.out_degree j =
        if j = neighbor_index then index.out_degree neighbor_index + 1
        else index.out_degree j := by
  obtain ⟨i1, h1⟩ := update_isSome index (Vector.out_insert (distance, offset)) hni
  obtain ⟨i2, h2⟩ := update_isSome i1 (Vector.in_insert neighbor_offset)
    (by rw [update_vectors_length h1]; exact hoff)
  refine ⟨i2, ?_, ?_, ?_⟩
  · unfold link_back
    rw [h1, Option.some_bind, h2]
  · exact update_edges_below h2
      (update_edges_below h1 hidx fun v _ hv => edges_below_out_insert _ hob hv)
      fun v _ hv => edges_below_in_insert _ hnb hv
  · intro j
    rw [update_out_degree_same h2 (fun _ => rfl) j,
      update_out_degree h1 (fun k => k + 1) (fun v => length_multimap_insert _ _) j]

theorem protect_spec {D : Type} [LinearOrder D] (index : Index D)
    (neighbor_index farest_offset : Nat) (farest_distance : D)
    (hidx : index.edges_below index.vectors.length)
    (hoffs : ∀ (i : Nat) (v : Vector D), index.vectors[i]? = some v → v.offset = i)
    (hni : neighbor_index < index.vectors.length)
    (hfar : farest_offset < index.vectors.length) :
    ∃ index1, protect index neighbor_index farest_distance farest_offset = some index1 ∧
      index1.edges_below index.vectors.length ∧
      (∀ j, j ≠ neighbor_index → index1.out_degree j = index.out_degree j) ∧
      (index1.out_degree neighbor_index = index.out_degree neighbor_index ∨
        (index.out_degree neighbor_index < index.parameters.short_edge_upper_limit ∧
          index1.out_degree neighbor_index = index.out_degree neighbor_index + 1)) := by
  have hnv : index.vectors[neighbor_index]? = some index.vectors[neighbor_index] :=
    List.getElem?_eq_getElem hni
  have hno : index.vectors[neighbor_index].offset = neighbor_index := hoffs _ _ hnv
  have hdeg : index.out_degree neighbor_index =
      index.vectors[neighbor_index].short_edge_out.length := by
    simp [Index.out_degree, hnv]
  unfold protect
  rw [hnv]
  simp only
  split
  · exact ⟨index, rfl, hidx, fun _ _ => rfl, Or.inl rfl⟩
  · obtain ⟨b, hb⟩ := connected_spec index hidx index.vectors[neighbor_index]
      (by rw [hno]; exact hni) farest_offset hfar
    rw [hb]
    cases b with
    | true => exact ⟨index, rfl, hidx, fun _ _ => rfl, Or.inl rfl⟩
    | false =>
      simp only
      split
      · next hlt =>
        obtain ⟨i1, h1⟩ := update_isSome index
          (Vector.out_insert (farest_distance, farest_offset)) hni
        refine ⟨i1, h1, ?_, ?_, ?_⟩
        · exact update_edges_below h1 hidx fun v _ hv => edges_below_out_insert _ hfar hv
        · intro j hj
          rw [update_out_degree h1 (fun k => k + 1) (fun v => length_multimap_insert _ _) j,
            if_neg hj]
        · right
          refine ⟨by rw [hdeg]; exact hlt, ?_⟩
          rw [update_out_degree h1 (fun k => k + 1) (fun v => length_multimap_insert _ _) _,
            if_pos rfl]
      · obtain ⟨i1, h1⟩ := update_isSome index (Vector.keep_insert farest_offset) hni
        obtain ⟨i2, h2⟩ := update_isSome i1
          (Vector.keep_insert index.vectors[neighbor_index].offset)
          (by rw [update_vectors_length h1]; exact hfar)
        refine ⟨i2, by rw [h1, Option.some_bind, h2], ?_, ?_, ?_⟩
        · exact update_edges_below h2
            (update_edges_below h1 hidx fun v _ hv => edges_below_keep_insert _ hfar hv)
            fun v _ hv => edges_below_keep_insert _ (by rw [hno]; exact hni) hv
        · intro j _
          rw [update_out_degree_same h2 (fun _ => rfl) j,
            update_out_degree_same h1 (fun _ => rfl) j]
        · left
          rw [update_out_degree_same h2 (fun _ => rfl) _,
            update_out_degree_same h1 (fun _ => rfl) _]

/-- One turn of the binding loop returns for a candidate other than the new record: stored
offsets stay below `vectors.size()`, the new record gains one out-edge, the candidate gains
at most one (and only from below the lower limit or from at most the upper limit), and no
other record changes its number of out-edges. -/
theorem bind_candidate_spec {D : Type} [LinearOrder D] (index : Index D) (offset : Nat)
    (candidate : D × Nat)
    (hidx : index.edges_below index.vectors.length)
    (hoffs : ∀ (i : Nat) (v : Vector D), index.vectors[i]? = some v → v.offset = i)
    (hoff : offset < index.vectors.length) (hc : candidate.2 < index.vectors.length)
    (hne : candidate.2 ≠ offset) (hlow : 1 ≤ index.parameters.short_edge_lower_limit) :
    ∃ index1, bind_candidate index offset candidate = some index1 ∧
      index1.edges_below index.vectors.length ∧
      index1.out_degree offset = index.out_degree offset + 1 ∧
      (∀ j, j ≠ offset → j ≠ candidate.2 → index1.out_degree j = index.out_degree j) ∧
      index.out_degree candidate.2 ≤ index1.out_degree candidate.2 ∧
      index1.out_degree candidate.2 ≤ index.out_degree candidate.2 + 1 ∧
      (index1.out_degree candidate.2 = index.out_degree candidate.2 + 1 →
        index.out_degree candidate.2 < index.parameters.short_edge_lower_limit ∨
        index.out_degree candidate.2 ≤ index.parameters.short_edge_upper_limit) := by
  have hcv : index.vectors[candidate.2]? = some index.vectors[candidate.2] :=
    List.getElem?_eq_getElem hc
  have hno0 : index.vectors[candidate.2].offset = candidate.2 := hoffs _ _ hcv
  obtain ⟨i1, h1⟩ := update_isSome index
    (Vector.out_insert (candidate.1, index.vectors[candidate.2].offset)) hoff
  have l1 := update_vectors_length h1
  obtain ⟨i2, h2⟩ := update_isSome i1 (Vector.in_insert offset) (by rw [l1]; exact hc)
  have l2 : i2.vectors.length = index.vectors.length := (update_vectors_length h2).trans l1
  have e2 : i2.edges_below index.vectors.length :=
    update_edges_below h2
      (update_edges_below h1 hidx fun v _ hv =>
        edges_below_out_insert _ (by rw [hno0]; exact hc) hv)
      fun v _ hv => edges_below_in_insert _ hoff hv
  have d2 : ∀ j, i2.out_degree j =
      if j = offset then index.out_degree offset + 1 else index.out_degree j := by
    intro j
    rw [update_out_degree_same h2 (fun _ => rfl) j,
      update_out_degree h1 (fun k => k + 1) (fun v => length_multimap_insert _ _) j]
  have p2 : i2.parameters = index.parameters :=
    (update_parameters h2).trans (update_parameters h1)
  have f2 : i2.frame = index.frame :=
    (update_frame h2 (fun _ => rfl)).trans (update_frame h1 (fun _ => rfl))
  have o2 := frame_offset f2 hoffs
  have hc2 : candidate.2 < i2.vectors.length := by rw [l2]; exact hc
  have hcv2 : i2.vectors[candidate.2]? = some i2.vectors[candidate.2] :=
    List.getElem?_eq_getElem hc2
  have hno : i2.vectors[candidate.2].offset = candidate.2 := o2 _ _ hcv2
  have hs : i2.vectors[candidate.2].short_edge_out.length = index.out_degree candidate.2 := by
    have h := d2 candidate.2
    rw [if_neg hne] at h
    rw [← h]
    simp [Index.out_degree, hcv2]
  have d2o : i2.out_degree offset = index.out_degree offset + 1 := by
    rw [d2, if_pos rfl]
  have d2c : i2.out_degree candidate.2 = index.out_degree candidate.2 := by
    rw [d2, if_neg hne]
  have d2j : ∀ j, j ≠ offset → i2.out_degree j = index.out_degree j := by
    intro j hj
    rw [d2, if_neg hj]
  unfold bind_candidate
  rw [hcv]
  simp only [h1, Option.some_bind, h2, hcv2, p2, hs, hno]
  split
  · next hlt =>
    obtain ⟨i3, h3, e3, d3⟩ := link_back_spec i2 offset candidate.2 candidate.2 candidate.1
      index.vectors.length e2 hc2 (by rw [l2]; exact hoff) hoff hc
    refine ⟨i3, h3, e3, ?_, ?_, ?_, ?_, ?_⟩
    · rw [d3, if_neg (Ne.symm hne), d2o]
    · intro j hj1 hj2
      rw [d3, if_neg hj2, d2j j hj1]
    · rw [d3, if_pos rfl, d2c]
      omega
    · rw [d3, if_pos rfl, d2c]
    · intro _
      exact Or.inl hlt
  · next hge =>
    cases hlast : i2.vectors[candidate.2].short_edge_out.getLast? with
    | none =>
      rw [List.getLast?_eq_none_iff] at hlast
      rw [hlast] at hs
      simp only [List.length_nil] at hs
      omega
    | some farest =>
      simp only
      have hfar : farest.2 < index.vectors.length :=
        (e2 _ _ hcv2).1 farest (List.mem_of_getLast?_eq_some hlast)
      split
      · obtain ⟨i3, h3⟩ := update_isSome i2 Vector.out_erase_last hc2
        have l3 : i3.vectors.length = index.vectors.length :=
          (update_vectors_length h3).trans l2
        obtain ⟨i4, h4⟩ := update_isSome i3 (Vector.in_erase candidate.2)
          (by rw [l3]; exact hfar)
        have l4 : i4.vectors.length = index.vectors.length :=
          (update_vectors_length h4).trans l3
        have e4 : i4.edges_below index.vectors.length :=
          update_edges_below h4
            (update_edges_below h3 e2 fun v _ hv => edges_below_out_erase_last hv)
            fun v _ hv => edges_below_in_erase _ hv
        have f4 : i4.frame = index.frame :=
          (update_frame h4 (fun _ => rfl)).trans ((update_frame h3 (fun _ => rfl)).trans f2)
        have p4 : i4.parameters = index.parameters :=
          (update_parameters h4).trans ((update_parameters h3).trans p2)
        have d4 : ∀ j, i4.out_degree j =
            if j = candidate.2 then i2.out_degree candidate.2 - 1 else i2.out_degree j := by
          intro j
          rw [update_out_degree_same h4 (fun _ => rfl) j,
            update_out_degree h3 (fun k => k - 1) (fun v => List.length_dropLast _) j]
        obtain ⟨i5, h5, e5, d5a, d5b⟩ := protect_spec i4 candidate.2 farest.2 farest.1
          (by rw [l4]; exact e4) (frame_offset f4 hoffs) (by rw [l4]; exact hc)
          (by rw [l4]; exact hfar)
        rw [l4] at e5
        have l5 : i5.vectors.length = index.vectors.length :=
          (frame_length (protect_frame h5)).trans l4
        obtain ⟨i6, h6, e6, d6⟩ := link_back_spec i5 offset candidate.2 candidate.2
          candidate.1 index.vectors.length e5 (by rw [l5]; exact hc) (by rw [l5]; exact hoff)
          hoff hc
        have d4c : i4.out_degree candidate.2 = index.out_degree candidate.2 - 1 := by
          rw [d4, if_pos rfl, d2c]
        refine ⟨i6, ?_, e6, ?_, ?_, ?_, ?_, ?_⟩
        · rw [h3, Option.some_bind, h4, Option.some_bind, h5, Option.some_bind, h6]
        · rw [d6, if_neg (Ne.symm hne), d5a _ (Ne.symm hne), d4, if_neg (Ne.symm hne), d2o]
        · intro j hj1 hj2
          rw [d6, if_neg hj2, d5a _ hj2, d4, if_neg hj2, d2j j hj1]
        · rw [d6, if_pos rfl]
          rcases d5b with h | ⟨_, h⟩ <;> rw [h, d4c] <;> omega
        · rw [d6, if_pos rfl]
          rcases d5b with h | ⟨_, h⟩ <;> rw [h, d4c] <;> omega
        · rw [d6, if_pos rfl]
          rcases d5b with h | ⟨hu, h⟩
          · rw [h, d4c]
            intro hh
            omega
          · rw [d4c, p4] at hu
            intro _
            right
            omega
      · exact ⟨i2, rfl, e2, d2o, fun j hj1 _ => d2j j hj1, by rw [d2c], by rw [d2c]; omega,
          fun hh => by rw [d2c] at hh; omega⟩

theorem edges_below_mono {D : Type} {index : Index D} {b1 b2 : Nat} (hle : b1 ≤ b2)
    (h : index.edges_below b1) : index.edges_below b2 := by
  intro i v hv
  obtain ⟨h1, h2, h3⟩ := h i v hv
  exact ⟨fun e he => lt_of_lt_of_le (h1 e he) hle, fun o ho => lt_of_lt_of_le (h2 o ho) hle,
    fun o ho => lt_of_lt_of_le (h3 o ho) hle⟩

/-- The binding loop returns when no candidate is the new record itself: the new record
gains one out-edge per candidate, no other record loses an out-edge, and none grows beyond
the larger of its old degree, the lower limit and the upper limit plus one. -/
theorem bind_short_edges_spec {D : Type} [LinearOrder D] (offset : Nat)
    (nearest_neighbors : List (D × Nat)) (index : Index D)
    (hidx : index.edges_below index.vectors.length)
    (hoffs : ∀ (i : Nat) (v : Vector D), index.vectors[i]? = some v → v.offset = i)
    (hoff : offset < index.vectors.length)
    (hc : ∀ e ∈ nearest_neighbors, e.2 < index.vectors.length ∧ e.2 ≠ offset)
    (hlow : 1 ≤ index.parameters.short_edge_lower_limit) :
    ∃ index1, bind_short_edges index offset nearest_neighbors = some index1 ∧
      index1.edges_below index.vectors.length ∧
      index1.out_degree offset = index.out_degree offset + nearest_neighbors.length ∧
      ∀ j, j ≠ offset → index.out_degree j ≤ index1.out_degree j ∧
        index1.out_degree j ≤ max (index.out_degree j)
          (max index.parameters.short_edge_lower_limit
            (index.parameters.short_edge_upper_limit + 1)) := by
  induction nearest_neighbors generalizing index with
  | nil =>
    exact ⟨index, rfl, hidx, rfl, fun j _ => ⟨le_refl _, le_max_left _ _⟩⟩
  | cons c rest ih =>
    obtain ⟨hc1, hc2⟩ := hc c (List.mem_cons_self _ _)
    obtain ⟨i1, h1, e1, d1o, d1j, d1a, d1b, d1c⟩ :=
      bind_candidate_spec index offset c hidx hoffs hoff hc1 hc2 hlow
    have f1 := bind_candidate_frame h1
    have l1 := frame_length f1
    have p1 := frame_parameters f1
    obtain ⟨i2, h2, e2, d2o, d2j⟩ := ih i1 (by rw [l1]; exact e1) (frame_offset f1 hoffs)
      (by rw [l1]; exact hoff)
      (fun e he => by rw [l1]; exact hc e (List.mem_cons_of_mem _ he))
      (by rw [p1]; exact hlow)
    rw [l1] at e2
    refine ⟨i2, ?_, e2, ?_, ?_⟩
    · unfold bind_short_edges
      rw [h1, Option.some_bind, h2]
    · rw [d2o, d1o, List.length_cons]
      omega
    · intro j hj
      obtain ⟨a, b⟩ := d2j j hj
      rw [p1] at b
      by_cases hjc : j = c.2
      · subst hjc
        refine ⟨le_trans d1a a, le_trans b ?_⟩
        rcases Nat.lt_or_ge (index.out_degree c.2) (i1.out_degree c.2) with hlt | hge
        · have := d1c (by omega)
          omega
        · omega
      · rw [d1j j hj hjc] at a b
        exact ⟨a, b⟩

/-! ## `add` returns -/

theorem add_allocate_empty {D : Type} (index : Index D) (id : Nat) (data : List D)
    (hempty : index.empty = []) :
    add_allocate index id data =
      some ({ parameters := index.parameters, count := index.count + 1,
              vectors := index.vectors ++ [Vector.new id index.count data], empty := [],
              zero := index.zero,
              id_to_offset := umap_insert index.id_to_offset id index.count },
            index.count) := by
  unfold add_allocate
  simp only [hempty]

/-- On a sound index with positive lower limit and termination number, `add` returns.  The
result is sound, has one more record, the new record has at most `termination_number`
out-edges, and the other records keep or raise their degree within the stated bound. -/
theorem add_spec {D : Type} [LinearOrder D] (similarity : List D → List D → Nat → D)
    (distance_to_zero : List D → Nat → D)
    (stale : Stale_Read D) (index : Index D) (id : Nat) (data : List D)
    (hs : index.sound) (hlow : 1 ≤ index.parameters.short_edge_lower_limit)
    (hlimit : 1 ≤ index.parameters.termination_number) :
    ∃ index1, add similarity distance_to_zero stale index id data = some index1 ∧
      index1.sound ∧ index1.vectors.length = index.vectors.length + 1 ∧
      index1.parameters = index.parameters ∧
      index1.out_degree index.vectors.length ≤ index.parameters.termination_number ∧
      ∀ j, j ≠ index.vectors.length → index.out_degree j ≤ index1.out_degree j ∧
        index1.out_degree j ≤ max (index.out_degree j)
          (max index.parameters.short_edge_lower_limit
            (index.parameters.short_edge_upper_limit + 1)) := by
  obtain ⟨hok, hidx⟩ := hs
  obtain ⟨hempty, hcount, hpos, hall⟩ := hok
  obtain ⟨alloc, halloc, hav, hap⟩ : ∃ alloc : Index D,
      add_allocate index id data = some (alloc, index.count) ∧
      alloc.vectors = index.vectors ++ [Vector.new id index.count data] ∧
      alloc.parameters = index.parameters :=
    ⟨_, add_allocate_empty index id data hempty, rfl, rfl⟩
  have hal : alloc.vectors.length = index.vectors.length + 1 := by rw [hav]; simp
  have hget : ∀ (i : Nat) (v : Vector D), alloc.vectors[i]? = some v →
      (i < index.vectors.length ∧ index.vectors[i]? = some v) ∨
      (i = index.vectors.length ∧ v = Vector.new id index.count data) := by
    intro i v hv
    rw [hav] at hv
    by_cases hi : i < index.vectors.length
    · rw [List.getElem?_append_left hi] at hv
      exact Or.inl ⟨hi, hv⟩
    · have hlt := (List.getElem?_eq_some.1 hv).1
      simp only [List.length_append, List.length_singleton] at hlt
      have hi2 : i = index.vectors.length := by omega
      subst hi2
      rw [List.getElem?_append_right (le_refl _)] at hv
      simp only [Nat.sub_self, List.getElem?_cons_zero, Option.some.injEq] at hv
      exact Or.inr ⟨rfl, hv.symm⟩
  have haidx : alloc.edges_below index.vectors.length := by
    intro i v hv
    rcases hget i v hv with ⟨_, h⟩ | ⟨_, h⟩
    · exact hidx i v h
    · rw [h]
      exact ⟨fun e he => by simp [Vector.new] at he, fun o ho => by simp [Vector.new] at ho,
        fun o ho => by simp [Vector.new] at ho⟩
  have halong : ∀ (i : Nat) (v : Vector D), alloc.vectors[i]? = some v →
      v.long_edge_out = [] := by
    intro i v hv
    rcases hget i v hv with ⟨_, h⟩ | ⟨_, h⟩
    · exact (hall i v h).2.1
    · rw [h]; rfl
  have haoffs : ∀ (i : Nat) (v : Vector D), alloc.vectors[i]? = some v → v.offset = i := by
    intro i v hv
    rcases hget i v hv with ⟨_, h⟩ | ⟨hi, h⟩
    · exact (hall i v h).1
    · rw [h, hi, ← hcount]; rfl
  obtain ⟨probe, hprobe, hpm, hpl⟩ := search_add_spec similarity distance_to_zero stale alloc data
    index.vectors.length hpos (by omega) haidx halong (by rw [hap]; exact hlimit)
  obtain ⟨index1, hbind, e1, d1o, d1j⟩ := bind_short_edges_spec index.vectors.length
    probe.2.2 alloc (edges_below_mono (by omega) haidx) haoffs (by omega)
    (fun e he => ⟨by have := hpm e he; omega, by have := hpm e he; omega⟩)
    (by rw [hap]; exact hlow)
  have hadd : add similarity distance_to_zero stale index id data = some index1 := by
    unfold add
    rw [halloc, Option.some_bind]
    simp only
    rw [hcount, List.getElem?_eq_getElem (by omega : index.vectors.length < alloc.vectors.length)]
    simp only
    rw [hprobe, Option.some_bind]
    exact hbind
  have hf1 := bind_short_edges_frame _ hbind
  have hl1 : index1.vectors.length = index.vectors.length + 1 := by
    rw [frame_length hf1, hal]
  have hdeg : ∀ j, j ≠ index.vectors.length → alloc.out_degree j = index.out_degree j := by
    intro j hj
    unfold Index.out_degree
    rw [hav]
    by_cases hi : j < index.vectors.length
    · rw [List.getElem?_append_left hi]
    · rw [List.getElem?_eq_none (by simp; omega), List.getElem?_eq_none (by omega)]
  have hdegn : alloc.out_degree index.vectors.length = 0 := by
    unfold Index.out_degree
    rw [hav, List.getElem?_append_right (le_refl _)]
    simp [Vector.new]
  refine ⟨index1, hadd, ⟨frame_ok_add ⟨hempty, hcount, hpos, hall⟩ hadd, ?_⟩, hl1,
    (frame_parameters hf1).trans hap, ?_, ?_⟩
  · rw [hl1, ← hal]
    exact e1
  · rw [d1o, hdegn, Nat.zero_add, ← hap]
    exact hpl
  · intro j hj
    obtain ⟨a, b⟩ := d1j j hj
    rw [hdeg j hj] at a b
    rw [hap] at b
    exact ⟨a, b⟩

theorem sound_new {D : Type} [Zero D] (space : Metric) (dimension short_edge_lower_limit
    magnification cover_range indeterminate : Nat) :
    (Index.new space dimension short_edge_lower_limit magnification cover_range
      indeterminate : Index D).sound := by
  refine ⟨frame_ok_new _ _ _ _ _ _, ?_⟩
  intro i v hv
  cases i with
  | zero =>
    simp only [Index.new, List.getElem?_cons_zero, Option.some.injEq] at hv
    subst hv
    exact ⟨fun e he => by simp [Vector.new] at he, fun o ho => by simp [Vector.new] at ho,
      fun o ho => by simp [Vector.new] at ho⟩
  | succ j => simp [Index.new] at hv

/-- A run of `add` calls on a sound index with positive lower limit and termination number
returns, whatever ids and data it is given. -/
theorem add_all_spec {D : Type} [LinearOrder D] (similarity : List D → List D → Nat → D)
    (distance_to_zero : List D → Nat → D)
    (stale : Stale_Read D) (entries : List (Nat × List D)) (index : Index D)
    (hs : index.sound) (hlow : 1 ≤ index.parameters.short_edge_lower_limit)
    (hlimit : 1 ≤ index.parameters.termination_number) :
    ∃ index1, add_all similarity distance_to_zero stale index entries = some index1 ∧
      index1.sound ∧ index1.parameters = index.parameters ∧
      index1.vectors.length = index.vectors.length + entries.length := by
  induction entries generalizing index with
  | nil => exact ⟨index, rfl, hs, rfl, rfl⟩
  | cons e rest ih =>
    obtain ⟨i1, h1, s1, l1, p1, -, -⟩ :=
      add_spec similarity distance_to_zero stale index e.1 e.2 hs hlow hlimit
    obtain ⟨i2, h2, s2, p2, l2⟩ := ih i1 s1 (by rw [p1]; exact hlow) (by rw [p1]; exact hlimit)
    refine ⟨i2, ?_, s2, p2.trans p1, ?_⟩
    · unfold add_all
      rw [h1, Option.some_bind, h2]
    · rw [l2, l1, List.length_cons]
      omega

/-! ## Worked runs on the line -/

set_option maxRecDepth 100000 in
theorem line_one_built :
    add_all Euclidean2.distance Euclidean2.distance_to_zero gnu_read line_index [(1, [10])] =
      some line_one := by
  decide

set_option maxRecDepth 100000 in
theorem stranded_index_built :
    add_all Euclidean2.distance Euclidean2.distance_to_zero gnu_read line_index stranded_entries =
      some stranded_index := by
  decide

set_option maxRecDepth 100000 in
theorem line_two_built :
    add_all Euclidean2.distance Euclidean2.distance_to_zero gnu_read line_index
      [(1, [10]), (2, [1])] = some line_two := by
  decide

set_option maxRecDepth 100000 in
theorem line_three_built :
    add_all Euclidean2.distance Euclidean2.distance_to_zero gnu_read line_index line_entries =
      some line_three := by
  decide

set_option maxRecDepth 100000 in
theorem reserve_index_built :
    add_all Euclidean2.distance Euclidean2.distance_to_zero gnu_read
      (Index.new Metric.Euclidean2 1 1 0 1 0) stranded_entries = some reserve_index := by
  decide

set_option maxRecDepth 100000 in
theorem line_far_built :
    add_all Euclidean2.distance Euclidean2.distance_to_zero gnu_read line_index
      [(1, [10]), (2, [200])] = some line_far := by
  decide

set_option maxRecDepth 100000 in
theorem twin_one_built :
    add_all Euclidean2.distance Euclidean2.distance_to_zero gnu_read twin_index [(1, [10])] =
      some twin_one := by
  decide

set_option maxRecDepth 100000 in
theorem twin_two_added :
    add Euclidean2.distance Euclidean2.distance_to_zero gnu_read twin_one 2 [1] =
      some twin_two := by
  decide

theorem search_add_phase2_ne_nil {D : Type} [LinearOrder D]
    (similarity : List D → List D → Nat → D) (stale : Stale_Read D) (index : Index D)
    (target_vector : List D)
    (fuel : Nat) (visited : List Bool) (waiting short_path : List (D × Nat))
    (result : List Bool × List (D × Nat) × List (D × Nat))
    (h : search_add_phase2 similarity stale index target_vector fuel visited waiting short_path =
      some result) : result.2.1 ≠ [] := by
  induction fuel generalizing visited waiting short_path with
  | zero => simp [search_add_phase2] at h
  | succ fuel ih =>
    simp only [search_add_phase2] at h
    split at h
    · exact absurd h (by simp)
    · split at h
      · exact absurd h (by simp)
      · split at h
        · exact absurd h (by simp)
        · split at h
          · exact absurd h (by simp)
          · next top1 htop1 =>
            split at h
            · rw [← Option.some.inj h]
              intro hnil
              simp only at hnil
              rw [hnil] at htop1
              simp at htop1
            · exact ih _ _ _ h

theorem search_add_phase3_limit_zero {D : Type} [LinearOrder D]
    (similarity : List D → List D → Nat → D) (index : Index D) (target_vector : List D)
    (hzero : index.parameters.termination_number = 0)
    (fuel : Nat) (visited : List Bool) (processing : D × Nat) (rest : List (D × Nat)) :
    search_add_phase3 similarity index target_vector fuel visited (processing :: rest) [] =
      none := by
  cases fuel with
  | zero => rfl
  | succ fuel =>
    simp only [search_add_phase3]
    cases index.vectors[processing.2]? with
    | none => rfl
    | some pv => simp [harvest, hzero]

/-- When `search_add` returns, `termination_number` is positive: with a zero limit the first
turn of phase three calls `top()` on the empty `nearest_neighbors`. -/
theorem search_add_limit_pos {D : Type} [LinearOrder D]
    (similarity : List D → List D → Nat → D) (distance_to_zero : List D → Nat → D)
    (stale : Stale_Read D) (index : Index D) (target_vector : List D)
    (probe : List (D × Nat) × List (D × Nat) × List (D × Nat))
    (h : search_add similarity distance_to_zero stale index target_vector = some probe) :
    1 ≤ index.parameters.termination_number := by
  rcases Nat.eq_zero_or_pos index.parameters.termination_number with hzero | hpos
  · exfalso
    unfold search_add at h
    simp only at h
    split at h
    · obtain ⟨r1, -, h⟩ := Option.bind_eq_some.1 h
      obtain ⟨r2, h2, h⟩ := Option.bind_eq_some.1 h
      obtain ⟨nn, h3, -⟩ := Option.bind_eq_some.1 h
      have hne := search_add_phase2_ne_nil _ _ _ _ _ _ _ _ _ h2
      cases hw : r2.2.1 with
      | nil => exact hne hw
      | cons p rest =>
        rw [hw, search_add_phase3_limit_zero similarity index target_vector hzero] at h3
        exact absurd h3 (by simp)
    · exact absurd h (by simp)
  · exact hpos

theorem add_limit_pos {D : Type} [LinearOrder D]
    (similarity : List D → List D → Nat → D) (distance_to_zero : List D → Nat → D)
    (stale : Stale_Read D) (index index1 : Index D) (id : Nat) (data : List D) (hempty : index.empty = [])
    (h : add similarity distance_to_zero stale index id data = some index1) :
    1 ≤ index.parameters.termination_number := by
  unfold add at h
  rw [add_allocate_empty index id data hempty, Option.some_bind] at h
  simp only at h
  split at h
  · exact absurd h (by simp)
  · obtain ⟨probe, hp, -⟩ := Option.bind_eq_some.1 h
    have hpos := search_add_limit_pos _ _ _ _ _ _ hp
    exact hpos

/-- A degree bound that holds before a run of `add` calls holds after it, when the bound is
at least the termination number, the lower limit and the upper limit plus one. -/
theorem add_all_out_degree {D : Type} [LinearOrder D]
    (similarity : List D → List D → Nat → D) (distance_to_zero : List D → Nat → D)
    (stale : Stale_Read D) (entries : List (Nat × List D)) (index index1 : Index D) (bound : Nat)
    (hs : index.sound) (hlow : 1 ≤ index.parameters.short_edge_lower_limit)
    (hb1 : index.parameters.termination_number ≤ bound)
    (hb2 : index.parameters.short_edge_lower_limit ≤ bound)
    (hb3 : index.parameters.short_edge_upper_limit + 1 ≤ bound)
    (hdeg : ∀ j, index.out_degree j ≤ bound)
    (h : add_all similarity distance_to_zero stale index entries = some index1) :
    ∀ j, index1.out_degree j ≤ bound := by
  induction entries generalizing index with
  | nil =>
    unfold add_all at h
    rw [← Option.some.inj h]
    exact hdeg
  | cons e rest ih =>
    unfold add_all at h
    obtain ⟨i1, h1, h⟩ := Option.bind_eq_some.1 h
    have hlimit := add_limit_pos _ _ _ _ _ _ _ hs.1.1 h1
    obtain ⟨i1x, h1x, s1, -, p1, d1n, d1j⟩ :=
      add_spec similarity distance_to_zero stale index e.1 e.2 hs hlow hlimit
    rw [h1] at h1x
    obtain rfl := Option.some.inj h1x
    refine ih i1 s1 (by rw [p1]; exact hlow) (by rw [p1]; exact hb1) (by rw [p1]; exact hb2)
      (by rw [p1]; exact hb3) ?_ h
    intro j
    by_cases hj : j = index.vectors.length
    · rw [hj]
      exact le_trans d1n hb1
    · have := (d1j j hj).2
      have := hdeg j
      omega

/-! ## Claims C1 - C10 -/

/-- C1, as amended: `add` has no check for an id that is already stored.  On an index built
by `add` calls on a fresh index whose lower limit and termination number are positive, `add`
with an id that is a key of `id_to_offset` returns normally, appends a record carrying that
id, raises `count` by one and leaves `id_to_offset` as it was. -/
theorem add_stored_id_appends {D : Type} [LinearOrder D] [Zero D]
    (similarity : List D → List D → Nat → D) (distance_to_zero : List D → Nat → D)
    (stale : Stale_Read D)
    (space : Metric) (dimension short_edge_lower_limit magnification cover_range
      indeterminate : Nat)
    (hlow : 1 ≤ short_edge_lower_limit)
    (hlimit : 1 ≤ (short_edge_lower_limit + magnification) % 2 ^ 64)
    (entries : List (Nat × List D)) (index : Index D)
    (hbuilt : add_all similarity distance_to_zero stale
      (Index.new space dimension short_edge_lower_limit magnification cover_range indeterminate)
      entries = some index)
    (id : Nat) (data : List D)
    (hid : index.id_to_offset.any (fun e => e.1 == id) = true) :
    ∃ index1, add similarity distance_to_zero stale index id data = some index1 ∧
      index1.vectors.map Vector.id = index.vectors.map Vector.id ++ [id] ∧
      index1.count = index.count + 1 ∧
      index1.id_to_offset = index.id_to_offset := by
  obtain ⟨i0, h0, s0, p0, -⟩ := add_all_spec similarity distance_to_zero stale entries
    (Index.new space dimension short_edge_lower_limit magnification cover_range indeterminate)
    (sound_new _ _ _ _ _ _) hlow hlimit
  rw [hbuilt] at h0
  obtain rfl := Option.some.inj h0
  obtain ⟨index1, h1, -⟩ := add_spec similarity distance_to_zero stale index id data s0
    (by rw [p0]; exact hlow) (by rw [p0]; exact hlimit)
  have hf := add_frame s0.1.1 h1
  simp only [Index.frame, Prod.mk.injEq] at hf
  obtain ⟨hv, -, hc, -, -, hm⟩ := hf
  refine ⟨index1, h1, ?_, hc, ?_⟩
  · have := congrArg (List.map Prod.fst) hv
    simpa [Vector.core, Vector.new, Function.comp_def] using this
  · rw [hm, umap_insert, if_pos hid]

/-- C1, witness: the amended statement at the index `line_one`, which stores id 1, and a
second `add` with id 1. -/
theorem add_stored_id_appends_witness :
    add_all Euclidean2.distance Euclidean2.distance_to_zero gnu_read
      (Index.new Metric.Euclidean2 1 1 0 1 2) [(1, [10])] = some line_one ∧
    line_one.id_to_offset.any (fun e => e.1 == 1) = true ∧
    ∃ index1, add Euclidean2.distance Euclidean2.distance_to_zero gnu_read line_one 1 [10] =
        some index1 ∧
      index1.vectors.map Vector.id = line_one.vectors.map Vector.id ++ [1] ∧
      index1.count = line_one.count + 1 ∧
      index1.id_to_offset = line_one.id_to_offset :=
  ⟨line_one_built, by decide,
    add_stored_id_appends Euclidean2.distance Euclidean2.distance_to_zero gnu_read Metric.Euclidean2
      1 1 0 1 2 (by decide) (by decide) [(1, [10])] line_one line_one_built 1 [10]
      (by decide)⟩

set_option maxRecDepth 100000 in
/-- C1, counterexample: `line_one` stores id 1 at offset 1, and `add` with id 1 on it does
not fail and does not leave the index unchanged: it returns an index with count 3 whose
records at offsets 1 and 2 both carry id 1. -/
theorem add_stored_id_not_rejected :
    add_all Euclidean2.distance Euclidean2.distance_to_zero gnu_read line_index [(1, [10])] =
      some line_one ∧
    (add Euclidean2.distance Euclidean2.distance_to_zero gnu_read line_one 1 [10]).map
      (fun index => (index.count, index.vectors.map Vector.id, index.id_to_offset)) =
      some (3, [uint64_max, 1, 1], [(uint64_max, 0), (1, 1)]) := by
  decide

/-- The records reached from the zero point in `stranded_index` are the zero point and the
record at offset 1. -/
theorem stranded_reach (y : Nat) (h : stranded_index.reaches 0 y) : y = 0 ∨ y = 1 := by
  unfold Index.reaches at h
  induction h with
  | refl => exact Or.inl rfl
  | tail _ hstep ih =>
    rcases ih with hb | hb
    · subst hb
      simp [Index.steps, stranded_index] at hstep
      exact Or.inr hstep
    · subst hb
      simp [Index.steps, stranded_index] at hstep
      exact Or.inl hstep

/-- C2, evaluated at the failing input: after the three insertions `stranded_entries` (the
points 1, 3, 2 under the ids 1, 2, 3) on `line_index` the records at offsets 2 and 3 are not
reached from offset 0 by any walk along stored edges.  The third insertion erases the
out-edge of the record at offset 2 to the zero point together with the entry 2 of
`short_edge_in` of the zero point, and line 412 puts back the out-edge only. -/
theorem sentinel_reachability_fails :
    add_all Euclidean2.distance Euclidean2.distance_to_zero gnu_read line_index stranded_entries =
      some stranded_index ∧
    ¬ stranded_index.reaches 0 2 ∧ ¬ stranded_index.reaches 0 3 :=
  ⟨stranded_index_built,
    fun h => by rcases stranded_reach 2 h with h1 | h1 <;> exact absurd h1 (by decide),
    fun h => by rcases stranded_reach 3 h with h1 | h1 <;> exact absurd h1 (by decide)⟩

/-- C3, as amended: after any run of `add` calls on a fresh index with
`short_edge_upper_limit >= short_edge_lower_limit >= 1` and any magnification, every record
has at most `max(termination_number, short_edge_upper_limit + 1)` short out-edges. -/
theorem short_edge_out_ceiling {D : Type} [LinearOrder D] [Zero D]
    (similarity : List D → List D → Nat → D) (distance_to_zero : List D → Nat → D)
    (stale : Stale_Read D)
    (space : Metric) (dimension short_edge_lower_limit magnification cover_range
      short_edge_upper_limit : Nat)
    (hlow : 1 ≤ short_edge_lower_limit)
    (hupper : short_edge_lower_limit ≤ short_edge_upper_limit)
    (entries : List (Nat × List D)) (index : Index D)
    (hbuilt : add_all similarity distance_to_zero stale
      (Index.new space dimension short_edge_lower_limit magnification cover_range
        short_edge_upper_limit) entries = some index) :
    ∀ v ∈ index.vectors, v.short_edge_out.length ≤
      max ((short_edge_lower_limit + magnification) % 2 ^ 64) (short_edge_upper_limit + 1) := by
  have hdeg := add_all_out_degree similarity distance_to_zero stale entries
    (Index.new space dimension short_edge_lower_limit magnification cover_range
      short_edge_upper_limit) index
    (max ((short_edge_lower_limit + magnification) % 2 ^ 64) (short_edge_upper_limit + 1))
    (sound_new _ _ _ _ _ _) hlow (le_max_left _ _)
    (le_trans (le_trans hupper (Nat.le_succ _)) (le_max_right _ _)) (le_max_right _ _)
    (fun j => by
      cases j with
      | zero => simp [Index.out_degree, Index.new, Vector.new]
      | succ k => simp [Index.out_degree, Index.new])
    hbuilt
  intro v hv
  obtain ⟨j, hj⟩ := List.mem_iff_getElem?.1 hv
  have := hdeg j
  simpa [Index.out_degree, hj] using this

set_option maxRecDepth 100000 in
/-- C3, witness: the amended bound on the index `stranded_index`, built with lower limit 1
and upper limit 2. -/
theorem short_edge_out_ceiling_witness :
    (1 ≤ 1 ∧ 1 ≤ 2 ∧
      add_all Euclidean2.distance Euclidean2.distance_to_zero gnu_read
        (Index.new Metric.Euclidean2 1 1 0 1 2) stranded_entries = some stranded_index) ∧
    ∀ v ∈ stranded_index.vectors, v.short_edge_out.length ≤ max ((1 + 0) % 2 ^ 64) (2 + 1) :=
  ⟨⟨by decide, by decide, stranded_index_built⟩,
    short_edge_out_ceiling Euclidean2.distance Euclidean2.distance_to_zero gnu_read Metric.Euclidean2
      1 1 0 1 2 (by decide) (by decide) stranded_entries stranded_index stranded_index_built⟩

set_option maxRecDepth 100000 in
/-- C3, counterexample: lower limit 1, upper limit 1, magnification 1 (termination number 2).
After the insertions of `(10)` and `(1)` the record just inserted has 2 short out-edges,
more than the upper limit 1. -/
theorem short_edge_out_exceeds_upper_limit :
    (add_all Euclidean2.distance Euclidean2.distance_to_zero gnu_read
      (Index.new Metric.Euclidean2 1 1 1 1 1 : Index Int) [(1, [10]), (2, [1])]).map
      (fun index => (index.parameters.short_edge_lower_limit,
        index.parameters.short_edge_upper_limit,
        index.vectors.map fun v => v.short_edge_out.length)) =
      some (1, 1, [1, 1, 2]) := by
  decide

set_option maxRecDepth 100000 in
/-- C4, evaluated at the failing input: in `stranded_index` the record at offset 2 has a
short out-edge to offset 0, yet offset 2 is not in the `short_edge_in` of the record at
offset 0. -/
theorem reverse_index_broken :
    add_all Euclidean2.distance Euclidean2.distance_to_zero gnu_read line_index stranded_entries =
      some stranded_index ∧
    (stranded_index.vectors.map fun v => (v.offset, v.short_edge_out.map Prod.snd,
        v.short_edge_in)) =
      [(0, [1], [1]), (1, [0], [0]), (2, [3, 0], [3]), (3, [2], [2])] ∧
    stranded_index.has_out 2 0 ∧ ¬ stranded_index.has_in 0 2 :=
  ⟨stranded_index_built, by decide, ⟨_, rfl, by decide⟩, fun h => by
    obtain ⟨v, hv, hm⟩ := h
    obtain rfl := Option.some.inj hv.symm
    exact absurd hm (by decide)⟩

/-- C5, evaluated at the failing input: on `line_one`, which stores the vector `(10)` under
id 1, the query for `(10)` with `top_k = 1` and magnification 1 has no defined result (it
calls `waiting_vectors.top()` on an empty queue), so it does not return the pair `(0, 1)`. -/
theorem search_exact_copy_undefined :
    add_all Euclidean2.distance Euclidean2.distance_to_zero gnu_read line_index [(1, [10])] =
      some line_one ∧
    search Euclidean2.distance gnu_read line_one [10] 1 1 = none :=
  ⟨line_one_built, by decide⟩

/-- C6, evaluated at the failing input: whatever value the uninitialised upper limit holds,
the four insertions of the scenario return an index, and on it the query for `(0.1, 0.1)`
with `top_k = 2` has no defined result instead of the two pairs of the scenario. -/
theorem search_square_undefined (indeterminate : Nat) :
    (add_all Euclidean2.distance Euclidean2.distance_to_zero gnu_read
      (Index.new Metric.Euclidean2 2 2 0 2 indeterminate) square_entries).map
      (fun index => search Euclidean2.distance gnu_read index [1 / 10, 1 / 10] 2 0) = some none := by
  obtain ⟨index, h, hs, -⟩ := add_all_spec Euclidean2.distance Euclidean2.distance_to_zero gnu_read
    square_entries (Index.new Metric.Euclidean2 2 2 0 2 indeterminate : Index ℚ)
    (sound_new _ _ _ _ _ _) (by show 1 ≤ 2; decide) (by show 1 ≤ (2 + 0) % 2 ^ 64; decide)
  rw [h, Option.map_some', search_frame_ok Euclidean2.distance gnu_read hs.1]

/-- C7, evaluated at the failing input: `line_one` holds n = 1 inserted record, and the query
with `top_k = 2 > n` has no defined result instead of one pair with id 1. -/
theorem search_more_than_stored_undefined :
    add_all Euclidean2.distance Euclidean2.distance_to_zero gnu_read line_index [(1, [10])] =
      some line_one ∧
    search Euclidean2.distance gnu_read line_one [3] 2 0 = none :=
  ⟨line_one_built, by decide⟩

/-- C8, for every fresh index: `search` raises no error for the empty index; its two checks
are commented out and it calls `waiting_vectors.top()` on an empty queue, which has no
defined result. -/
theorem search_fresh_index_undefined {D : Type} [LinearOrder D] [Zero D]
    (similarity : List D → List D → Nat → D) (stale : Stale_Read D) (space : Metric)
    (dimension short_edge_lower_limit magnification cover_range indeterminate : Nat)
    (query_vector : List D) (top_k search_magnification : Nat) :
    search similarity stale
      (Index.new space dimension short_edge_lower_limit magnification cover_range
        indeterminate) query_vector top_k search_magnification = none :=
  search_frame_ok similarity stale (frame_ok_new _ _ _ _ _ _) query_vector top_k
    search_magnification

/-- C9, evaluated at the failing input: on `line_three`, built by the three insertions
`line_entries`, the query for the target `(4)` with `top_k = 2` and magnification 1 yields
no result at all, so there is no result with the stated properties. -/
theorem search_result_missing :
    add_all Euclidean2.distance Euclidean2.distance_to_zero gnu_read line_index line_entries =
      some line_three ∧
    search Euclidean2.distance gnu_read line_three [4] 2 1 = none :=
  ⟨line_three_built, by decide⟩

/-- When `short_edge_lower_limit` and `termination_number` are both at least 1, every run
of `add` calls on a fresh index has a result in this embedding, whatever the stale reads
give: no loop of `search_add` or `add` runs out of fuel, no `top()` or `rbegin()` meets an
empty container and no index into `vectors` or `visited` is out of range. -/
theorem add_all_returns {D : Type} [LinearOrder D] [Zero D]
    (similarity : List D → List D → Nat → D) (distance_to_zero : List D → Nat → D)
    (stale : Stale_Read D) (space : Metric) (dimension short_edge_lower_limit magnification
      cover_range indeterminate : Nat)
    (hlow : 1 ≤ short_edge_lower_limit)
    (hlimit : 1 ≤ (short_edge_lower_limit + magnification) % 2 ^ 64)
    (entries : List (Nat × List D)) :
    ∃ index, add_all similarity distance_to_zero stale
      (Index.new space dimension short_edge_lower_limit magnification cover_range indeterminate)
      entries = some index ∧
      index.vectors.length = entries.length + 1 := by
  obtain ⟨index, h, -, -, hl⟩ := add_all_spec similarity distance_to_zero stale entries
    (Index.new space dimension short_edge_lower_limit magnification cover_range indeterminate)
    (sound_new _ _ _ _ _ _) hlow hlimit
  refine ⟨index, h, ?_⟩
  rw [hl]
  simp [Index.new, Nat.add_comm]

set_option maxRecDepth 100000 in
/-- C10, evaluated at the failing inputs.  With `short_edge_lower_limit = 0` (magnification
1, termination number 1) the first `add` on a fresh index has no defined result: the zero
point has no out-edge and `short_edge_out.size() < 0` is false, so line 397 reads
`neighbor.short_edge_out.rbegin()` of an empty container.  With lower limit 1 the second
`add`, `add(index, 2, (1))` on `line_one`, reads `processing_offset` at line 207 after the
push at line 171 has moved the queue: what the probe returns as `short_path` is `[(1, 0)]`
when the freed storage is read as under `gnu_read`, and empty when the reference still
reads the top of the queue. -/
theorem add_undefined_lower_limit_zero :
    add Euclidean2.distance Euclidean2.distance_to_zero gnu_read
      (Index.new Metric.Euclidean2 1 0 1 1 0 : Index Int) 1 [10] = none ∧
    (∀ stale : Stale_Read Int,
      add Euclidean2.distance Euclidean2.distance_to_zero stale
        (Index.new Metric.Euclidean2 1 0 1 1 0 : Index Int) 1 [10] = none) ∧
    ((add_allocate line_one 2 [1]).bind fun allocated =>
      (search_add Euclidean2.distance Euclidean2.distance_to_zero gnu_read allocated.1 [1]).map
        fun probe => probe.2.1) = some [(1, 0)] ∧
    ((add_allocate line_one 2 [1]).bind fun allocated =>
      (search_add Euclidean2.distance Euclidean2.distance_to_zero steady_read allocated.1
        [1]).map fun probe => probe.2.1) = some [] := by
  refine ⟨by decide, fun stale => ?_, by decide, by decide⟩
  rfl

/-! ## Ids and offsets -/

theorem ids_ok_new {D : Type} [Zero D] (space : Metric) (dimension short_edge_lower_limit
    magnification cover_range indeterminate : Nat) :
    (Index.new space dimension short_edge_lower_limit magnification cover_range
      indeterminate : Index D).ids_ok :=
  ⟨rfl, by simp [Index.new]⟩

theorem any_key_eq_false {ids : List (Nat × Nat)} {id : Nat}
    (h : id ∉ ids.map Prod.fst) : ids.any (fun e => e.1 == id) = false := by
  rw [List.any_eq_false]
  intro e he heq
  exact h (List.mem_map.2 ⟨e, he, by simpa using heq⟩)

theorem ids_ok_add {D : Type} [LinearOrder D] {similarity : List D → List D → Nat → D}
    {distance_to_zero : List D → Nat → D} {stale : Stale_Read D} {index index1 : Index D} {id : Nat}
    {data : List D} (hok : index.frame_ok) (hids : index.ids_ok)
    (hnew : id ∉ index.vectors.map Vector.id)
    (h : add similarity distance_to_zero stale index id data = some index1) :
    index1.ids_ok ∧ index1.vectors.map Vector.id = index.vectors.map Vector.id ++ [id] := by
  have hf := add_frame hok.1 h
  simp only [Index.frame, Prod.mk.injEq] at hf
  obtain ⟨hv, -, -, -, -, hm⟩ := hf
  have hid : index1.vectors.map Vector.id = index.vectors.map Vector.id ++ [id] := by
    have := congrArg (List.map Prod.fst) hv
    simpa [Vector.core, Vector.new, Function.comp_def] using this
  have hio : index1.vectors.map (fun v => (v.id, v.offset)) =
      index.vectors.map (fun v => (v.id, v.offset)) ++ [(id, index.count)] := by
    have := congrArg (List.map fun c => (c.1, c.2.1)) hv
    simpa [Vector.core, Vector.new, Function.comp_def] using this
  have hkeys : id ∉ index.id_to_offset.map Prod.fst := by
    rw [hids.1]
    simpa [Function.comp_def] using hnew
  refine ⟨⟨?_, ?_⟩, hid⟩
  · rw [hm, hio, umap_insert, any_key_eq_false hkeys, hids.1]
    simp
  · rw [hid]
    exact List.Nodup.append hids.2 (List.nodup_singleton _)
      (by simpa [List.Disjoint] using hnew)

theorem ids_ok_add_all {D : Type} [LinearOrder D] {similarity : List D → List D → Nat → D}
    {distance_to_zero : List D → Nat → D} {stale : Stale_Read D} (entries : List (Nat × List D))
    {index index1 : Index D} (hok : index.frame_ok) (hids : index.ids_ok)
    (hnodup : (entries.map Prod.fst).Nodup)
    (hnew : ∀ e ∈ entries, e.1 ∉ index.vectors.map Vector.id)
    (h : add_all similarity distance_to_zero stale index entries = some index1) :
    index1.ids_ok ∧
      index1.vectors.map Vector.id = index.vectors.map Vector.id ++ entries.map Prod.fst := by
  induction entries generalizing index with
  | nil =>
    unfold add_all at h
    rw [← Option.some.inj h]
    exact ⟨hids, by simp⟩
  | cons e rest ih =>
    unfold add_all at h
    obtain ⟨i1, h1, h⟩ := Option.bind_eq_some.1 h
    obtain ⟨hids1, hid1⟩ := ids_ok_add hok hids (hnew e (List.mem_cons_self _ _)) h1
    simp only [List.map_cons, List.nodup_cons] at hnodup
    obtain ⟨a, b⟩ := ih (frame_ok_add hok h1) hids1 hnodup.2 (by
      intro x hx
      rw [hid1]
      simp only [List.mem_append, List.mem_singleton, not_or]
      refine ⟨hnew x (List.mem_cons_of_mem _ hx), ?_⟩
      intro hxe
      exact hnodup.1 (hxe ▸ List.mem_map.2 ⟨x, hx, rfl⟩)) h
    refine ⟨a, ?_⟩
    rw [b, hid1]
    simp

theorem find_key_of_getElem? {ids : List (Nat × Nat)} (hnodup : (ids.map Prod.fst).Nodup)
    {o : Nat} {e : Nat × Nat} (h : ids[o]? = some e) :
    ids.find? (fun x => x.1 == e.1) = some e := by
  induction ids generalizing o with
  | nil => simp at h
  | cons x xs ih =>
    simp only [List.map_cons, List.nodup_cons] at hnodup
    cases o with
    | zero =>
      simp only [List.getElem?_cons_zero, Option.some.injEq] at h
      subst h
      simp
    | succ k =>
      simp only [List.getElem?_cons_succ] at h
      have hne : x.1 ≠ e.1 := by
        intro heq
        exact hnodup.1 (heq ▸ List.mem_map.2 ⟨e, List.mem_iff_getElem?.2 ⟨k, h⟩, rfl⟩)
      rw [List.find?_cons_of_neg _ (by simpa using hne)]
      exact ih hnodup.2 h

theorem to_int64_small {x : Nat} (h : x < 2 ^ 63) : to_int64 x = (x : Int) := by
  have h1 : x % 2 ^ 64 = x := Nat.mod_eq_of_lt (by omega)
  unfold to_int64
  rw [h1, if_pos h]

/-- On an index whose map lists the records in storage order with distinct ids and whose
records sit at their own offsets, `get_offset` of the id stored at offset `o` is `o`. -/
theorem get_offset_stored {D : Type} {index : Index D} (hok : index.frame_ok)
    (hids : index.ids_ok) (hsize : index.vectors.length ≤ 2 ^ 63) {o : Nat} {v : Vector D}
    (hv : index.vectors[o]? = some v) : get_offset index v.id = some (o : Int) := by
  have ho : v.offset = o := (hok.2.2.2 o v hv).1
  have hlt : o < index.vectors.length := (List.getElem?_eq_some.1 hv).1
  have he : index.id_to_offset[o]? = some (v.id, v.offset) := by
    rw [hids.1, List.getElem?_map, hv]
    rfl
  have hnodup : (index.id_to_offset.map Prod.fst).Nodup := by
    rw [hids.1]
    simpa [Function.comp_def] using hids.2
  unfold get_offset
  rw [find_key_of_getElem? hnodup he]
  simp only [ho]
  rw [to_int64_small (by omega)]

theorem map_offset_eq_range {D : Type} {index : Index D} (hok : index.frame_ok) :
    index.vectors.map Vector.offset = List.range index.vectors.length := by
  apply List.ext_getElem?
  intro i
  rw [List.getElem?_map]
  by_cases hi : i < index.vectors.length
  · rw [List.getElem?_eq_getElem hi, List.getElem?_range hi]
    simp only [Option.map_some', Option.some.injEq]
    exact (hok.2.2.2 i _ (List.getElem?_eq_getElem hi)).1
  · rw [List.getElem?_eq_none (by omega), List.getElem?_eq_none (by simp; omega)]
    rfl

/-! ## Claims C12, C19, C20 -/

/-- C12: after `add` calls with pairwise distinct ids other than `2^64 - 1` on a fresh index
(fewer than `2^63` of them, so that every offset fits the return type `int64_t`),
`get_offset` of the id stored at offset `o` is `o` for every `o < |vectors|`; `id_to_offset`
has `|vectors|` entries, its keys are the stored ids, each once, its values are the offsets
`0 .. |vectors| - 1`; and `get_offset` of `2^64 - 1` is 0. -/
theorem id_offset_round_trip {D : Type} [LinearOrder D] [Zero D]
    (similarity : List D → List D → Nat → D) (distance_to_zero : List D → Nat → D)
    (stale : Stale_Read D)
    (space : Metric) (dimension short_edge_lower_limit magnification cover_range
      indeterminate : Nat)
    (entries : List (Nat × List D)) (index : Index D)
    (hdistinct : (entries.map Prod.fst).Nodup)
    (hmax : ∀ e ∈ entries, e.1 ≠ 2 ^ 64 - 1)
    (hsize : entries.length < 2 ^ 63)
    (hbuilt : add_all similarity distance_to_zero stale
      (Index.new space dimension short_edge_lower_limit magnification cover_range indeterminate)
      entries = some index) :
    (∀ (o : Nat) (v : Vector D), index.vectors[o]? = some v →
      get_offset index v.id = some (o : Int)) ∧
    index.id_to_offset.length = index.vectors.length ∧
    index.id_to_offset.map Prod.fst = index.vectors.map Vector.id ∧
    (index.id_to_offset.map Prod.fst).Nodup ∧
    index.id_to_offset.map Prod.snd = List.range index.vectors.length ∧
    get_offset index (2 ^ 64 - 1) = some 0 := by
  have hok := frame_ok_add_all entries (frame_ok_new space dimension short_edge_lower_limit
    magnification cover_range indeterminate) hbuilt
  obtain ⟨hids, hid⟩ := ids_ok_add_all entries
    (frame_ok_new space dimension short_edge_lower_limit magnification cover_range
      indeterminate)
    (ids_ok_new space dimension short_edge_lower_limit magnification cover_range
      indeterminate) hdistinct
    (by
      intro e he
      simpa [Index.new, Vector.new, uint64_max] using hmax e he) hbuilt
  have hlen : index.vectors.length = entries.length + 1 := by
    have := congrArg List.length hid
    simpa [Index.new, Nat.add_comm] using this
  have hsize1 : index.vectors.length ≤ 2 ^ 63 := by omega
  have hkeys : index.id_to_offset.map Prod.fst = index.vectors.map Vector.id := by
    rw [hids.1]
    simp [Function.comp_def]
  refine ⟨fun o v hv => get_offset_stored hok hids hsize1 hv, ?_, hkeys, ?_, ?_, ?_⟩
  · rw [hids.1, List.length_map]
  · rw [hkeys]
    exact hids.2
  · rw [hids.1, ← map_offset_eq_range hok]
    simp [Function.comp_def]
  · have h0 : 0 < index.vectors.length := by omega
    have hv0 : index.vectors[0]? = some index.vectors[0] := List.getElem?_eq_getElem h0
    have hid0 : (index.vectors.map Vector.id)[0]? = some index.vectors[0].id := by
      rw [List.getElem?_map, hv0]
      rfl
    rw [hid] at hid0
    simp only [Index.new, Vector.new, List.map_cons, List.map_nil, List.singleton_append,
      List.getElem?_cons_zero, Option.some.injEq, uint64_max] at hid0
    have := get_offset_stored hok hids hsize1 hv0
    rw [← hid0] at this
    exact this

set_option maxRecDepth 100000 in
/-- C12, witness: the three insertions `stranded_entries` with ids 1, 2, 3. -/
theorem id_offset_round_trip_witness :
    ((stranded_entries.map Prod.fst).Nodup ∧ (∀ e ∈ stranded_entries, e.1 ≠ 2 ^ 64 - 1) ∧
      stranded_entries.length < 2 ^ 63 ∧
      add_all Euclidean2.distance Euclidean2.distance_to_zero gnu_read
        (Index.new Metric.Euclidean2 1 1 0 1 2) stranded_entries = some stranded_index) ∧
    ((∀ (o : Nat) (v : Vector Int), stranded_index.vectors[o]? = some v →
      get_offset stranded_index v.id = some (o : Int)) ∧
    stranded_index.id_to_offset.length = stranded_index.vectors.length ∧
    stranded_index.id_to_offset.map Prod.fst = stranded_index.vectors.map Vector.id ∧
    (stranded_index.id_to_offset.map Prod.fst).Nodup ∧
    stranded_index.id_to_offset.map Prod.snd = List.range stranded_index.vectors.length ∧
    get_offset stranded_index (2 ^ 64 - 1) = some 0) :=
  ⟨⟨by decide, by decide, by decide, stranded_index_built⟩,
    id_offset_round_trip Euclidean2.distance Euclidean2.distance_to_zero gnu_read Metric.Euclidean2
      1 1 0 1 2 stranded_entries stranded_index (by decide) (by decide) (by decide)
      stranded_index_built⟩

/-- C19: for all constructor arguments a fresh index holds exactly one record, with id
`2^64 - 1`, offset 0, the all-zero vector of length `dimension` as data and five empty edge
containers; `id_to_offset` is exactly `{2^64 - 1 -> 0}` and the stack `empty` holds
nothing. -/
theorem index_new_contents {D : Type} [Zero D] (space : Metric)
    (dimension short_edge_lower_limit magnification cover_range indeterminate : Nat) :
    (Index.new space dimension short_edge_lower_limit magnification cover_range
      indeterminate : Index D).vectors =
      [{ id := 2 ^ 64 - 1, offset := 0, data := List.replicate dimension (0 : D),
         short_edge_out := [], short_edge_in := [], long_edge_out := [], long_edge_in := [],
         keep_connected := [] }] ∧
    (List.replicate dimension (0 : D)).length = dimension ∧
    (Index.new space dimension short_edge_lower_limit magnification cover_range
      indeterminate : Index D).id_to_offset = [(2 ^ 64 - 1, 0)] ∧
    (Index.new space dimension short_edge_lower_limit magnification cover_range
      indeterminate : Index D).empty = [] :=
  ⟨rfl, List.length_replicate _ _, rfl, rfl⟩

/-- C20, as amended: `get_offset` makes no check and raises no error.  For an id that is not
a key of `id_to_offset` it dereferences `end()` and has no defined result. -/
theorem get_offset_unknown_id {D : Type} (index : Index D) (id : Nat)
    (h : ∀ e ∈ index.id_to_offset, e.1 ≠ id) : get_offset index id = none := by
  unfold get_offset
  have hfind : index.id_to_offset.find? (fun e => e.1 == id) = none := by
    rw [List.find?_eq_none]
    intro e he
    simpa using h e he
  rw [hfind]

/-- C20, witness: the id 7 on `line_one`, whose map holds the ids `2^64 - 1` and 1. -/
theorem get_offset_unknown_id_witness :
    (∀ e ∈ line_one.id_to_offset, e.1 ≠ 7) ∧ get_offset line_one 7 = none :=
  ⟨by decide, get_offset_unknown_id line_one 7 (by decide)⟩

/-- C20, counterexample: on the fresh index `line_index` the lookup of the id 5, which is
not stored, reports no `UnknownId` error: the model has no such outcome, the lookup has no
defined result. -/
theorem get_offset_no_error : get_offset line_index 5 = none := by
  decide

/-! ## The first insertion, step by step -/

/-- The first `add` on a fresh index with positive lower limit and termination number: the
probe hands back the zero point alone, and the zero point and the new record are linked in
both directions with the distance `distance_to_zero` gives. -/
theorem add_fresh {D : Type} [LinearOrder D] [Zero D]
    (similarity : List D → List D → Nat → D) (distance_to_zero : List D → Nat → D)
    (stale : Stale_Read D)
    (space : Metric) (dimension short_edge_lower_limit magnification cover_range
      indeterminate : Nat) (id : Nat) (data : List D)
    (hlow : 1 ≤ short_edge_lower_limit)
    (hlimit : 1 ≤ (short_edge_lower_limit + magnification) % 2 ^ 64) :
    add similarity distance_to_zero stale
      (Index.new space dimension short_edge_lower_limit magnification cover_range indeterminate)
      id data =
      some { parameters := Index_Parameters.new dimension space magnification
               short_edge_lower_limit cover_range indeterminate,
             count := 2,
             vectors :=
               [{ id := uint64_max, offset := 0, data := List.replicate dimension 0,
                  short_edge_out := [(distance_to_zero data dimension, 1)],
                  short_edge_in := [1], long_edge_out := [], long_edge_in := [],
                  keep_connected := [] },
                { id := id, offset := 1, data := data,
                  short_edge_out := [(distance_to_zero data dimension, 0)],
                  short_edge_in := [0], long_edge_out := [], long_edge_in := [],
                  keep_connected := [] }],
             empty := [],
             zero := List.replicate dimension 0,
             id_to_offset := umap_insert [(uint64_max, 0)] id 1 } := by
  have h1 : 0 < (short_edge_lower_limit + magnification) % 18446744073709551616 := hlimit
  have h2 : 0 < short_edge_lower_limit := hlow
  simp [add, add_allocate, Index.new, Index_Parameters.new, search_add, search_add_phase1,
    search_add_phase2, reread, search_add_phase3, visit_short, visit, Vector.new, min_push, max_push,
    pq_push, harvest, bind_short_edges, bind_candidate, Index.update, link_back,
    Vector.out_insert, Vector.in_insert, multimap_insert, set_insert, h1, h2, umap_insert]

/-- With lower limit 0 the first `add` on a fresh index has no defined result. -/
theorem add_fresh_lower_zero {D : Type} [LinearOrder D] [Zero D]
    (similarity : List D → List D → Nat → D) (distance_to_zero : List D → Nat → D)
    (stale : Stale_Read D)
    (space : Metric) (dimension magnification cover_range indeterminate : Nat) (id : Nat)
    (data : List D) :
    add similarity distance_to_zero stale
      (Index.new space dimension 0 magnification cover_range indeterminate) id data = none := by
  rcases Nat.eq_zero_or_pos (magnification % 18446744073709551616) with h | h
  · simp [add, add_allocate, Index.new, Index_Parameters.new, search_add, search_add_phase1,
      search_add_phase2, reread, search_add_phase3, visit_short, visit, Vector.new, min_push,
      max_push, pq_push, harvest, h, umap_insert]
  · simp [add, add_allocate, Index.new, Index_Parameters.new, search_add, search_add_phase1,
      search_add_phase2, reread, search_add_phase3, visit_short, visit, Vector.new, min_push,
      max_push, pq_push, harvest, bind_short_edges, bind_candidate, Index.update, link_back,
      Vector.out_insert, Vector.in_insert, multimap_insert, set_insert, h, umap_insert]

/-- A run of `add` calls on a fresh index that returns is empty or was made with positive
lower limit and termination number. -/
theorem built_parameters_pos {D : Type} [LinearOrder D] [Zero D]
    (similarity : List D → List D → Nat → D) (distance_to_zero : List D → Nat → D)
    (stale : Stale_Read D)
    (space : Metric) (dimension short_edge_lower_limit magnification cover_range
      indeterminate : Nat) (entries : List (Nat × List D)) (index : Index D)
    (hbuilt : add_all similarity distance_to_zero stale
      (Index.new space dimension short_edge_lower_limit magnification cover_range indeterminate)
      entries = some index) :
    (entries = [] ∧ index = Index.new space dimension short_edge_lower_limit magnification
      cover_range indeterminate) ∨
    (1 ≤ short_edge_lower_limit ∧ 1 ≤ (short_edge_lower_limit + magnification) % 2 ^ 64) := by
  cases entries with
  | nil =>
    unfold add_all at hbuilt
    exact Or.inl ⟨rfl, (Option.some.inj hbuilt).symm⟩
  | cons e rest =>
    right
    unfold add_all at hbuilt
    obtain ⟨i1, h1, -⟩ := Option.bind_eq_some.1 hbuilt
    constructor
    · rcases Nat.eq_zero_or_pos short_edge_lower_limit with h | h
      · subst h
        rw [add_fresh_lower_zero] at h1
        exact absurd h1 (by simp)
      · exact h
    · exact add_limit_pos _ _ _ _ _ _ _ rfl h1

/-! ## Claims C11, C16, C17, C18 -/

set_option maxRecDepth 100000 in
/-- C11, evaluated at the failing input: on an index built for the metric `InnerProduct`
the first `add`, of the vector `(10)`, stores the distance 100 in the out-edge of the new
record to the zero point and in the out-edge of the zero point to the new record, while the
configured kernel gives 0 for that pair: the probe seeds its queue with
`Space::Euclidean2::distance_to_zero` whatever metric is configured. -/
theorem sentinel_distance_not_similarity :
    (add InnerProduct.distance Euclidean2.distance_to_zero gnu_read
      (Index.new Metric.InnerProduct 1 1 0 1 2 : Index Int) 1 [10]).map
      (fun index => index.vectors.map fun v => (v.data, v.short_edge_out)) =
      some [([0], [(100, 1)]), ([10], [(100, 0)])] ∧
    InnerProduct.distance [10] [0] 1 = (0 : Int) ∧
    InnerProduct.distance [0] [10] 1 = (0 : Int) := by
  decide

set_option maxRecDepth 100000 in
/-- C16, evaluated at the failing input: the third insertion of `line_entries` runs with
`cover_range = 1` and its probe returns a `short_path` of two entries, yet after the call no
record, the new one included, has a long edge: the block at lines 430-432 is empty. -/
theorem long_edge_not_admitted :
    ((add_all Euclidean2.distance Euclidean2.distance_to_zero gnu_read line_index
        [(1, [10]), (2, [1])]).bind fun index =>
      (add_allocate index 3 [11]).bind fun allocated =>
      (search_add Euclidean2.distance Euclidean2.distance_to_zero gnu_read allocated.1 [11]).map
        fun probe => (index.parameters.cover_range, probe.2.1)) =
      some (1, [(1, 1), (1, 1)]) ∧
    add_all Euclidean2.distance Euclidean2.distance_to_zero gnu_read line_index line_entries =
      some line_three ∧
    (line_three.vectors.map fun v => (v.long_edge_out, v.long_edge_in)) =
      [([], []), ([], []), ([], []), ([], [])] := by
  decide

/-- C17, as amended: after exactly one `add` on a fresh index with lower limit and
termination number at least 1, the single inserted record has the one short out-edge
`(distance_to_zero(data), 0)` and the in-edge 0, and the zero point has the short out-edge
`(distance_to_zero(data), 1)` and the in-edge 1: the record is reached from the zero point
through a short edge. -/
theorem first_add_links {D : Type} [LinearOrder D] [Zero D]
    (similarity : List D → List D → Nat → D) (distance_to_zero : List D → Nat → D)
    (stale : Stale_Read D)
    (space : Metric) (dimension short_edge_lower_limit magnification cover_range
      indeterminate : Nat) (id : Nat) (data : List D)
    (hlow : 1 ≤ short_edge_lower_limit)
    (hlimit : 1 ≤ (short_edge_lower_limit + magnification) % 2 ^ 64) :
    (add similarity distance_to_zero stale
      (Index.new space dimension short_edge_lower_limit magnification cover_range indeterminate)
      id data).map (fun index => index.vectors.map fun v =>
        (v.id, v.offset, v.short_edge_out, v.short_edge_in)) =
      some [(2 ^ 64 - 1, 0, [(distance_to_zero data dimension, 1)], [1]),
            (id, 1, [(distance_to_zero data dimension, 0)], [0])] := by
  rw [add_fresh similarity distance_to_zero stale space dimension short_edge_lower_limit
    magnification cover_range indeterminate id data hlow hlimit]
  rfl

set_option maxRecDepth 100000 in
/-- C17, witness: the first insertion on the line, `add(index, 1, (10))`. -/
theorem first_add_links_witness :
    (1 ≤ 1 ∧ 1 ≤ (1 + 0) % 2 ^ 64) ∧
    (add Euclidean2.distance Euclidean2.distance_to_zero gnu_read
      (Index.new Metric.Euclidean2 1 1 0 1 2 : Index Int) 1 [10]).map
      (fun index => index.vectors.map
        fun v => (v.id, v.offset, v.short_edge_out, v.short_edge_in)) =
      some [(2 ^ 64 - 1, 0, [(Euclidean2.distance_to_zero [10] 1, 1)], [1]),
            (1, 1, [(Euclidean2.distance_to_zero [10] 1, 0)], [0])] :=
  ⟨⟨by decide, by decide⟩,
    first_add_links Euclidean2.distance Euclidean2.distance_to_zero gnu_read Metric.Euclidean2
      1 1 0 1 2 1 [10] (by decide) (by decide)⟩

set_option maxRecDepth 100000 in
/-- C17, counterexample: after the single insertion that gives `line_one` the inserted
record has the short out-edge `(100, 0)`, so its `short_edge_out` is not empty, and the zero
point has no long edge through which it could be reached. -/
theorem first_add_short_edge_not_empty :
    add_all Euclidean2.distance Euclidean2.distance_to_zero gnu_read line_index [(1, [10])] =
      some line_one ∧
    (line_one.vectors.map fun v => (v.offset, v.short_edge_out, v.long_edge_out)) =
      [(0, [(100, 1)], []), (1, [(100, 0)], [])] := by
  decide

set_option maxRecDepth 100000 in
/-- C18, evaluated at the failing input: `line_one` stores the vector `(10)` at offset 1.
Adding the same vector under the fresh id 2 evaluates the record at offset 1 at distance 0,
but no edge joins the two records: the new record gets the single out-edge `(100, 0)` to the
zero point and the record at offset 1 keeps its single out-edge `(100, 0)`.  Phase three of
the probe pops the pair `(0, 1)` and then reads `processing_distance` and
`processing_offset` through references into the queue, which by then hold the next pair
`(100, 0)` (lines 219-227). -/
theorem equal_vector_not_linked :
    add_all Euclidean2.distance Euclidean2.distance_to_zero gnu_read line_index [(1, [10])] =
      some line_one ∧
    ((add_allocate line_one 2 [10]).bind fun allocated =>
      (search_add Euclidean2.distance Euclidean2.distance_to_zero gnu_read allocated.1
        [10]).map fun probe => probe.2.2) = some [(100, 0)] ∧
    (add Euclidean2.distance Euclidean2.distance_to_zero gnu_read line_one 2 [10]).map
      (fun index => index.vectors.map fun v =>
        (v.offset, v.data, v.short_edge_out, v.short_edge_in)) =
      some [(0, [(0 : Int)], [((100 : Int), 1)], [1, 2]), (1, [10], [(100, 0)], [0]),
            (2, [10], [(100, 0)], [])] :=
  ⟨line_one_built, by decide, by rfl⟩

/-! ## What a write does to the listed offsets -/

theorem update_lists {D : Type} {index index1 : Index D} {i : Nat} {f : Vector D → Vector D}
    (h : index.update i f = some index1) (sel : Vector D → List Nat) (x y : Nat) :
    index1.lists sel x y ↔
      if x = i then ∃ v, index.vectors[i]? = some v ∧ y ∈ sel (f v) else index.lists sel x y := by
  unfold Index.lists
  rw [update_getElem? h x]
  by_cases hx : x = i
  · simp only [hx, if_true, Option.map_eq_some']
    constructor
    · rintro ⟨w, ⟨v, hv, rfl⟩, hy⟩
      exact ⟨v, hv, hy⟩
    · rintro ⟨v, hv, hy⟩
      exact ⟨f v, ⟨v, hv, rfl⟩, hy⟩
  · simp only [hx, if_false]

theorem update_lists_same {D : Type} {index index1 : Index D} {i : Nat}
    {f : Vector D → Vector D} (h : index.update i f = some index1)
    (sel : Vector D → List Nat) (hsel : ∀ v, sel (f v) = sel v) (x y : Nat) :
    index1.lists sel x y ↔ index.lists sel x y := by
  rw [update_lists h sel x y]
  by_cases hx : x = i
  · simp only [hx, if_true, hsel]
    rfl
  · simp only [hx, if_false]

theorem update_lists_mono {D : Type} {index index1 : Index D} {i : Nat}
    {f : Vector D → Vector D} (h : index.update i f = some index1)
    (sel : Vector D → List Nat) (hsel : ∀ v y, y ∈ sel v → y ∈ sel (f v)) {x y : Nat}
    (hxy : index.lists sel x y) : index1.lists sel x y := by
  rw [update_lists h sel x y]
  by_cases hx : x = i
  · simp only [hx, if_true]
    obtain ⟨v, hv, hy⟩ := hxy
    exact ⟨v, hx ▸ hv, hsel v y hy⟩
  · simp only [hx, if_false]
    exact hxy

theorem update_lists_new {D : Type} {index index1 : Index D} {i : Nat}
    {f : Vector D → Vector D} (h : index.update i f = some index1)
    (sel : Vector D → List Nat) {y : Nat} (hsel : ∀ v, y ∈ sel (f v)) :
    index1.lists sel i y := by
  rw [update_lists h sel i y, if_pos rfl]
  obtain ⟨v, hv, -⟩ := update_eq_some h
  exact ⟨v, hv, hsel v⟩

theorem grows_refl {D : Type} (index : Index D) : index.grows index :=
  fun _ _ => ⟨id, id, id⟩

theorem grows_trans {D : Type} {a b c : Index D} (h1 : a.grows b) (h2 : b.grows c) :
    a.grows c :=
  fun x y => ⟨fun h => (h2 x y).1 ((h1 x y).1 h), fun h => (h2 x y).2.1 ((h1 x y).2.1 h),
    fun h => (h2 x y).2.2 ((h1 x y).2.2 h)⟩

theorem mem_out_insert {D : Type} [LinearOrder D] (x : D × Nat) (v : Vector D) (y : Nat) :
    y ∈ (Vector.out_insert x v).short_edge_out.map Prod.snd ↔
      y = x.2 ∨ y ∈ v.short_edge_out.map Prod.snd := by
  simp only [Vector.out_insert, List.mem_map, mem_multimap_insert]
  constructor
  · rintro ⟨e, he | he, rfl⟩
    · exact Or.inl (by rw [he])
    · exact Or.inr ⟨e, he, rfl⟩
  · rintro (h | ⟨e, he, rfl⟩)
    · exact ⟨x, Or.inl rfl, h.symm⟩
    · exact ⟨e, Or.inr he, rfl⟩

theorem grows_out_insert {D : Type} [LinearOrder D] {index index1 : Index D} {i : Nat}
    {x : D × Nat} (h : index.update i (Vector.out_insert x) = some index1) :
    index.grows index1 :=
  fun _ _ => ⟨update_lists_mono h _ fun v y hy => (mem_out_insert x v y).2 (Or.inr hy),
    update_lists_mono h _ fun _ _ hy => hy, update_lists_mono h _ fun _ _ hy => hy⟩

theorem grows_in_insert {D : Type} {index index1 : Index D} {i o : Nat}
    (h : index.update i (Vector.in_insert o) = some index1) : index.grows index1 :=
  fun _ _ => ⟨update_lists_mono h _ fun _ _ hy => hy,
    update_lists_mono h _ fun v y hy => (mem_set_insert o y v.short_edge_in).2 (Or.inr hy),
    update_lists_mono h _ fun _ _ hy => hy⟩

theorem grows_keep_insert {D : Type} {index index1 : Index D} {i o : Nat}
    (h : index.update i (Vector.keep_insert o) = some index1) : index.grows index1 :=
  fun _ _ => ⟨update_lists_mono h _ fun _ _ hy => hy, update_lists_mono h _ fun _ _ hy => hy,
    update_lists_mono h _ fun v y hy => (mem_set_insert o y v.keep_connected).2 (Or.inr hy)⟩

/-! ## Reading a returned turn of the binding loop backwards -/

theorem link_back_cases {D : Type} [LinearOrder D] {index index1 : Index D}
    {offset neighbor_index neighbor_offset : Nat} {distance : D}
    (h : link_back index offset neighbor_index distance neighbor_offset = some index1) :
    ∃ i1, index.update neighbor_index (Vector.out_insert (distance, offset)) = some i1 ∧
      i1.update offset (Vector.in_insert neighbor_offset) = some index1 := by
  unfold link_back at h
  exact Option.bind_eq_some.1 h

/-- The ways `protect` returns: it leaves the index alone because the neighbour lists
`farest_offset` as in-edge or `connected` finds it; or it puts the edge back; or it records
the `keep_connected` pair. -/
theorem protect_cases {D : Type} [LinearOrder D] {index index1 : Index D}
    {neighbor_index farest_offset : Nat} {farest_distance : D}
    (h : protect index neighbor_index farest_distance farest_offset = some index1) :
    ∃ neighbor, index.vectors[neighbor_index]? = some neighbor ∧
      ((index1 = index ∧ (farest_offset ∈ neighbor.short_edge_in ∨
          connected index neighbor farest_offset = some true)) ∨
        (farest_offset ∉ neighbor.short_edge_in ∧
          connected index neighbor farest_offset = some false ∧
          neighbor.short_edge_out.length < index.parameters.short_edge_upper_limit ∧
          index.update neighbor_index (Vector.out_insert (farest_distance, farest_offset)) =
            some index1) ∨
        (farest_offset ∉ neighbor.short_edge_in ∧
          connected index neighbor farest_offset = some false ∧
          ¬ neighbor.short_edge_out.length < index.parameters.short_edge_upper_limit ∧
          ∃ i1, index.update neighbor_index (Vector.keep_insert farest_offset) = some i1 ∧
            i1.update farest_offset (Vector.keep_insert neighbor.offset) = some index1)) := by
  unfold protect at h
  split at h
  · exact absurd h (by simp)
  · next neighbor hn =>
    refine ⟨neighbor, hn, ?_⟩
    split at h
    · next hin => exact Or.inl ⟨(Option.some.inj h).symm, Or.inl hin⟩
    · next hin =>
      split at h
      · exact absurd h (by simp)
      · next hc => exact Or.inl ⟨(Option.some.inj h).symm, Or.inr hc⟩
      · next hc =>
        split at h
        · next hlt => exact Or.inr (Or.inl ⟨hin, hc, hlt, h⟩)
        · next hlt => exact Or.inr (Or.inr ⟨hin, hc, hlt, Option.bind_eq_some.1 h⟩)

/-- The ways one turn of the binding loop returns: after the new record has its out-edge
and the neighbour its in-edge, the neighbour is below the lower limit and links back; or its
farthest out-edge is farther than the new record, is erased, `protect` runs and the
neighbour links back; or its farthest out-edge is not farther and nothing more happens. -/
theorem bind_candidate_cases {D : Type} [LinearOrder D] {index index1 : Index D}
    {offset : Nat} {candidate : D × Nat}
    (h : bind_candidate index offset candidate = some index1) :
    ∃ neighbor0 i1 i2 neighbor,
      index.vectors[candidate.2]? = some neighbor0 ∧
      index.update offset (Vector.out_insert (candidate.1, neighbor0.offset)) = some i1 ∧
      i1.update candidate.2 (Vector.in_insert offset) = some i2 ∧
      i2.vectors[candidate.2]? = some neighbor ∧
      ((neighbor.short_edge_out.length < i2.parameters.short_edge_lower_limit ∧
          link_back i2 offset candidate.2 candidate.1 neighbor.offset = some index1) ∨
        (¬ neighbor.short_edge_out.length < i2.parameters.short_edge_lower_limit ∧
          ∃ farest, neighbor.short_edge_out.getLast? = some farest ∧
            ((candidate.1 < farest.1 ∧ ∃ i3 i4 i5,
                i2.update candidate.2 Vector.out_erase_last = some i3 ∧
                i3.update farest.2 (Vector.in_erase neighbor.offset) = some i4 ∧
                protect i4 candidate.2 farest.1 farest.2 = some i5 ∧
                link_back i5 offset candidate.2 candidate.1 neighbor.offset = some index1) ∨
              (¬ candidate.1 < farest.1 ∧ index1 = i2)))) := by
  unfold bind_candidate at h
  split at h
  · exact absurd h (by simp)
  · next neighbor0 hn0 =>
    obtain ⟨i1, h1, h⟩ := Option.bind_eq_some.1 h
    obtain ⟨i2, h2, h⟩ := Option.bind_eq_some.1 h
    split at h
    · exact absurd h (by simp)
    · next neighbor hn =>
      refine ⟨neighbor0, i1, i2, neighbor, hn0, h1, h2, hn, ?_⟩
      split at h
      · next hlt => exact Or.inl ⟨hlt, h⟩
      · next hlt =>
        right
        refine ⟨hlt, ?_⟩
        split at h
        · exact absurd h (by simp)
        · next farest hf =>
          refine ⟨farest, hf, ?_⟩
          split at h
          · next hd =>
            obtain ⟨i3, h3, h⟩ := Option.bind_eq_some.1 h
            obtain ⟨i4, h4, h⟩ := Option.bind_eq_some.1 h
            obtain ⟨i5, h5, h⟩ := Option.bind_eq_some.1 h
            exact Or.inl ⟨hd, i3, i4, i5, h3, h4, h5, h⟩
          · next hd => exact Or.inr ⟨hd, (Option.some.inj h).symm⟩

theorem update_lists_insert {D : Type} {index index1 : Index D} {i o : Nat}
    {f : Vector D → Vector D} (h : index.update i f = some index1)
    (sel : Vector D → List Nat) (hsel : ∀ v y, y ∈ sel (f v) ↔ y = o ∨ y ∈ sel v)
    (a b : Nat) : index1.lists sel a b ↔ index.lists sel a b ∨ (a = i ∧ b = o) := by
  rw [update_lists h sel a b]
  obtain ⟨w, hw, -⟩ := update_eq_some h
  by_cases ha : a = i
  · subst ha
    rw [if_pos rfl]
    unfold Index.lists
    constructor
    · rintro ⟨v, hv, hb⟩
      rcases (hsel v b).1 hb with hb | hb
      · exact Or.inr ⟨rfl, hb⟩
      · exact Or.inl ⟨v, hv, hb⟩
    · rintro (⟨v, hv, hb⟩ | ⟨-, hb⟩)
      · exact ⟨v, hv, (hsel v b).2 (Or.inr hb)⟩
      · exact ⟨w, hw, (hsel w b).2 (Or.inl hb)⟩
  · rw [if_neg ha]
    constructor
    · exact Or.inl
    · rintro (h1 | ⟨h1, -⟩)
      · exact h1
      · exact absurd h1 ha

/-- Reading a returned `add` backwards when the stack `empty` holds nothing: the record is
appended, the probe returns, and the binding loop runs on the probe's candidates. -/
theorem add_cases {D : Type} [LinearOrder D] {similarity : List D → List D → Nat → D}
    {distance_to_zero : List D → Nat → D} {stale : Stale_Read D} {index index1 : Index D} {id : Nat}
    {data : List D} (hempty : index.empty = [])
    (h : add similarity distance_to_zero stale index id data = some index1) :
    ∃ (alloc : Index D) (probe : List (D × Nat) × List (D × Nat) × List (D × Nat)),
      alloc.vectors = index.vectors ++ [Vector.new id index.count data] ∧
      alloc.parameters = index.parameters ∧
      search_add similarity distance_to_zero stale alloc data = some probe ∧
      bind_short_edges alloc index.count probe.2.2 = some index1 := by
  unfold add at h
  rw [add_allocate_empty index id data hempty, Option.some_bind] at h
  simp only at h
  split at h
  · exact absurd h (by simp)
  · obtain ⟨probe, hp, hb⟩ := Option.bind_eq_some.1 h
    refine ⟨_, probe, ?_, ?_, hp, hb⟩
    · rfl
    · rfl

theorem append_new_lists {D : Type} {index alloc : Index D} {id offset : Nat} {data : List D}
    (hav : alloc.vectors = index.vectors ++ [Vector.new id offset data])
    (sel : Vector D → List Nat) (hsel : sel (Vector.new id offset data) = []) (x y : Nat) :
    alloc.lists sel x y ↔ index.lists sel x y := by
  unfold Index.lists
  rw [hav]
  by_cases hx : x < index.vectors.length
  · rw [List.getElem?_append_left hx]
  · constructor
    · rintro ⟨v, hv, hy⟩
      rw [List.getElem?_append_right (by omega)] at hv
      cases hk : x - index.vectors.length with
      | zero =>
        rw [hk] at hv
        simp only [List.getElem?_cons_zero, Option.some.injEq] at hv
        rw [← hv, hsel] at hy
        simp at hy
      | succ k =>
        rw [hk] at hv
        simp at hv
    · rintro ⟨v, hv, -⟩
      exact absurd (List.getElem?_eq_some.1 hv).1 hx

/-! ## `keep_connected` stays symmetric -/

theorem has_keep_same {D : Type} {index index1 : Index D} {i : Nat} {f : Vector D → Vector D}
    (h : index.update i f = some index1)
    (hf : ∀ v, (f v).keep_connected = v.keep_connected) (a b : Nat) :
    index1.has_keep a b ↔ index.has_keep a b :=
  update_lists_same h _ hf a b

theorem link_back_has_keep {D : Type} [LinearOrder D] {index index1 : Index D}
    {offset neighbor_index neighbor_offset : Nat} {distance : D}
    (h : link_back index offset neighbor_index distance neighbor_offset = some index1)
    (a b : Nat) : index1.has_keep a b ↔ index.has_keep a b := by
  obtain ⟨i1, h1, h2⟩ := link_back_cases h
  rw [has_keep_same h2 (fun _ => rfl), has_keep_same h1 (fun _ => rfl)]

theorem protect_keep_sym {D : Type} [LinearOrder D] {index index1 : Index D}
    {neighbor_index farest_offset : Nat} {farest_distance : D}
    (h : protect index neighbor_index farest_distance farest_offset = some index1)
    (hoffs : ∀ (i : Nat) (v : Vector D), index.vectors[i]? = some v → v.offset = i)
    (hsym : index.keep_sym) : index1.keep_sym := by
  obtain ⟨neighbor, hn, hcase⟩ := protect_cases h
  rcases hcase with ⟨rfl, -⟩ | ⟨-, -, -, h1⟩ | ⟨-, -, -, i1, h1, h2⟩
  · exact hsym
  · intro a b hab
    rw [has_keep_same h1 (fun _ => rfl)] at hab ⊢
    exact hsym a b hab
  · have hno : neighbor.offset = neighbor_index := hoffs _ _ hn
    rw [hno] at h2
    have key : ∀ a b, index1.has_keep a b ↔
        index.has_keep a b ∨ (a = neighbor_index ∧ b = farest_offset) ∨
          (a = farest_offset ∧ b = neighbor_index) := by
      intro a b
      unfold Index.has_keep
      rw [update_lists_insert h2 _ (fun v y => mem_set_insert _ y v.keep_connected),
        update_lists_insert h1 _ (fun v y => mem_set_insert _ y v.keep_connected)]
      tauto
    intro a b hab
    rw [key] at hab ⊢
    rcases hab with hab | ⟨ha, hb⟩ | ⟨ha, hb⟩
    · exact Or.inl (hsym a b hab)
    · exact Or.inr (Or.inr ⟨hb, ha⟩)
    · exact Or.inr (Or.inl ⟨hb, ha⟩)

theorem bind_candidate_keep_sym {D : Type} [LinearOrder D] {index index1 : Index D}
    {offset : Nat} {candidate : D × Nat}
    (h : bind_candidate index offset candidate = some index1)
    (hoffs : ∀ (i : Nat) (v : Vector D), index.vectors[i]? = some v → v.offset = i)
    (hsym : index.keep_sym) : index1.keep_sym := by
  obtain ⟨neighbor0, i1, i2, neighbor, -, h1, h2, -, hcase⟩ := bind_candidate_cases h
  have s2 : i2.keep_sym := by
    intro a b hab
    rw [has_keep_same h2 (fun _ => rfl), has_keep_same h1 (fun _ => rfl)] at hab ⊢
    exact hsym a b hab
  have f2 : i2.frame = index.frame :=
    (update_frame h2 (fun _ => rfl)).trans (update_frame h1 (fun _ => rfl))
  rcases hcase with ⟨-, hl⟩ | ⟨-, farest, -, ⟨-, i3, i4, i5, h3, h4, h5, hl⟩ | ⟨-, rfl⟩⟩
  · intro a b hab
    rw [link_back_has_keep hl] at hab ⊢
    exact s2 a b hab
  · have s4 : i4.keep_sym := by
      intro a b hab
      rw [has_keep_same h4 (fun _ => rfl), has_keep_same h3 (fun _ => rfl)] at hab ⊢
      exact s2 a b hab
    have f4 : i4.frame = index.frame :=
      (update_frame h4 (fun _ => rfl)).trans ((update_frame h3 (fun _ => rfl)).trans f2)
    have s5 := protect_keep_sym h5 (frame_offset f4 hoffs) s4
    intro a b hab
    rw [link_back_has_keep hl] at hab ⊢
    exact s5 a b hab
  · exact s2

theorem bind_short_edges_keep_sym {D : Type} [LinearOrder D] {offset : Nat}
    (nearest_neighbors : List (D × Nat)) {index index1 : Index D}
    (h : bind_short_edges index offset nearest_neighbors = some index1)
    (hoffs : ∀ (i : Nat) (v : Vector D), index.vectors[i]? = some v → v.offset = i)
    (hsym : index.keep_sym) : index1.keep_sym := by
  induction nearest_neighbors generalizing index with
  | nil =>
    unfold bind_short_edges at h
    rw [← Option.some.inj h]
    exact hsym
  | cons c rest ih =>
    unfold bind_short_edges at h
    obtain ⟨i1, h1, h⟩ := Option.bind_eq_some.1 h
    exact ih h (frame_offset (bind_candidate_frame h1) hoffs)
      (bind_candidate_keep_sym h1 hoffs hsym)

theorem append_new_offsets {D : Type} {index alloc : Index D} {id : Nat} {data : List D}
    (hok : index.frame_ok)
    (hav : alloc.vectors = index.vectors ++ [Vector.new id index.count data]) :
    ∀ (i : Nat) (v : Vector D), alloc.vectors[i]? = some v → v.offset = i := by
  intro i v hv
  rw [hav] at hv
  by_cases hi : i < index.vectors.length
  · rw [List.getElem?_append_left hi] at hv
    exact (hok.2.2.2 i v hv).1
  · have hlt := (List.getElem?_eq_some.1 hv).1
    simp only [List.length_append, List.length_singleton] at hlt
    have hi2 : i = index.vectors.length := by omega
    subst hi2
    rw [List.getElem?_append_right (le_refl _)] at hv
    simp only [Nat.sub_self, List.getElem?_cons_zero, Option.some.injEq] at hv
    rw [← hv, ← hok.2.1]
    rfl

theorem keep_sym_add {D : Type} [LinearOrder D] {similarity : List D → List D → Nat → D}
    {distance_to_zero : List D → Nat → D} {stale : Stale_Read D} {index index1 : Index D} {id : Nat}
    {data : List D} (hok : index.frame_ok) (hsym : index.keep_sym)
    (h : add similarity distance_to_zero stale index id data = some index1) :
    index1.keep_sym := by
  obtain ⟨alloc, probe, hav, -, -, hb⟩ := add_cases hok.1 h
  refine bind_short_edges_keep_sym _ hb (append_new_offsets hok hav) ?_
  intro a b hab
  unfold Index.has_keep at hab ⊢
  rw [append_new_lists hav _ rfl] at hab ⊢
  exact hsym a b hab

theorem keep_sym_add_all {D : Type} [LinearOrder D] {similarity : List D → List D → Nat → D}
    {distance_to_zero : List D → Nat → D} {stale : Stale_Read D} (entries : List (Nat × List D))
    {index index1 : Index D} (hok : index.frame_ok) (hsym : index.keep_sym)
    (h : add_all similarity distance_to_zero stale index entries = some index1) :
    index1.keep_sym := by
  induction entries generalizing index with
  | nil =>
    unfold add_all at h
    exact Option.some.inj h ▸ hsym
  | cons e rest ih =>
    unfold add_all at h
    obtain ⟨i1, h1, h⟩ := Option.bind_eq_some.1 h
    exact ih (frame_ok_add hok h1) (keep_sym_add hok hsym h1) h

theorem keep_sym_new {D : Type} [Zero D] (space : Metric) (dimension short_edge_lower_limit
    magnification cover_range indeterminate : Nat) :
    (Index.new space dimension short_edge_lower_limit magnification cover_range
      indeterminate : Index D).keep_sym := by
  rintro a b ⟨v, hv, hb⟩
  cases a with
  | zero =>
    simp only [Index.new, List.getElem?_cons_zero, Option.some.injEq] at hv
    subst hv
    simp [Vector.new] at hb
  | succ k => simp [Index.new] at hv

/-- C13: after any sequence of `add` calls on a fresh index, for all records `u` and `v`,
`v.offset` is in `u.keep_connected` if and only if `u.offset` is in `v.keep_connected`. -/
theorem keep_connected_symmetric {D : Type} [LinearOrder D] [Zero D]
    (similarity : List D → List D → Nat → D) (distance_to_zero : List D → Nat → D)
    (stale : Stale_Read D)
    (space : Metric) (dimension short_edge_lower_limit magnification cover_range
      indeterminate : Nat)
    (entries : List (Nat × List D)) (index : Index D)
    (hbuilt : add_all similarity distance_to_zero stale
      (Index.new space dimension short_edge_lower_limit magnification cover_range indeterminate)
      entries = some index) :
    ∀ u ∈ index.vectors, ∀ v ∈ index.vectors,
      (v.offset ∈ u.keep_connected ↔ u.offset ∈ v.keep_connected) := by
  have hok := frame_ok_add_all entries (frame_ok_new space dimension short_edge_lower_limit
    magnification cover_range indeterminate) hbuilt
  have hsym := keep_sym_add_all entries (frame_ok_new space dimension short_edge_lower_limit
    magnification cover_range indeterminate)
    (keep_sym_new space dimension short_edge_lower_limit magnification cover_range
      indeterminate) hbuilt
  have key : ∀ u ∈ index.vectors, ∀ v ∈ index.vectors,
      v.offset ∈ u.keep_connected → u.offset ∈ v.keep_connected := by
    intro u hu v hv hmem
    obtain ⟨i, hi⟩ := List.mem_iff_getElem?.1 hu
    obtain ⟨j, hj⟩ := List.mem_iff_getElem?.1 hv
    have hui : u.offset = i := (hok.2.2.2 i u hi).1
    have hvj : v.offset = j := (hok.2.2.2 j v hj).1
    obtain ⟨w, hw, hwm⟩ := hsym i j ⟨u, hi, hvj ▸ hmem⟩
    rw [hj] at hw
    rw [Option.some.inj hw, hui]
    exact hwm
  exact fun u hu v hv => ⟨key u hu v hv, key v hv u hu⟩

/-- C13, witness: the index `reserve_index`, in which the zero point and the record at offset
2 hold each other in `keep_connected`. -/
theorem keep_connected_symmetric_witness :
    add_all Euclidean2.distance Euclidean2.distance_to_zero gnu_read
      (Index.new Metric.Euclidean2 1 1 0 1 0) stranded_entries = some reserve_index ∧
    ∀ u ∈ reserve_index.vectors, ∀ v ∈ reserve_index.vectors,
      (v.offset ∈ u.keep_connected ↔ u.offset ∈ v.keep_connected) :=
  ⟨reserve_index_built,
    keep_connected_symmetric Euclidean2.distance Euclidean2.distance_to_zero gnu_read
      Metric.Euclidean2 1 1 0 1 0 stranded_entries reserve_index reserve_index_built⟩

/-! ## What `connected` finds -/

theorem connected_mark_true (offsets : List Nat) (visited : List Bool) (next : List Nat)
    (state : List Bool × List Nat) (t : Nat)
    (h : connected_mark offsets (visited, next) = some state)
    (ht : state.1[t]? = some true) : visited[t]? = some true ∨ t ∈ offsets := by
  induction offsets generalizing visited next with
  | nil =>
    unfold connected_mark at h
    rw [← Option.some.inj h] at ht
    exact Or.inl ht
  | cons o rest ih =>
    unfold connected_mark at h
    split at h
    · exact absurd h (by simp)
    · rcases ih visited next h with h1 | h1
      · exact Or.inl h1
      · exact Or.inr (List.mem_cons_of_mem _ h1)
    · rcases ih _ _ h with h1 | h1
      · rw [List.getElem?_set] at h1
        split at h1
        · next hot => exact Or.inr (hot ▸ List.mem_cons_self _ _)
        · exact Or.inl h1
      · exact Or.inr (List.mem_cons_of_mem _ h1)

theorem connected_round_true {D : Type} (index : Index D) (last : List Nat)
    (state state1 : List Bool × List Nat) (t : Nat)
    (h : connected_round index last state = some state1)
    (ht : state1.1[t]? = some true) :
    state.1[t]? = some true ∨ ∃ i ∈ last, ∃ r, index.vectors[i]? = some r ∧
      (t ∈ r.short_edge_in ∨ t ∈ r.short_edge_out.map Prod.snd ∨ t ∈ r.keep_connected) := by
  induction last generalizing state with
  | nil =>
    unfold connected_round at h
    rw [← Option.some.inj h] at ht
    exact Or.inl ht
  | cons i rest ih =>
    unfold connected_round at h
    split at h
    · exact absurd h (by simp)
    · next r hr =>
      obtain ⟨s1, e1, h⟩ := Option.bind_eq_some.1 h
      obtain ⟨s2, e2, h⟩ := Option.bind_eq_some.1 h
      obtain ⟨s3, e3, h⟩ := Option.bind_eq_some.1 h
      rcases ih s3 h with h3 | ⟨j, hj, w, hw, hm⟩
      · rcases connected_mark_true _ s2.1 s2.2 s3 t e3 h3 with h2 | h2
        · rcases connected_mark_true _ s1.1 s1.2 s2 t e2 h2 with h1 | h1
          · rcases connected_mark_true _ state.1 state.2 s1 t e1 h1 with h0 | h0
            · exact Or.inl h0
            · exact Or.inr ⟨i, List.mem_cons_self _ _, r, hr, Or.inl h0⟩
          · exact Or.inr ⟨i, List.mem_cons_self _ _, r, hr, Or.inr (Or.inl h1)⟩
        · exact Or.inr ⟨i, List.mem_cons_self _ _, r, hr, Or.inr (Or.inr h2)⟩
      · exact Or.inr ⟨j, List.mem_cons_of_mem _ hj, w, hw, hm⟩

theorem connected_rounds_true {D : Type} (index : Index D) (last : List Nat) (rounds : Nat)
    (state state1 : List Bool × List Nat) (t : Nat)
    (h : connected_rounds index last rounds state = some state1)
    (ht : state1.1[t]? = some true) :
    state.1[t]? = some true ∨ ∃ i ∈ last, ∃ r, index.vectors[i]? = some r ∧
      (t ∈ r.short_edge_in ∨ t ∈ r.short_edge_out.map Prod.snd ∨ t ∈ r.keep_connected) := by
  induction rounds generalizing state with
  | zero =>
    unfold connected_rounds at h
    rw [← Option.some.inj h] at ht
    exact Or.inl ht
  | succ k ih =>
    unfold connected_rounds at h
    obtain ⟨s1, e1, h⟩ := Option.bind_eq_some.1 h
    rcases ih s1 h with h1 | h1
    · exact connected_round_true index last state s1 t e1 h1
    · exact Or.inr h1

/-- When `connected` answers true for the record stored at `vector.offset`, the looked-for
offset is that record's own offset or is listed in one of its three containers. -/
theorem connected_true {D : Type} (index : Index D) (vector : Vector D) (t : Nat)
    (hv : index.vectors[vector.offset]? = some vector)
    (h : connected index vector t = some true) :
    t = vector.offset ∨ index.has_in vector.offset t ∨ index.has_out vector.offset t ∨
      index.has_keep vector.offset t := by
  unfold connected at h
  simp only at h
  split at h
  · obtain ⟨s, e, ht⟩ := Option.bind_eq_some.1 h
    rcases connected_rounds_true index _ 4 _ s t e ht with h0 | ⟨i, hi, r, hr, hm⟩
    · left
      simp only at h0
      rw [List.getElem?_set] at h0
      split at h0
      · next hot => exact hot.symm
      · rw [List.getElem?_replicate] at h0
        split at h0 <;> simp at h0
    · right
      have hio : i = vector.offset := by
        rcases (mem_set_insert _ _ _).1 hi with h1 | h1
        · exact h1
        · simp at h1
      subst hio
      rw [hv] at hr
      obtain rfl := Option.some.inj hr
      rcases hm with hm | hm | hm
      · exact Or.inl ⟨_, hv, hm⟩
      · exact Or.inr (Or.inl ⟨_, hv, hm⟩)
      · exact Or.inr (Or.inr ⟨_, hv, hm⟩)
  · exact absurd h (by simp)

/-! ## The binding loop keeps linked offsets linked -/

theorem link_back_grows {D : Type} [LinearOrder D] {index index1 : Index D}
    {offset neighbor_index neighbor_offset : Nat} {distance : D}
    (h : link_back index offset neighbor_index distance neighbor_offset = some index1) :
    index.grows index1 := by
  obtain ⟨i1, h1, h2⟩ := link_back_cases h
  exact grows_trans (grows_out_insert h1) (grows_in_insert h2)

theorem protect_grows {D : Type} [LinearOrder D] {index index1 : Index D}
    {neighbor_index farest_offset : Nat} {farest_distance : D}
    (h : protect index neighbor_index farest_distance farest_offset = some index1) :
    index.grows index1 := by
  obtain ⟨neighbor, -, hcase⟩ := protect_cases h
  rcases hcase with ⟨rfl, -⟩ | ⟨-, -, -, h1⟩ | ⟨-, -, -, i1, h1, h2⟩
  · exact grows_refl _
  · exact grows_out_insert h1
  · exact grows_trans (grows_keep_insert h1) (grows_keep_insert h2)

theorem linked_symm {D : Type} {index : Index D} {x y : Nat} (h : index.linked x y) :
    index.linked y x := by
  rcases h with h | h | h | h | h | h
  · exact Or.inr (Or.inr (Or.inr (Or.inl h)))
  · exact Or.inr (Or.inr (Or.inr (Or.inr (Or.inl h))))
  · exact Or.inr (Or.inr (Or.inr (Or.inr (Or.inr h))))
  · exact Or.inl h
  · exact Or.inr (Or.inl h)
  · exact Or.inr (Or.inr (Or.inl h))

theorem linked_of_grows {D : Type} {index index1 : Index D} (hg : index.grows index1)
    {x y : Nat} (h : index.linked x y) : index1.linked x y := by
  rcases h with h | h | h | h | h | h
  · exact Or.inl ((hg x y).1 h)
  · exact Or.inr (Or.inl ((hg x y).2.1 h))
  · exact Or.inr (Or.inr (Or.inl ((hg x y).2.2 h)))
  · exact Or.inr (Or.inr (Or.inr (Or.inl ((hg y x).1 h))))
  · exact Or.inr (Or.inr (Or.inr (Or.inr (Or.inl ((hg y x).2.1 h)))))
  · exact Or.inr (Or.inr (Or.inr (Or.inr (Or.inr ((hg y x).2.2 h)))))

/-- After `protect` the neighbour and the record whose edge was erased are still linked,
or they are the same record. -/
theorem protect_links {D : Type} [LinearOrder D] {index index1 : Index D}
    {neighbor_index farest_offset : Nat} {farest_distance : D}
    (h : protect index neighbor_index farest_distance farest_offset = some index1)
    (hoffs : ∀ (i : Nat) (v : Vector D), index.vectors[i]? = some v → v.offset = i) :
    index1.linked neighbor_index farest_offset ∨ neighbor_index = farest_offset := by
  obtain ⟨neighbor, hn, hcase⟩ := protect_cases h
  have hno : neighbor.offset = neighbor_index := hoffs _ _ hn
  rcases hcase with ⟨rfl, hin | hc⟩ | ⟨-, -, -, h1⟩ | ⟨-, -, -, i1, h1, h2⟩
  · exact Or.inl (Or.inr (Or.inl ⟨neighbor, hn, hin⟩))
  · have hv : index1.vectors[neighbor.offset]? = some neighbor := by rw [hno]; exact hn
    rcases connected_true index1 neighbor farest_offset hv hc with h0 | h0 | h0 | h0
    · exact Or.inr (by rw [h0, hno])
    · rw [hno] at h0
      exact Or.inl (Or.inr (Or.inl h0))
    · rw [hno] at h0
      exact Or.inl (Or.inl h0)
    · rw [hno] at h0
      exact Or.inl (Or.inr (Or.inr (Or.inl h0)))
  · exact Or.inl (Or.inl (update_lists_new h1 _
      fun v => (mem_out_insert _ v _).2 (Or.inl rfl)))
  · have hk : i1.has_keep neighbor_index farest_offset :=
      update_lists_new h1 _ fun v => (mem_set_insert _ _ _).2 (Or.inl rfl)
    exact Or.inl (Or.inr (Or.inr (Or.inl ((grows_keep_insert h2 _ _).2.2 hk))))

/-- One turn of the binding loop for a candidate other than the new record: offsets that
were linked stay linked, and the new record is linked to the candidate. -/
theorem bind_candidate_links {D : Type} [LinearOrder D] {index index1 : Index D}
    {offset : Nat} {candidate : D × Nat}
    (h : bind_candidate index offset candidate = some index1)
    (hoffs : ∀ (i : Nat) (v : Vector D), index.vectors[i]? = some v → v.offset = i)
    (hne : candidate.2 ≠ offset) :
    (∀ x y, index.linked x y → index1.linked x y ∨ x = y) ∧
      index1.linked offset candidate.2 := by
  obtain ⟨neighbor0, i1, i2, neighbor, -, h1, h2, hn, hcase⟩ := bind_candidate_cases h
  have g2 : index.grows i2 := grows_trans (grows_out_insert h1) (grows_in_insert h2)
  have f2 : i2.frame = index.frame :=
    (update_frame h2 (fun _ => rfl)).trans (update_frame h1 (fun _ => rfl))
  have hno : neighbor.offset = candidate.2 := frame_offset f2 hoffs _ _ hn
  have hin2 : i2.has_in candidate.2 offset :=
    update_lists_new h2 _ fun v => (mem_set_insert _ _ _).2 (Or.inl rfl)
  rcases hcase with ⟨-, hl⟩ | ⟨-, farest, hf, ⟨-, i3, i4, i5, h3, h4, h5, hl⟩ | ⟨-, rfl⟩⟩
  · have g := grows_trans g2 (link_back_grows hl)
    exact ⟨fun x y hxy => Or.inl (linked_of_grows g hxy),
      Or.inr (Or.inr (Or.inr (Or.inr (Or.inl ((link_back_grows hl _ _).2.1 hin2)))))⟩
  · rw [hno] at h4
    have f4 : i4.frame = index.frame :=
      (update_frame h4 (fun _ => rfl)).trans ((update_frame h3 (fun _ => rfl)).trans f2)
    have g5 : i4.grows index1 := grows_trans (protect_grows h5) (link_back_grows hl)
    have hpair : index1.linked candidate.2 farest.2 ∨ candidate.2 = farest.2 := by
      rcases protect_links h5 (frame_offset f4 hoffs) with hp | hp
      · exact Or.inl (linked_of_grows (link_back_grows hl) hp)
      · exact Or.inr hp
    have hsplit : neighbor.short_edge_out = neighbor.short_edge_out.dropLast ++ [farest] :=
      (List.dropLast_append_getLast? farest hf).symm
    have out24 : ∀ x y, i2.has_out x y → i4.has_out x y ∨ (x = candidate.2 ∧ y = farest.2) := by
      intro x y hxy
      have e4 := update_lists_same h4 (fun v => v.short_edge_out.map Prod.snd)
        (fun _ => rfl) x y
      have e3 := update_lists h3 (fun v => v.short_edge_out.map Prod.snd) x y
      unfold Index.has_out at hxy ⊢
      rw [e4, e3]
      by_cases hx : x = candidate.2
      · rw [if_pos hx]
        obtain ⟨v, hv, hy⟩ := hxy
        rw [hx, hn] at hv
        obtain rfl := Option.some.inj hv
        have hy1 : y ∈ (neighbor.short_edge_out.dropLast ++ [farest]).map Prod.snd := by
          rw [← hsplit]
          exact hy
        rw [List.map_append, List.mem_append] at hy1
        rcases hy1 with hy1 | hy1
        · exact Or.inl ⟨neighbor, hn, hy1⟩
        · right
          simp only [List.map_cons, List.map_nil, List.mem_singleton] at hy1
          exact ⟨hx, hy1⟩
      · rw [if_neg hx]
        exact Or.inl hxy
    have in24 : ∀ x y, i2.has_in x y → i4.has_in x y ∨ (x = farest.2 ∧ y = candidate.2) := by
      intro x y hxy
      have hxy3 : i3.has_in x y :=
        (update_lists_same h3 (fun v => v.short_edge_in) (fun _ => rfl) x y).2 hxy
      have e4 := update_lists h4 (fun v => v.short_edge_in) x y
      unfold Index.has_in at hxy3 ⊢
      rw [e4]
      by_cases hx : x = farest.2
      · rw [if_pos hx]
        obtain ⟨v, hv, hy⟩ := hxy3
        rw [hx] at hv
        by_cases hyc : y = candidate.2
        · exact Or.inr ⟨hx, hyc⟩
        · exact Or.inl ⟨v, hv, (List.mem_erase_of_ne hyc).2 hy⟩
      · rw [if_neg hx]
        exact Or.inl hxy3
    have keep24 : ∀ x y, i2.has_keep x y → i4.has_keep x y := by
      intro x y hxy
      rw [has_keep_same h4 (fun _ => rfl), has_keep_same h3 (fun _ => rfl)]
      exact hxy
    have lost : ∀ x y, i2.linked x y → index1.linked x y ∨ x = y := by
      intro x y hxy
      have up : ∀ a b, i4.linked a b → index1.linked a b := fun a b => linked_of_grows g5
      have pair1 : index1.linked candidate.2 farest.2 ∨ candidate.2 = farest.2 := hpair
      rcases hxy with hxy | hxy | hxy | hxy | hxy | hxy
      · rcases out24 x y hxy with h0 | ⟨hx, hy⟩
        · exact Or.inl (up x y (Or.inl h0))
        · rw [hx, hy]; exact pair1
      · rcases in24 x y hxy with h0 | ⟨hx, hy⟩
        · exact Or.inl (up x y (Or.inr (Or.inl h0)))
        · rw [hx, hy]
          rcases pair1 with hp | hp
          · exact Or.inl (linked_symm hp)
          · exact Or.inr hp.symm
      · exact Or.inl (up x y (Or.inr (Or.inr (Or.inl (keep24 x y hxy)))))
      · rcases out24 y x hxy with h0 | ⟨hy, hx⟩
        · exact Or.inl (up x y (Or.inr (Or.inr (Or.inr (Or.inl h0)))))
        · rw [hx, hy]
          rcases pair1 with hp | hp
          · exact Or.inl (linked_symm hp)
          · exact Or.inr hp.symm
      · rcases in24 y x hxy with h0 | ⟨hy, hx⟩
        · exact Or.inl (up x y (Or.inr (Or.inr (Or.inr (Or.inr (Or.inl h0))))))
        · rw [hx, hy]; exact pair1
      · exact Or.inl (up x y (Or.inr (Or.inr (Or.inr (Or.inr (Or.inr (keep24 y x hxy)))))))
    refine ⟨fun x y hxy => lost x y (linked_of_grows g2 hxy), ?_⟩
    rcases in24 candidate.2 offset hin2 with h0 | ⟨-, hy⟩
    · exact Or.inr (Or.inr (Or.inr (Or.inr (Or.inl ((g5 _ _).2.1 h0)))))
    · exact absurd hy.symm hne
  · exact ⟨fun x y hxy => Or.inl (linked_of_grows g2 hxy),
      Or.inr (Or.inr (Or.inr (Or.inr (Or.inl hin2))))⟩

/-! ## A returned probe has a candidate -/

theorem harvest_ne_nil {D : Type} [LinearOrder D] {limit : Nat} {processing : D × Nat}
    {nearest nearest1 : List (D × Nat)}
    (h : harvest limit processing nearest = some (some nearest1)) : nearest1 ≠ [] := by
  have hpush : ∀ q : List (D × Nat), max_push processing q ≠ [] := by
    intro q hq
    have := length_pq_push (fun a b => pair_lt b a) processing q
    unfold max_push at hq
    rw [hq] at this
    simp at this
  unfold harvest at h
  split at h
  · rw [← Option.some.inj (Option.some.inj h)]
    exact hpush _
  · split at h
    · exact absurd h (by simp)
    · split at h
      · rw [← Option.some.inj (Option.some.inj h)]
        exact hpush _
      · exact absurd (Option.some.inj h) (by simp)

theorem harvest_none_ne_nil {D : Type} [LinearOrder D] {limit : Nat} {processing : D × Nat}
    {nearest : List (D × Nat)}
    (h : harvest limit processing nearest = some none) : nearest ≠ [] := by
  unfold harvest at h
  split at h
  · exact absurd (Option.some.inj h) (by simp)
  · intro hn
    rw [hn] at h
    simp at h

theorem search_add_phase3_ne_nil {D : Type} [LinearOrder D]
    (similarity : List D → List D → Nat → D) (index : Index D) (target_vector : List D) :
    ∀ (fuel : Nat) (visited : List Bool) (waiting nearest nearest1 : List (D × Nat)),
      nearest ≠ [] ∨ waiting ≠ [] →
      search_add_phase3 similarity index target_vector fuel visited waiting nearest =
        some nearest1 → nearest1 ≠ [] := by
  intro fuel
  induction fuel with
  | zero =>
    intro visited waiting nearest nearest1 _ h
    simp [search_add_phase3] at h
  | succ fuel ih =>
    intro visited waiting nearest nearest1 hne h
    cases waiting with
    | nil =>
      simp only [search_add_phase3, Option.some.injEq] at h
      rw [← h]
      rcases hne with hne | hne
      · exact hne
      · exact absurd rfl hne
    | cons processing waiting =>
      unfold search_add_phase3 at h
      split at h
      · exact absurd h (by simp)
      · split at h
        · exact absurd h (by simp)
        · rename_i hh
          rw [← Option.some.inj h]
          exact harvest_none_ne_nil hh
        · rename_i nearest2 hh
          split at h
          · exact absurd h (by simp)
          · exact ih _ _ _ _ (Or.inl (harvest_ne_nil hh)) h

/-- The list `nearest_neighbors` of a returned insertion probe is not empty. -/
theorem search_add_candidates_ne_nil {D : Type} [LinearOrder D]
    {similarity : List D → List D → Nat → D} {distance_to_zero : List D → Nat → D}
    {stale : Stale_Read D}
    {index : Index D} {target_vector : List D}
    {probe : List (D × Nat) × List (D × Nat) × List (D × Nat)}
    (h : search_add similarity distance_to_zero stale index target_vector = some probe) :
    probe.2.2 ≠ [] := by
  unfold search_add at h
  simp only at h
  split at h
  · obtain ⟨r1, -, h⟩ := Option.bind_eq_some.1 h
    obtain ⟨r2, h2, h⟩ := Option.bind_eq_some.1 h
    obtain ⟨nearest, h3, h⟩ := Option.bind_eq_some.1 h
    rw [← Option.some.inj h]
    exact search_add_phase3_ne_nil similarity index target_vector _ _ _ _ _
      (Or.inr (search_add_phase2_ne_nil similarity stale index target_vector _ _ _ _ _ h2)) h3
  · exact absurd h (by simp)

/-! ## Every record stays joined to the zero point -/

theorem append_new_facts {D : Type} {index alloc : Index D} {id : Nat} {data : List D}
    (hs : index.sound)
    (hav : alloc.vectors = index.vectors ++ [Vector.new id index.count data]) :
    alloc.vectors.length = index.vectors.length + 1 ∧
      alloc.edges_below index.vectors.length ∧
      (∀ (i : Nat) (v : Vector D), alloc.vectors[i]? = some v → v.long_edge_out = []) ∧
      ∀ (i : Nat) (v : Vector D), alloc.vectors[i]? = some v → v.offset = i := by
  obtain ⟨hok, hidx⟩ := hs
  have hall := hok.2.2.2
  have hget : ∀ (i : Nat) (v : Vector D), alloc.vectors[i]? = some v →
      index.vectors[i]? = some v ∨ v = Vector.new id index.count data := by
    intro i v hv
    rw [hav] at hv
    by_cases hi : i < index.vectors.length
    · rw [List.getElem?_append_left hi] at hv
      exact Or.inl hv
    · have hlt := (List.getElem?_eq_some.1 hv).1
      simp only [List.length_append, List.length_singleton] at hlt
      have hi2 : i = index.vectors.length := by omega
      subst hi2
      rw [List.getElem?_append_right (le_refl _)] at hv
      simp only [Nat.sub_self, List.getElem?_cons_zero, Option.some.injEq] at hv
      exact Or.inr hv.symm
  refine ⟨by rw [hav]; simp, ?_, ?_, append_new_offsets hok hav⟩
  · intro i v hv
    rcases hget i v hv with h | h
    · exact hidx i v h
    · rw [h]
      exact ⟨fun e he => by simp [Vector.new] at he, fun o ho => by simp [Vector.new] at ho,
        fun o ho => by simp [Vector.new] at ho⟩
  · intro i v hv
    rcases hget i v hv with h | h
    · exact (hall i v h).2.1
    · rw [h]; rfl

/-- A returned `add` on a sound index, read backwards: the record is appended, the probe
returns at least one candidate, every candidate is an older record, and the binding loop
runs over the candidates. -/
theorem add_probe {D : Type} [LinearOrder D] {similarity : List D → List D → Nat → D}
    {distance_to_zero : List D → Nat → D} {stale : Stale_Read D} {index index1 : Index D} {id : Nat}
    {data : List D} (hs : index.sound)
    (h : add similarity distance_to_zero stale index id data = some index1) :
    ∃ (alloc : Index D) (probe : List (D × Nat) × List (D × Nat) × List (D × Nat)),
      alloc.vectors = index.vectors ++ [Vector.new id index.count data] ∧
      alloc.parameters = index.parameters ∧
      search_add similarity distance_to_zero stale alloc data = some probe ∧
      bind_short_edges alloc index.vectors.length probe.2.2 = some index1 ∧
      (∀ e ∈ probe.2.2, e.2 < index.vectors.length) ∧ probe.2.2 ≠ [] ∧
      probe.2.2.length ≤ index.parameters.termination_number := by
  obtain ⟨alloc, probe, hav, hap, hp, hb⟩ := add_cases hs.1.1 h
  obtain ⟨hal, haidx, halong, -⟩ := append_new_facts hs hav
  have hlimit := add_limit_pos _ _ _ _ _ _ _ hs.1.1 h
  obtain ⟨probe1, hp1, hpm, hpl⟩ := search_add_spec similarity distance_to_zero stale alloc data
    index.vectors.length hs.1.2.2.1 (by omega) haidx halong (by rw [hap]; exact hlimit)
  rw [hp] at hp1
  obtain rfl := Option.some.inj hp1
  rw [hs.1.2.1] at hb
  rw [hap] at hpl
  exact ⟨alloc, probe, hav, hap, hp, hb, hpm, search_add_candidates_ne_nil hp, hpl⟩

theorem joined_of_links {D : Type} {index index1 : Index D}
    (h : ∀ x y, index.linked x y → index1.linked x y ∨ x = y) {x y : Nat}
    (hj : index.joined x y) : index1.joined x y := by
  unfold Index.joined at hj ⊢
  induction hj with
  | refl => exact Relation.ReflTransGen.refl
  | tail _ hbc ih =>
    rcases h _ _ hbc with h1 | h1
    · exact ih.tail h1
    · rw [← h1]
      exact ih

theorem joined_symm {D : Type} {index : Index D} {x y : Nat} (hj : index.joined x y) :
    index.joined y x := by
  unfold Index.joined at hj ⊢
  induction hj with
  | refl => exact Relation.ReflTransGen.refl
  | tail _ hbc ih => exact Relation.ReflTransGen.head (linked_symm hbc) ih

theorem bind_short_edges_joined {D : Type} [LinearOrder D] {offset : Nat}
    (nearest_neighbors : List (D × Nat)) {index index1 : Index D}
    (h : bind_short_edges index offset nearest_neighbors = some index1)
    (hoffs : ∀ (i : Nat) (v : Vector D), index.vectors[i]? = some v → v.offset = i)
    (hne : ∀ e ∈ nearest_neighbors, e.2 ≠ offset) :
    (∀ x y, index.joined x y → index1.joined x y) ∧
      ∀ e ∈ nearest_neighbors, index1.joined offset e.2 := by
  induction nearest_neighbors generalizing index with
  | nil =>
    unfold bind_short_edges at h
    rw [← Option.some.inj h]
    exact ⟨fun _ _ hj => hj, fun e he => absurd he (List.not_mem_nil e)⟩
  | cons c rest ih =>
    unfold bind_short_edges at h
    obtain ⟨i1, h1, h⟩ := Option.bind_eq_some.1 h
    obtain ⟨keep, link⟩ := bind_candidate_links h1 hoffs (hne c (List.mem_cons_self _ _))
    obtain ⟨keep1, link1⟩ := ih h (frame_offset (bind_candidate_frame h1) hoffs)
      (fun e he => hne e (List.mem_cons_of_mem _ he))
    refine ⟨fun x y hj => keep1 x y (joined_of_links keep hj), ?_⟩
    intro e he
    rcases List.mem_cons.1 he with he | he
    · rw [he]
      exact keep1 _ _ (Relation.ReflTransGen.single link)
    · exact link1 e he

theorem add_joined {D : Type} [LinearOrder D] {similarity : List D → List D → Nat → D}
    {distance_to_zero : List D → Nat → D} {stale : Stale_Read D} {index index1 : Index D} {id : Nat}
    {data : List D} (hs : index.sound)
    (h : add similarity distance_to_zero stale index id data = some index1)
    (hj : ∀ o, o < index.vectors.length → index.joined 0 o) :
    ∀ o, o < index1.vectors.length → index1.joined 0 o := by
  obtain ⟨alloc, probe, hav, -, -, hb, hpm, hpne, -⟩ := add_probe hs h
  obtain ⟨hal, -, -, haoffs⟩ := append_new_facts hs hav
  have hl1 : index1.vectors.length = index.vectors.length + 1 := by
    rw [frame_length (bind_short_edges_frame _ hb), hal]
  have hlists : ∀ x y, index.linked x y → alloc.linked x y ∨ x = y := by
    intro x y hxy
    have e1 := fun a b => append_new_lists hav (fun v => v.short_edge_out.map Prod.snd) rfl a b
    have e2 := fun a b => append_new_lists hav (fun v => v.short_edge_in) rfl a b
    have e3 := fun a b => append_new_lists hav (fun v => v.keep_connected) rfl a b
    left
    rcases hxy with hxy | hxy | hxy | hxy | hxy | hxy
    · exact Or.inl ((e1 x y).2 hxy)
    · exact Or.inr (Or.inl ((e2 x y).2 hxy))
    · exact Or.inr (Or.inr (Or.inl ((e3 x y).2 hxy)))
    · exact Or.inr (Or.inr (Or.inr (Or.inl ((e1 y x).2 hxy))))
    · exact Or.inr (Or.inr (Or.inr (Or.inr (Or.inl ((e2 y x).2 hxy)))))
    · exact Or.inr (Or.inr (Or.inr (Or.inr (Or.inr ((e3 y x).2 hxy)))))
  obtain ⟨keep, link⟩ := bind_short_edges_joined probe.2.2 hb haoffs
    (fun e he => by have := hpm e he; omega)
  intro o ho
  by_cases hlt : o < index.vectors.length
  · exact keep 0 o (joined_of_links hlists (hj o hlt))
  · have ho2 : o = index.vectors.length := by omega
    obtain ⟨c, hc⟩ := List.exists_mem_of_ne_nil _ hpne
    have h0c : index1.joined 0 c.2 := keep 0 c.2 (joined_of_links hlists (hj c.2 (hpm c hc)))
    rw [ho2]
    exact Relation.ReflTransGen.trans h0c (joined_symm (link c hc))

theorem add_all_joined {D : Type} [LinearOrder D] {similarity : List D → List D → Nat → D}
    {distance_to_zero : List D → Nat → D} {stale : Stale_Read D} (entries : List (Nat × List D))
    {index index1 : Index D} (hs : index.sound)
    (hlow : 1 ≤ index.parameters.short_edge_lower_limit)
    (h : add_all similarity distance_to_zero stale index entries = some index1)
    (hj : ∀ o, o < index.vectors.length → index.joined 0 o) :
    ∀ o, o < index1.vectors.length → index1.joined 0 o := by
  induction entries generalizing index with
  | nil =>
    unfold add_all at h
    exact Option.some.inj h ▸ hj
  | cons e rest ih =>
    unfold add_all at h
    obtain ⟨i1, h1, h⟩ := Option.bind_eq_some.1 h
    have hlimit := add_limit_pos _ _ _ _ _ _ _ hs.1.1 h1
    obtain ⟨i1x, h1x, s1, -, p1, -, -⟩ :=
      add_spec similarity distance_to_zero stale index e.1 e.2 hs hlow hlimit
    rw [h1] at h1x
    obtain rfl := Option.some.inj h1x
    exact ih s1 (by rw [p1]; exact hlow) h (add_joined hs h1 hj)

/-! ## Claim C15 -/

/-- The records reached from the zero point of `line_far` along `short_edge_out` entries
are the zero point and the record at offset 1. -/
theorem line_far_out_reach (y : Nat) (h : line_far.out_reaches 0 y) : y = 0 ∨ y = 1 := by
  unfold Index.out_reaches at h
  induction h with
  | refl => exact Or.inl rfl
  | tail _ hstep ih =>
    rcases ih with hb | hb
    · subst hb
      simp [Index.has_out, Index.lists, line_far] at hstep
      exact Or.inr hstep
    · subst hb
      simp [Index.has_out, Index.lists, line_far] at hstep
      exact Or.inl hstep

/-- C15 as stated fails: after `add(1, (10))` and `add(2, (200))` on `line_index` (distinct
ids, a fresh index) the record at offset 2 is not reached from offset 0 by following
`short_edge_out` entries: the only out-edge of the zero point leads to offset 1, the only
out-edge of that record leads back, and no record got an out-edge to the new record, which
is farther from its one candidate, the zero point, than that record's out-edge is long. -/
theorem short_edge_out_reach_fails :
    add_all Euclidean2.distance Euclidean2.distance_to_zero gnu_read line_index
      [(1, [10]), (2, [200])] = some line_far ∧
    ¬ line_far.out_reaches 0 2 :=
  ⟨line_far_built, fun h => by
    rcases line_far_out_reach 2 h with h1 | h1 <;> exact absurd h1 (by decide)⟩

/-- C15, as amended: after any run of `add` calls on a fresh index, every record is joined
to the zero point by a chain of records in which each two neighbours are linked, one of them
holding the offset of the other in its `short_edge_out`, `short_edge_in` or `keep_connected`
container. -/
theorem records_joined_to_zero {D : Type} [LinearOrder D] [Zero D]
    (similarity : List D → List D → Nat → D) (distance_to_zero : List D → Nat → D)
    (stale : Stale_Read D)
    (space : Metric) (dimension short_edge_lower_limit magnification cover_range
      indeterminate : Nat)
    (entries : List (Nat × List D)) (index : Index D)
    (hbuilt : add_all similarity distance_to_zero stale
      (Index.new space dimension short_edge_lower_limit magnification cover_range indeterminate)
      entries = some index) :
    ∀ o, o < index.vectors.length → index.joined 0 o := by
  have hfresh : ∀ o, o < (Index.new space dimension short_edge_lower_limit magnification
      cover_range indeterminate : Index D).vectors.length →
      (Index.new space dimension short_edge_lower_limit magnification cover_range
        indeterminate : Index D).joined 0 o := by
    intro o ho
    have ho0 : o = 0 := by
      simp [Index.new] at ho
      exact ho
    rw [ho0]
    exact Relation.ReflTransGen.refl
  rcases built_parameters_pos similarity distance_to_zero stale space dimension
    short_edge_lower_limit magnification cover_range indeterminate entries index hbuilt with
    ⟨-, hidx⟩ | ⟨hlow, -⟩
  · rw [hidx]
    exact hfresh
  · exact add_all_joined entries (sound_new space dimension short_edge_lower_limit
      magnification cover_range indeterminate) hlow hbuilt hfresh

/-- C15, as amended, on the three insertions of `stranded_entries`. -/
theorem records_joined_to_zero_witness :
    add_all Euclidean2.distance Euclidean2.distance_to_zero gnu_read
      (Index.new Metric.Euclidean2 1 1 0 1 2 : Index Int) stranded_entries =
      some stranded_index ∧
    ∀ o, o < stranded_index.vectors.length → stranded_index.joined 0 o :=
  ⟨stranded_index_built,
    records_joined_to_zero Euclidean2.distance Euclidean2.distance_to_zero gnu_read
      Metric.Euclidean2 1 1 0 1 2 stranded_entries stranded_index stranded_index_built⟩

/-! ## What the probe keeps track of -/

theorem pq_push_perm {α : Type} (before : α → α → Bool) (x : α) (q : List α) :
    (pq_push before x q).Perm (x :: q) := by
  induction q with
  | nil => exact List.Perm.refl _
  | cons y ys ih =>
    unfold pq_push
    split
    · exact List.Perm.refl _
    · exact (List.Perm.cons y ih).trans (List.Perm.swap x y ys)

theorem probe_ok_perm {visited : List Bool} {l1 l2 : List Nat} (hp : l1.Perm l2)
    (h : probe_ok visited l2) : probe_ok visited l1 :=
  ⟨hp.nodup_iff.2 h.1, fun o ho => h.2 o (hp.subset ho)⟩

theorem tracked_ok_perm {D : Type} {dist : Nat → Option D} {visited : List Bool}
    {l1 l2 : List (D × Nat)} (hp : l1.Perm l2) (h : tracked_ok dist visited l2) :
    tracked_ok dist visited l1 := by
  obtain ⟨a, b, c, d, e⟩ := h
  exact ⟨probe_ok_perm (hp.map Prod.snd) a, fun o ho => (hp.map Prod.snd).mem_iff.2 (b o ho),
    fun x hx => c x (hp.subset hx), by rw [hp.length_eq]; exact d, e⟩

/-- Marking an unmarked record and tracking its pair keeps the books. -/
theorem tracked_ok_push {D : Type} {dist : Nat → Option D} {visited : List Bool}
    {tracked : List (D × Nat)} {o : Nat} {d : D} (h : tracked_ok dist visited tracked)
    (hvo : visited[o]? = some false) (hd : dist o = some d) :
    tracked_ok dist (visited.set o true) ((d, o) :: tracked) := by
  obtain ⟨a, b, c, e, f⟩ := h
  have holt : o < visited.length := (List.getElem?_eq_some.1 hvo).1
  have hnew : o ∉ tracked.map Prod.snd := by
    intro hmem
    have := a.2 o hmem
    rw [hvo] at this
    exact absurd (Option.some.inj this) (by decide)
  have hset : ∀ x, (visited.set o true)[x]? = some true ↔ x = o ∨ visited[x]? = some true := by
    intro x
    by_cases hx : x = o
    · rw [hx, List.getElem?_set_self holt]
      simp
    · rw [List.getElem?_set_ne (Ne.symm hx)]
      simp [hx]
  refine ⟨⟨?_, ?_⟩, ?_, ?_, ?_, ?_⟩
  · rw [List.map_cons]
    exact List.nodup_cons.2 ⟨hnew, a.1⟩
  · intro x hx
    rw [List.map_cons] at hx
    rcases List.mem_cons.1 hx with hx | hx
    · exact (hset x).2 (Or.inl hx)
    · exact (hset x).2 (Or.inr (a.2 x hx))
  · intro x hx
    rw [List.map_cons]
    rcases (hset x).1 hx with hx | hx
    · rw [hx]
      exact List.mem_cons_self _ _
    · exact List.mem_cons_of_mem _ (b x hx)
  · intro x hx
    rcases List.mem_cons.1 hx with hx | hx
    · rw [hx]
      exact hd
    · exact c x hx
  · have := count_false_set visited o hvo
    rw [List.length_cons, List.length_set]
    omega
  · exact (hset 0).2 (Or.inr f)

/-- The marking loop keeps the books of `tracked_ok`, for the queue together with any pairs
`extra` set aside. -/
theorem visit_tracked {D : Type} [LinearOrder D] (similarity : List D → List D → Nat → D)
    (distance_to_zero : List D → Nat → D) (index : Index D) (target_vector : List D)
    (extra : List (D × Nat)) :
    ∀ (offsets : List Nat) (visited visited1 : List Bool) (waiting waiting1 : List (D × Nat)),
      visit similarity index target_vector offsets (visited, waiting) =
        some (visited1, waiting1) →
      tracked_ok (probe_distance similarity distance_to_zero index target_vector) visited
        (waiting ++ extra) →
      tracked_ok (probe_distance similarity distance_to_zero index target_vector) visited1
        (waiting1 ++ extra) := by
  intro offsets
  induction offsets with
  | nil =>
    intro visited visited1 waiting waiting1 h hok
    simp only [visit, Option.some.injEq, Prod.mk.injEq] at h
    rw [← h.1, ← h.2]
    exact hok
  | cons o rest ih =>
    intro visited visited1 waiting waiting1 h hok
    unfold visit at h
    cases hvo : visited[o]? with
    | none =>
      rw [hvo] at h
      exact absurd h (by simp)
    | some b =>
      rw [hvo] at h
      cases b with
      | true => exact ih _ _ _ _ h hok
      | false =>
        simp only at h
        cases hio : index.vectors[o]? with
        | none =>
          rw [hio] at h
          exact absurd h (by simp)
        | some neighbor =>
          rw [hio] at h
          simp only at h
          have ho0 : o ≠ 0 := by
            intro h0
            rw [h0, hok.2.2.2.2] at hvo
            exact absurd (Option.some.inj hvo) (by decide)
          have hd : probe_distance similarity distance_to_zero index target_vector o =
              some (similarity target_vector neighbor.data index.parameters.dimension) := by
            unfold probe_distance
            rw [if_neg ho0, hio]
            rfl
          refine ih _ _ _ _ h (tracked_ok_perm ?_ (tracked_ok_push hok hvo hd))
          exact List.Perm.append_right extra (pq_push_perm _ _ waiting)

theorem visit_short_tracked {D : Type} [LinearOrder D]
    (similarity : List D → List D → Nat → D) (distance_to_zero : List D → Nat → D)
    (index : Index D) (target_vector : List D) (extra : List (D × Nat)) {pv : Vector D}
    {visited visited1 : List Bool} {waiting waiting1 : List (D × Nat)}
    (h : visit_short similarity index target_vector pv (visited, waiting) =
      some (visited1, waiting1))
    (hok : tracked_ok (probe_distance similarity distance_to_zero index target_vector) visited
      (waiting ++ extra)) :
    tracked_ok (probe_distance similarity distance_to_zero index target_vector) visited1
      (waiting1 ++ extra) := by
  unfold visit_short at h
  obtain ⟨s1, h1, h⟩ := Option.bind_eq_some.1 h
  obtain ⟨s2, h2, h3⟩ := Option.bind_eq_some.1 h
  exact visit_tracked similarity distance_to_zero index target_vector extra _ _ _ _ _ h3
    (visit_tracked similarity distance_to_zero index target_vector extra _ _ s2.1 _ s2.2 h2
      (visit_tracked similarity distance_to_zero index target_vector extra _ _ s1.1 _ s1.2 h1
        hok))

/-- Phase two keeps the books, whatever is read after the pushes. -/
theorem search_add_phase2_tracked {D : Type} [LinearOrder D]
    (similarity : List D → List D → Nat → D) (distance_to_zero : List D → Nat → D)
    (stale : Stale_Read D) (index : Index D) (target_vector : List D) :
    ∀ (fuel : Nat) (visited : List Bool) (waiting short_path : List (D × Nat))
      (r : List Bool × List (D × Nat) × List (D × Nat)),
      search_add_phase2 similarity stale index target_vector fuel visited waiting short_path =
        some r →
      tracked_ok (probe_distance similarity distance_to_zero index target_vector) visited
        waiting →
      tracked_ok (probe_distance similarity distance_to_zero index target_vector) r.1
        r.2.1 := by
  intro fuel
  induction fuel with
  | zero =>
    intro visited waiting short_path r h _
    simp [search_add_phase2] at h
  | succ fuel ih =>
    intro visited waiting short_path r h hok
    unfold search_add_phase2 at h
    split at h
    · exact absurd h (by simp)
    · split at h
      · exact absurd h (by simp)
      · split at h
        · exact absurd h (by simp)
        · rename_i visited1 waiting1 hvs
          have hok0 : tracked_ok (probe_distance similarity distance_to_zero index
              target_vector) visited (waiting ++ []) := by
            rw [List.append_nil]
            exact hok
          have a1 := visit_short_tracked similarity distance_to_zero index target_vector []
            hvs hok0
          rw [List.append_nil] at a1
          split at h
          · exact absurd h (by simp)
          · split at h
            · rw [← Option.some.inj h]
              exact a1
            · exact ih _ _ _ _ h a1

/-- What a returned branch on `nearest_neighbors` keeps: old entries and the pair it was
given. -/
theorem harvest_mem {D : Type} [LinearOrder D] {limit : Nat} {processing : D × Nat}
    {nearest nearest1 : List (D × Nat)}
    (h : harvest limit processing nearest = some (some nearest1)) :
    ∀ e ∈ nearest1, e = processing ∨ e ∈ nearest := by
  unfold harvest at h
  split at h
  · rw [← Option.some.inj (Option.some.inj h)]
    exact fun e he => (mem_pq_push _ _ _ _).1 he
  · split at h
    · exact absurd h (by simp)
    · split at h
      · rw [← Option.some.inj (Option.some.inj h)]
        intro e he
        rcases (mem_pq_push _ _ _ _).1 he with he | he
        · exact Or.inl he
        · exact Or.inr (mem_of_mem_tail_list he)
      · exact absurd h (by simp)

/-- Every pair that phase three keeps is a pair of the books: it carries the distance the
probe evaluates for its offset. -/
theorem search_add_phase3_tracked {D : Type} [LinearOrder D]
    (similarity : List D → List D → Nat → D) (distance_to_zero : List D → Nat → D)
    (index : Index D) (target_vector : List D) :
    ∀ (fuel : Nat) (visited : List Bool) (waiting nearest nearest1 extra : List (D × Nat)),
      search_add_phase3 similarity index target_vector fuel visited waiting nearest =
        some nearest1 →
      tracked_ok (probe_distance similarity distance_to_zero index target_vector) visited
        (waiting ++ extra) →
      (∀ e ∈ nearest,
        probe_distance similarity distance_to_zero index target_vector e.2 = some e.1) →
      ∀ e ∈ nearest1,
        probe_distance similarity distance_to_zero index target_vector e.2 = some e.1 := by
  intro fuel
  induction fuel with
  | zero =>
    intro visited waiting nearest nearest1 extra h _ _
    simp [search_add_phase3] at h
  | succ fuel ih =>
    intro visited waiting nearest nearest1 extra h hok hn
    cases waiting with
    | nil =>
      simp only [search_add_phase3, Option.some.injEq] at h
      rw [← h]
      exact hn
    | cons processing rest =>
      have hread : rest.head?.getD processing ∈ (processing :: rest) ++ extra := by
        cases rest with
        | nil => simp
        | cons next more => simp
      have hdist := hok.2.2.1 _ hread
      unfold search_add_phase3 at h
      split at h
      · exact absurd h (by simp)
      · split at h
        · exact absurd h (by simp)
        · rw [← Option.some.inj h]
          exact hn
        · rename_i nearest2 hh
          split at h
          · exact absurd h (by simp)
          · rename_i visited1 waiting1 hvs
            have hok1 : tracked_ok (probe_distance similarity distance_to_zero index
                target_vector) visited (rest ++ processing :: extra) :=
              tracked_ok_perm List.perm_middle hok
            refine ih _ _ _ _ (processing :: extra) h
              (visit_short_tracked similarity distance_to_zero index target_vector _ hvs
                hok1) ?_
            intro e he
            rcases harvest_mem hh e he with he | he
            · rw [he]
              exact hdist
            · exact hn e he

/-- The candidates of a returned insertion probe on an index without long edges carry the
distances the probe evaluates: the seed value for the zero point, the similarity for every
other record.  Two candidates with the same offset are therefore the same pair. -/
theorem search_add_candidates_distance {D : Type} [LinearOrder D]
    {similarity : List D → List D → Nat → D} {distance_to_zero : List D → Nat → D}
    {stale : Stale_Read D} {index : Index D} {target_vector : List D}
    {probe : List (D × Nat) × List (D × Nat) × List (D × Nat)}
    (h : search_add similarity distance_to_zero stale index target_vector = some probe)
    (hlong : ∀ (i : Nat) (v : Vector D), index.vectors[i]? = some v → v.long_edge_out = []) :
    ∀ c ∈ probe.2.2,
      probe_distance similarity distance_to_zero index target_vector c.2 = some c.1 := by
  unfold search_add at h
  simp only at h
  split at h
  · rename_i hpos
    rw [List.length_replicate] at hpos
    have hp1 := search_add_phase1_no_long similarity stale index target_vector hlong
      index.vectors.length ((List.replicate index.vectors.length false).set 0 true)
      (distance_to_zero target_vector index.parameters.dimension, 0) [] [] hpos
    have hpush : min_push (distance_to_zero target_vector index.parameters.dimension, 0) [] =
        [(distance_to_zero target_vector index.parameters.dimension, 0)] := rfl
    rw [hpush, hp1, Option.some_bind] at h
    obtain ⟨r2, h2, h⟩ := Option.bind_eq_some.1 h
    obtain ⟨nearest, h3, h⟩ := Option.bind_eq_some.1 h
    rw [← Option.some.inj h]
    have hlt : 0 < (List.replicate index.vectors.length false).length := by
      rw [List.length_replicate]
      exact hpos
    have hcount := count_false_set (List.replicate index.vectors.length false) 0
      (by rw [List.getElem?_replicate, if_pos hpos])
    rw [List.count_replicate_self] at hcount
    have hok0 : tracked_ok (probe_distance similarity distance_to_zero index target_vector)
        ((List.replicate index.vectors.length false).set 0 true)
        [(distance_to_zero target_vector index.parameters.dimension, 0)] := by
      refine ⟨⟨by simp, ?_⟩, ?_, ?_, ?_, List.getElem?_set_self hlt⟩
      · intro o ho
        simp only [List.map_cons, List.map_nil, List.mem_singleton] at ho
        rw [ho]
        exact List.getElem?_set_self hlt
      · intro o ho
        simp only [List.map_cons, List.map_nil, List.mem_singleton]
        by_contra hne
        rw [List.getElem?_set_ne (Ne.symm hne), List.getElem?_replicate] at ho
        split at ho
        · exact absurd (Option.some.inj ho) (by decide)
        · exact absurd ho (by simp)
      · intro e he
        rw [List.mem_singleton.1 he]
        unfold probe_distance
        rw [if_pos rfl]
      · rw [List.length_set, List.length_replicate, List.length_singleton]
        omega
    have a2 := search_add_phase2_tracked similarity distance_to_zero stale index
      target_vector _ _ _ _ _ h2 hok0
    refine search_add_phase3_tracked similarity distance_to_zero index target_vector _ _ _
      _ _ [] h3 ?_ ?_
    · rw [List.append_nil]
      exact a2
    · intro e he
      exact absurd he (List.not_mem_nil e)
  · exact absurd h (by simp)

/-! ## What the binding loop does to the out-edges of the older records -/

theorem multimap_insert_perm {D : Type} [LinearOrder D] (x : D × Nat) (m : List (D × Nat)) :
    (multimap_insert x m).Perm (x :: m) := by
  induction m with
  | nil => exact List.Perm.refl _
  | cons y ys ih =>
    unfold multimap_insert
    split
    · exact List.Perm.refl _
    · exact (List.Perm.cons y ih).trans (List.Perm.swap x y ys)

/-! ## Claim C21 -/

/-- The map `id_to_offset` only grows at its end. -/
theorem umap_insert_head (m : List (Nat × Nat)) (key value : Nat) (e : Nat × Nat)
    (h : m.head? = some e) : (umap_insert m key value).head? = some e := by
  unfold umap_insert
  split
  · exact h
  · cases m with
    | nil => simp at h
    | cons a l => exact h

theorem sentinel_key_add_all {D : Type} [LinearOrder D]
    {similarity : List D → List D → Nat → D} {distance_to_zero : List D → Nat → D}
    {stale : Stale_Read D}
    (entries : List (Nat × List D)) {index index1 : Index D} (hok : index.frame_ok)
    (hhead : index.id_to_offset.head? = some (uint64_max, 0))
    (h : add_all similarity distance_to_zero stale index entries = some index1) :
    index1.id_to_offset.head? = some (uint64_max, 0) := by
  induction entries generalizing index with
  | nil =>
    unfold add_all at h
    exact Option.some.inj h ▸ hhead
  | cons e rest ih =>
    unfold add_all at h
    obtain ⟨i1, h1, h⟩ := Option.bind_eq_some.1 h
    have hf := add_frame hok.1 h1
    simp only [Index.frame, Prod.mk.injEq] at hf
    refine ih (frame_ok_add hok h1) ?_ h
    rw [hf.2.2.2.2.2]
    exact umap_insert_head _ _ _ _ hhead

set_option maxRecDepth 100000 in
/-- C21 as stated fails: `add` with the id `2^64 - 1` on the fresh index `line_index` is not
rejected and does not leave the index unchanged: it returns an index with count 2 and two
records, both carrying the id `2^64 - 1`, linked to each other by short edges. -/
theorem add_sentinel_id_not_rejected :
    (add Euclidean2.distance Euclidean2.distance_to_zero gnu_read line_index (2 ^ 64 - 1) [10]).map
      (fun index => (index.count, index.id_to_offset,
        index.vectors.map fun v => (v.id, v.offset, v.short_edge_out))) =
      some (2, [(2 ^ 64 - 1, 0)],
        [(2 ^ 64 - 1, 0, [(100, 1)]), (2 ^ 64 - 1, 1, [(100, 0)])]) := by
  rfl

/-- C21, as amended: `add` has no check of the id.  On an index built by `add` calls on a
fresh index whose lower limit and termination number are positive, `add` with the id
`2^64 - 1` of the zero point returns normally, appends a record carrying that id, raises
`count` by one and leaves `id_to_offset` as it was, so that `get_offset` of `2^64 - 1` is
still 0. -/
theorem add_sentinel_id_appends {D : Type} [LinearOrder D] [Zero D]
    (similarity : List D → List D → Nat → D) (distance_to_zero : List D → Nat → D)
    (stale : Stale_Read D)
    (space : Metric) (dimension short_edge_lower_limit magnification cover_range
      indeterminate : Nat)
    (hlow : 1 ≤ short_edge_lower_limit)
    (hlimit : 1 ≤ (short_edge_lower_limit + magnification) % 2 ^ 64)
    (entries : List (Nat × List D)) (index : Index D)
    (hbuilt : add_all similarity distance_to_zero stale
      (Index.new space dimension short_edge_lower_limit magnification cover_range indeterminate)
      entries = some index)
    (data : List D) :
    ∃ index1, add similarity distance_to_zero stale index (2 ^ 64 - 1) data = some index1 ∧
      index1.vectors.map Vector.id = index.vectors.map Vector.id ++ [2 ^ 64 - 1] ∧
      index1.vectors.length = index.vectors.length + 1 ∧
      index1.count = index.count + 1 ∧
      index1.id_to_offset = index.id_to_offset ∧
      get_offset index1 (2 ^ 64 - 1) = some 0 := by
  obtain ⟨i0, h0, s0, p0, -⟩ := add_all_spec similarity distance_to_zero stale entries
    (Index.new space dimension short_edge_lower_limit magnification cover_range indeterminate)
    (sound_new _ _ _ _ _ _) hlow hlimit
  rw [hbuilt] at h0
  obtain rfl := Option.some.inj h0
  obtain ⟨index1, h1, -, hl, -⟩ := add_spec similarity distance_to_zero stale index (2 ^ 64 - 1)
    data s0 (by rw [p0]; exact hlow) (by rw [p0]; exact hlimit)
  have hhead := sentinel_key_add_all entries (frame_ok_new space dimension
    short_edge_lower_limit magnification cover_range indeterminate) rfl hbuilt
  obtain ⟨tail, htail⟩ : ∃ tail, index.id_to_offset = (uint64_max, 0) :: tail := by
    cases hm : index.id_to_offset with
    | nil =>
      rw [hm] at hhead
      simp at hhead
    | cons a l =>
      rw [hm] at hhead
      simp only [List.head?_cons, Option.some.injEq] at hhead
      exact ⟨l, by rw [hhead]⟩
  have hid : index.id_to_offset.any (fun e => e.1 == 2 ^ 64 - 1) = true := by
    rw [htail]
    simp [uint64_max]
  have hf := add_frame s0.1.1 h1
  simp only [Index.frame, Prod.mk.injEq] at hf
  obtain ⟨hv, -, hc, -, -, hm⟩ := hf
  have hmap : index1.id_to_offset = index.id_to_offset := by
    rw [hm, umap_insert, if_pos hid]
  refine ⟨index1, h1, ?_, hl, hc, hmap, ?_⟩
  · have := congrArg (List.map Prod.fst) hv
    simpa [Vector.core, Vector.new, Function.comp_def] using this
  · unfold get_offset
    rw [hmap, htail]
    simp [uint64_max, to_int64]

set_option maxRecDepth 100000 in
/-- C21, witness: the amended statement at the index `line_one`. -/
theorem add_sentinel_id_appends_witness :
    (1 ≤ 1 ∧ 1 ≤ (1 + 0) % 2 ^ 64 ∧
      add_all Euclidean2.distance Euclidean2.distance_to_zero gnu_read
        (Index.new Metric.Euclidean2 1 1 0 1 2) [(1, [10])] = some line_one) ∧
    ∃ index1, add Euclidean2.distance Euclidean2.distance_to_zero gnu_read line_one (2 ^ 64 - 1) [3] =
        some index1 ∧
      index1.vectors.map Vector.id = line_one.vectors.map Vector.id ++ [2 ^ 64 - 1] ∧
      index1.vectors.length = line_one.vectors.length + 1 ∧
      index1.count = line_one.count + 1 ∧
      index1.id_to_offset = line_one.id_to_offset ∧
      get_offset index1 (2 ^ 64 - 1) = some 0 :=
  ⟨⟨by decide, by decide, line_one_built⟩,
    add_sentinel_id_appends Euclidean2.distance Euclidean2.distance_to_zero gnu_read
      Metric.Euclidean2 1 1 0 1 2 (by decide) (by decide) [(1, [10])] line_one
      line_one_built [3]⟩

/-! ## Claim C22 -/

theorem frame_label {D : Type} {index index1 : Index D} (h : index1.frame = index.frame)
    (j : Nat) : (index1.vectors[j]?).map Vector.label = (index.vectors[j]?).map Vector.label := by
  have hc : ∀ v : Vector D, v.label = (v.core.1, v.core.2.1, v.core.2.2.1) := fun _ => rfl
  have e : index1.vectors.map Vector.core = index.vectors.map Vector.core := by
    simp only [Index.frame, Prod.mk.injEq] at h
    exact h.1
  have e1 := congrArg (fun l => (l[j]?).map fun c => (c.1, c.2.1, c.2.2.1)) e
  simp only [List.getElem?_map, Option.map_map] at e1
  exact e1

/-- The two branches of lines 349-366, read from a returned `add_allocate`. -/
theorem add_allocate_cases {D : Type} {index alloc : Index D} {id offset : Nat}
    {data : List D} (h : add_allocate index id data = some (alloc, offset)) :
    (index.empty = [] ∧ offset = index.count ∧ alloc.empty = [] ∧
        alloc.vectors = index.vectors ++ [Vector.new id index.count data]) ∨
      (∃ rest v, index.empty = offset :: rest ∧ alloc.empty = rest ∧
        index.vectors[offset]? = some v ∧
        alloc.vectors = index.vectors.set offset { v with id := id, data := data }) := by
  unfold add_allocate at h
  simp only at h
  split at h
  · rename_i hempty
    simp only [Option.some.injEq, Prod.mk.injEq] at h
    left
    rw [← h.1, ← h.2]
    exact ⟨hempty, rfl, hempty, rfl⟩
  · rename_i top rest hempty
    obtain ⟨i2, h2, h⟩ := Option.bind_eq_some.1 h
    simp only [Option.some.injEq, Prod.mk.injEq] at h
    obtain ⟨v, hv, rfl⟩ := update_eq_some h2
    right
    rw [← h.1, ← h.2]
    exact ⟨rest, v, hempty, rfl, hv, rfl⟩

/-- C22: a returned `add` call stores the new record at the position `|vectors|` when the
stack `empty` holds nothing, and `vectors` grows by one; the record carries the given id and
data and the offset `count`, which is `|vectors|` whenever `count = |vectors|`.  Otherwise
the record at the offset on top of the stack gets the given id and data and keeps its offset,
that offset leaves the stack and `|vectors|` stays.  In both cases id, offset and data of
every other record stay as they were. -/
theorem add_offset_allocation {D : Type} [LinearOrder D]
    (similarity : List D → List D → Nat → D) (distance_to_zero : List D → Nat → D)
    (stale : Stale_Read D)
    (index index1 : Index D) (id : Nat) (data : List D)
    (h : add similarity distance_to_zero stale index id data = some index1) :
    (index.empty = [] →
      index1.vectors.length = index.vectors.length + 1 ∧ index1.empty = [] ∧
      (index1.vectors[index.vectors.length]?).map Vector.label =
        some (id, index.count, data) ∧
      (index.count = index.vectors.length →
        (index1.vectors[index.vectors.length]?).map Vector.offset =
          some index.vectors.length) ∧
      ∀ j, j < index.vectors.length →
        (index1.vectors[j]?).map Vector.label = (index.vectors[j]?).map Vector.label) ∧
    (∀ top rest, index.empty = top :: rest →
      index1.vectors.length = index.vectors.length ∧ index1.empty = rest ∧
      (index1.vectors[top]?).map Vector.label =
        (index.vectors[top]?).map (fun v => (id, v.offset, data)) ∧
      (index1.vectors[top]?).isSome ∧
      ∀ j, j ≠ top →
        (index1.vectors[j]?).map Vector.label = (index.vectors[j]?).map Vector.label) := by
  unfold add at h
  obtain ⟨a, ha, h⟩ := Option.bind_eq_some.1 h
  split at h
  · exact absurd h (by simp)
  · obtain ⟨probe, -, h⟩ := Option.bind_eq_some.1 h
    have hf := bind_short_edges_frame _ h
    have hlen := frame_length hf
    have hemp : index1.empty = a.1.empty := by
      simp only [Index.frame, Prod.mk.injEq] at hf
      exact hf.2.2.2.1
    have hlab := frame_label hf
    obtain ⟨alloc, offset⟩ := a
    rcases add_allocate_cases ha with ⟨hempty, -, hae, hav⟩ | ⟨rest, v, hempty, hae, hv, hav⟩
    · refine ⟨fun _ => ?_, fun top rest he => ?_⟩
      · have hnew : (index1.vectors[index.vectors.length]?).map Vector.label =
            some (id, index.count, data) := by
          rw [hlab]
          simp only [hav]
          rw [List.getElem?_append_right (le_refl _)]
          simp [Vector.label, Vector.new]
        refine ⟨by rw [hlen]; simp [hav], by rw [hemp]; exact hae, hnew, fun hc => ?_,
          fun j hj => ?_⟩
        · have := congrArg (Option.map fun l : Nat × Nat × List D => l.2.1) hnew
          simp only [Option.map_map, Option.map_some'] at this
          rw [hc] at this
          exact this
        · rw [hlab]
          simp only [hav]
          rw [List.getElem?_append_left hj]
      · rw [hempty] at he
        exact absurd he (by simp)
    · refine ⟨fun he => ?_, fun top rest1 he => ?_⟩
      · rw [hempty] at he
        exact absurd he (by simp)
      · rw [hempty] at he
        simp only [List.cons.injEq] at he
        obtain ⟨rfl, rfl⟩ := he
        have hlt : offset < index.vectors.length := (List.getElem?_eq_some.1 hv).1
        refine ⟨by rw [hlen]; simp [hav], by rw [hemp]; exact hae, ?_, ?_, fun j hj => ?_⟩
        · rw [hlab]
          simp only [hav]
          rw [List.getElem?_set_self hlt, hv]
          rfl
        · have hlt1 : offset < index1.vectors.length := by
            rw [hlen]
            simp only [hav, List.length_set]
            exact hlt
          rw [List.getElem?_eq_getElem hlt1]
          rfl
        · rw [hlab]
          simp only [hav]
          rw [List.getElem?_set_ne (Ne.symm hj)]

set_option maxRecDepth 100000 in
theorem reuse_result_built :
    add Euclidean2.distance Euclidean2.distance_to_zero gnu_read reuse_index 5 [3] =
      some reuse_result := by
  rfl

set_option maxRecDepth 100000 in
theorem line_two_added :
    add Euclidean2.distance Euclidean2.distance_to_zero gnu_read line_one 2 [1] = some line_two := by
  rfl

/-- C22, witness: the append branch at `add(line_one, 2, (1))`, which gives `line_two`, and
the reuse branch at `add(reuse_index, 5, (3))`, where offset 1 is taken from the stack. -/
theorem add_offset_allocation_witness :
    ((add Euclidean2.distance Euclidean2.distance_to_zero gnu_read line_one 2 [1] = some line_two ∧
        line_one.empty = []) ∧
      line_two.vectors.length = line_one.vectors.length + 1 ∧ line_two.empty = [] ∧
      (line_two.vectors[line_one.vectors.length]?).map Vector.label =
        some (2, line_one.count, [1]) ∧
      (line_one.count = line_one.vectors.length →
        (line_two.vectors[line_one.vectors.length]?).map Vector.offset =
          some line_one.vectors.length) ∧
      ∀ j, j < line_one.vectors.length →
        (line_two.vectors[j]?).map Vector.label = (line_one.vectors[j]?).map Vector.label) ∧
    ((add Euclidean2.distance Euclidean2.distance_to_zero gnu_read reuse_index 5 [3] =
        some reuse_result ∧ reuse_index.empty = [1]) ∧
      reuse_result.vectors.length = reuse_index.vectors.length ∧ reuse_result.empty = [] ∧
      (reuse_result.vectors[1]?).map Vector.label =
        (reuse_index.vectors[1]?).map (fun v => (5, v.offset, [3])) ∧
      (reuse_result.vectors[1]?).isSome ∧
      ∀ j, j ≠ 1 →
        (reuse_result.vectors[j]?).map Vector.label =
          (reuse_index.vectors[j]?).map Vector.label) :=
  ⟨⟨⟨line_two_added, rfl⟩,
      (add_offset_allocation Euclidean2.distance Euclidean2.distance_to_zero gnu_read line_one line_two
        2 [1] line_two_added).1 rfl⟩,
    ⟨⟨reuse_result_built, rfl⟩,
      (add_offset_allocation Euclidean2.distance Euclidean2.distance_to_zero gnu_read reuse_index
        reuse_result 5 [3] reuse_result_built).2 1 [] rfl⟩⟩

/-! ## Claim C23 -/

/-- C23 as stated fails: when the file cannot be opened, `load_vector` and `load_neighbors`
end the program with `exit(0)`; the exit code is 0, not a non-zero one. -/
theorem load_open_failure_exit_code :
    ∃ code, load_vector (fun _ _ => true) none = some (Except.error (Ending.exits code)) ∧
      load_neighbors (fun _ _ => true) none = some (Except.error (Ending.exits code)) ∧
      code = 0 :=
  ⟨0, rfl, rfl, rfl⟩

/-- C23, as amended: when the corpus file or the ground-truth file cannot be opened,
`load_vector` and `load_neighbors` end the program with exit code 0. -/
theorem load_open_failure_exits_zero (allocates : Nat → Nat → Bool) :
    load_vector allocates none = some (Except.error (Ending.exits 0)) ∧
      load_neighbors allocates none = some (Except.error (Ending.exits 0)) :=
  ⟨rfl, rfl⟩

/-- A file that opens is read: one row of two elements, given with their bytes; and when
the allocation of the rows fails the call ends with the exception. -/
theorem load_vector_reads :
    load_vector (fun _ _ => true)
        (some [1, 0, 0, 0, 0, 0, 0, 0, 2, 0, 0, 0, 0, 0, 0, 0, 7, 0, 0, 0, 1, 1, 0, 0]) =
      some (Except.ok [[7, 257]]) ∧
    load_neighbors (fun _ _ => true)
        (some [1, 0, 0, 0, 0, 0, 0, 0, 1, 0, 0, 0, 0, 0, 0, 0, 3, 0, 0, 0]) =
      some (Except.ok [[3]]) ∧
    load_vector (fun _ _ => false)
        (some [1, 0, 0, 0, 0, 0, 0, 0, 2, 0, 0, 0, 0, 0, 0, 0, 7, 0, 0, 0, 1, 1, 0, 0]) =
      some (Except.error Ending.throws) := by
  refine ⟨?_, ?_, ?_⟩ <;> rfl

/-! ## Claim C24 -/

set_option maxRecDepth 100000 in
/-- C24, evaluated at the failing input: in `line_three` the record at offset 3 has the
out-edge to offset 2 and that record has the out-edge to offset 1, a path of two steps, and
the record at offset 1 holds the offset 0 in `short_edge_in`, a third step; yet `connected`
from the record at offset 3 returns false for the targets 1 and 0, while it finds the record
one step away: `last` is never replaced by `next`, so all four rounds expand the start record
only. -/
theorem connected_misses_second_hop :
    add_all Euclidean2.distance Euclidean2.distance_to_zero gnu_read line_index line_entries =
      some line_three ∧
    line_three.has_out 3 2 ∧ line_three.has_out 2 1 ∧ line_three.has_in 1 0 ∧
    ((line_three.vectors[3]?).bind fun v => connected line_three v 1) = some false ∧
    ((line_three.vectors[3]?).bind fun v => connected line_three v 0) = some false ∧
    ((line_three.vectors[3]?).bind fun v => connected line_three v 2) = some true :=
  ⟨line_three_built, ⟨_, rfl, by decide⟩, ⟨_, rfl, by decide⟩, ⟨_, rfl, by decide⟩,
    by decide, by decide, by decide⟩

/-! ## Claim C30 -/

theorem bind_short_edges_linked {D : Type} [LinearOrder D] {offset : Nat}
    (nearest_neighbors : List (D × Nat)) {index index1 : Index D}
    (h : bind_short_edges index offset nearest_neighbors = some index1)
    (hoffs : ∀ (i : Nat) (v : Vector D), index.vectors[i]? = some v → v.offset = i)
    (hne : ∀ e ∈ nearest_neighbors, e.2 ≠ offset) :
    ∀ x y, index.linked x y → index1.linked x y ∨ x = y := by
  induction nearest_neighbors generalizing index with
  | nil =>
    unfold bind_short_edges at h
    rw [← Option.some.inj h]
    exact fun _ _ hl => Or.inl hl
  | cons c rest ih =>
    unfold bind_short_edges at h
    obtain ⟨i1, h1, h⟩ := Option.bind_eq_some.1 h
    obtain ⟨keep, -⟩ := bind_candidate_links h1 hoffs (hne c (List.mem_cons_self _ _))
    have keep1 := ih h (frame_offset (bind_candidate_frame h1) hoffs)
      (fun e he => hne e (List.mem_cons_of_mem _ he))
    intro x y hl
    rcases keep x y hl with h2 | h2
    · exact keep1 x y h2
    · exact Or.inr h2

/-- Two different records that are linked before an `add` on a sound index are linked after
it. -/
theorem add_linked {D : Type} [LinearOrder D] {similarity : List D → List D → Nat → D}
    {distance_to_zero : List D → Nat → D} {stale : Stale_Read D} {index index1 : Index D} {id : Nat}
    {data : List D} (hs : index.sound)
    (h : add similarity distance_to_zero stale index id data = some index1) :
    ∀ x y, index.linked x y → index1.linked x y ∨ x = y := by
  obtain ⟨alloc, probe, hav, -, -, hb, hpm, -, -⟩ := add_probe hs h
  obtain ⟨-, -, -, haoffs⟩ := append_new_facts hs hav
  have e1 := fun a b => append_new_lists hav (fun v => v.short_edge_out.map Prod.snd) rfl a b
  have e2 := fun a b => append_new_lists hav (fun v => v.short_edge_in) rfl a b
  have e3 := fun a b => append_new_lists hav (fun v => v.keep_connected) rfl a b
  have keep := bind_short_edges_linked probe.2.2 hb haoffs
    (fun e he => by have := hpm e he; omega)
  intro x y hxy
  apply keep x y
  rcases hxy with hxy | hxy | hxy | hxy | hxy | hxy
  · exact Or.inl ((e1 x y).2 hxy)
  · exact Or.inr (Or.inl ((e2 x y).2 hxy))
  · exact Or.inr (Or.inr (Or.inl ((e3 x y).2 hxy)))
  · exact Or.inr (Or.inr (Or.inr (Or.inl ((e1 y x).2 hxy))))
  · exact Or.inr (Or.inr (Or.inr (Or.inr (Or.inl ((e2 y x).2 hxy)))))
  · exact Or.inr (Or.inr (Or.inr (Or.inr (Or.inr ((e3 y x).2 hxy)))))

/-- An index built by `add` calls on a fresh index is sound. -/
theorem built_sound {D : Type} [LinearOrder D] [Zero D]
    (similarity : List D → List D → Nat → D) (distance_to_zero : List D → Nat → D)
    (stale : Stale_Read D)
    (space : Metric) (dimension short_edge_lower_limit magnification cover_range
      indeterminate : Nat) (entries : List (Nat × List D)) (index : Index D)
    (hbuilt : add_all similarity distance_to_zero stale
      (Index.new space dimension short_edge_lower_limit magnification cover_range indeterminate)
      entries = some index) :
    index.sound ∧ index.parameters = (Index.new space dimension short_edge_lower_limit
      magnification cover_range indeterminate : Index D).parameters := by
  rcases built_parameters_pos similarity distance_to_zero stale space dimension
    short_edge_lower_limit magnification cover_range indeterminate entries index hbuilt with
    ⟨-, hidx⟩ | ⟨hlow, hlimit⟩
  · rw [hidx]
    exact ⟨sound_new _ _ _ _ _ _, rfl⟩
  · obtain ⟨i0, h0, s0, p0, -⟩ := add_all_spec similarity distance_to_zero stale entries
      (Index.new space dimension short_edge_lower_limit magnification cover_range
        indeterminate) (sound_new _ _ _ _ _ _) hlow hlimit
    rw [hbuilt] at h0
    obtain rfl := Option.some.inj h0
    exact ⟨s0, p0⟩

/-- C30: after any run of `add` calls on a fresh index, any two records are joined by a
chain of linked records (each two neighbours of the chain hold one the other in
`short_edge_out`, `short_edge_in` or `keep_connected`), and two different records that are
linked stay linked through every further `add`. -/
theorem weak_connectivity_kept {D : Type} [LinearOrder D] [Zero D]
    (similarity : List D → List D → Nat → D) (distance_to_zero : List D → Nat → D)
    (stale : Stale_Read D)
    (space : Metric) (dimension short_edge_lower_limit magnification cover_range
      indeterminate : Nat)
    (entries : List (Nat × List D)) (index : Index D)
    (hbuilt : add_all similarity distance_to_zero stale
      (Index.new space dimension short_edge_lower_limit magnification cover_range indeterminate)
      entries = some index) :
    (∀ x y, x < index.vectors.length → y < index.vectors.length → index.joined x y) ∧
      ∀ (id : Nat) (data : List D) (index1 : Index D),
        add similarity distance_to_zero stale index id data = some index1 →
        ∀ x y, x ≠ y → index.linked x y → index1.linked x y := by
  have hfresh : ∀ o, o < (Index.new space dimension short_edge_lower_limit magnification
      cover_range indeterminate : Index D).vectors.length →
      (Index.new space dimension short_edge_lower_limit magnification cover_range
        indeterminate : Index D).joined 0 o := by
    intro o ho
    have ho0 : o = 0 := by
      simp [Index.new] at ho
      exact ho
    rw [ho0]
    exact Relation.ReflTransGen.refl
  have hzero : ∀ o, o < index.vectors.length → index.joined 0 o := by
    rcases built_parameters_pos similarity distance_to_zero stale space dimension
      short_edge_lower_limit magnification cover_range indeterminate entries index hbuilt with
      ⟨-, hidx⟩ | ⟨hlow, -⟩
    · rw [hidx]
      exact hfresh
    · exact add_all_joined entries (sound_new space dimension short_edge_lower_limit
        magnification cover_range indeterminate) hlow hbuilt hfresh
  obtain ⟨hs, -⟩ := built_sound similarity distance_to_zero stale space dimension
    short_edge_lower_limit magnification cover_range indeterminate entries index hbuilt
  refine ⟨fun x y hx hy =>
    Relation.ReflTransGen.trans (joined_symm (hzero x hx)) (hzero y hy), ?_⟩
  intro id data index1 h x y hxy hl
  rcases add_linked hs h x y hl with h1 | h1
  · exact h1
  · exact absurd h1 hxy

/-- C30, witness: the index `line_two` and the insertion that turns it into
`stranded_index`. -/
theorem weak_connectivity_kept_witness :
    add_all Euclidean2.distance Euclidean2.distance_to_zero gnu_read
      (Index.new Metric.Euclidean2 1 1 0 1 2 : Index Int) [(1, [10]), (2, [1])] =
      some line_two ∧
    (∀ x y, x < line_two.vectors.length → y < line_two.vectors.length →
      line_two.joined x y) ∧
    ∀ (id : Nat) (data : List Int) (index1 : Index Int),
      add Euclidean2.distance Euclidean2.distance_to_zero gnu_read line_two id data = some index1 →
      ∀ x y, x ≠ y → line_two.linked x y → index1.linked x y :=
  ⟨line_two_built,
    weak_connectivity_kept Euclidean2.distance Euclidean2.distance_to_zero gnu_read
      Metric.Euclidean2 1 1 0 1 2 [(1, [10]), (2, [1])] line_two line_two_built⟩

/-! ## Properties of single records kept by the binding loop -/

theorem update_each {D : Type} {index index1 : Index D} {i : Nat} {f : Vector D → Vector D}
    (h : index.update i f = some index1) {P : Vector D → Prop} (hP : ∀ v, P v → P (f v))
    (hall : index.each P) : index1.each P := by
  intro j w hw
  rw [update_getElem? h j] at hw
  split at hw
  · obtain ⟨v, hv, rfl⟩ := Option.map_eq_some'.1 hw
    exact hP v (hall i v hv)
  · exact hall j w hw

theorem link_back_each {D : Type} [LinearOrder D] {index index1 : Index D}
    {offset neighbor_index neighbor_offset : Nat} {distance : D}
    (h : link_back index offset neighbor_index distance neighbor_offset = some index1)
    {P : Vector D → Prop} (hP : write_stable P) (hall : index.each P) : index1.each P := by
  obtain ⟨i1, h1, h2⟩ := link_back_cases h
  exact update_each h2 (fun v hv => (hP v hv).2.2.1 _)
    (update_each h1 (fun v hv => (hP v hv).1 _) hall)

theorem protect_each {D : Type} [LinearOrder D] {index index1 : Index D}
    {neighbor_index farest_offset : Nat} {farest_distance : D}
    (h : protect index neighbor_index farest_distance farest_offset = some index1)
    {P : Vector D → Prop} (hP : write_stable P) (hall : index.each P) : index1.each P := by
  obtain ⟨neighbor, -, hcase⟩ := protect_cases h
  rcases hcase with ⟨rfl, -⟩ | ⟨-, -, -, h1⟩ | ⟨-, -, -, i1, h1, h2⟩
  · exact hall
  · exact update_each h1 (fun v hv => (hP v hv).1 _) hall
  · exact update_each h2 (fun v hv => (hP v hv).2.2.2.2 _)
      (update_each h1 (fun v hv => (hP v hv).2.2.2.2 _) hall)

theorem append_new_each {D : Type} {index alloc : Index D} {id offset : Nat} {data : List D}
    (hav : alloc.vectors = index.vectors ++ [Vector.new id offset data])
    {P : Vector D → Prop} (hnew : P (Vector.new id offset data)) (hall : index.each P) :
    alloc.each P := by
  intro j v hv
  rw [hav] at hv
  by_cases hj : j < index.vectors.length
  · rw [List.getElem?_append_left hj] at hv
    exact hall j v hv
  · have hlt := (List.getElem?_eq_some.1 hv).1
    simp only [List.length_append, List.length_singleton] at hlt
    have hj2 : j = index.vectors.length := by omega
    rw [hj2, List.getElem?_append_right (le_refl _)] at hv
    simp only [Nat.sub_self, List.getElem?_cons_zero, Option.some.injEq] at hv
    rw [← hv]
    exact hnew

/-- The set `short_edge_in` of a record never holds an offset twice. -/
theorem in_nodup_stable {D : Type} [LinearOrder D] :
    write_stable (fun v : Vector D => v.short_edge_in.Nodup) := by
  intro v hv
  refine ⟨fun _ => hv, hv, fun o => ?_, fun o => hv.erase o, fun _ => hv⟩
  show (set_insert o v.short_edge_in).Nodup
  unfold set_insert
  split
  · exact hv
  · rename_i hno
    exact List.nodup_append.2 ⟨hv, List.nodup_singleton o, by
      intro a ha hb
      rw [List.mem_singleton] at hb
      exact hno (hb ▸ ha)⟩

/-! ## What a turn of the binding loop does to the in-edges -/

theorem has_in_in_insert {D : Type} {index index1 : Index D} {i o : Nat}
    (h : index.update i (Vector.in_insert o) = some index1) (a b : Nat) :
    index1.has_in a b ↔ index.has_in a b ∨ (a = i ∧ b = o) :=
  update_lists_insert h (fun v => v.short_edge_in)
    (fun v y => mem_set_insert o y v.short_edge_in) a b

theorem has_in_same {D : Type} {index index1 : Index D} {i : Nat} {f : Vector D → Vector D}
    (h : index.update i f = some index1)
    (hf : ∀ v, (f v).short_edge_in = v.short_edge_in) (a b : Nat) :
    index1.has_in a b ↔ index.has_in a b :=
  update_lists_same h _ hf a b

theorem has_in_in_erase {D : Type} {index index1 : Index D} {i o : Nat}
    (h : index.update i (Vector.in_erase o) = some index1) (a b : Nat) :
    (index1.has_in a b → index.has_in a b) ∧ (index.has_in a b → b ≠ o → index1.has_in a b) := by
  have e := update_lists h (fun v => v.short_edge_in) a b
  unfold Index.has_in
  rw [e]
  by_cases ha : a = i
  · rw [if_pos ha, ha]
    constructor
    · rintro ⟨v, hv, hb⟩
      exact ⟨v, hv, List.mem_of_mem_erase hb⟩
    · rintro ⟨v, hv, hb⟩ hbo
      exact ⟨v, hv, (List.mem_erase_of_ne hbo).2 hb⟩
  · rw [if_neg ha]
    exact ⟨fun x => x, fun x _ => x⟩

theorem link_back_has_in {D : Type} [LinearOrder D] {index index1 : Index D}
    {offset neighbor_index neighbor_offset : Nat} {distance : D}
    (h : link_back index offset neighbor_index distance neighbor_offset = some index1)
    (a b : Nat) :
    index1.has_in a b ↔ index.has_in a b ∨ (a = offset ∧ b = neighbor_offset) := by
  obtain ⟨i1, h1, h2⟩ := link_back_cases h
  rw [has_in_in_insert h2, has_in_same h1 (fun _ => rfl)]

theorem protect_has_in {D : Type} [LinearOrder D] {index index1 : Index D}
    {neighbor_index farest_offset : Nat} {farest_distance : D}
    (h : protect index neighbor_index farest_distance farest_offset = some index1)
    (a b : Nat) : index1.has_in a b ↔ index.has_in a b := by
  obtain ⟨neighbor, -, hcase⟩ := protect_cases h
  rcases hcase with ⟨rfl, -⟩ | ⟨-, -, -, h1⟩ | ⟨-, -, -, i1, h1, h2⟩
  · rfl
  · exact has_in_same h1 (fun _ => rfl) a b
  · rw [has_in_same h2 (fun _ => rfl), has_in_same h1 (fun _ => rfl)]

/-- One turn of the binding loop, seen from the in-edges: the only in-edges that appear are
the new record at the candidate and the candidate at the new record, and the only in-edges
that disappear are in-edges from the candidate. -/
theorem bind_candidate_has_in {D : Type} [LinearOrder D] {index index1 : Index D}
    {offset : Nat} {candidate : D × Nat}
    (h : bind_candidate index offset candidate = some index1)
    (hoffs : ∀ (i : Nat) (v : Vector D), index.vectors[i]? = some v → v.offset = i)
    (a b : Nat) :
    (index1.has_in a b → index.has_in a b ∨ (a = candidate.2 ∧ b = offset) ∨
        (a = offset ∧ b = candidate.2)) ∧
      (index.has_in a b → b ≠ candidate.2 → index1.has_in a b) ∧
      (candidate.2 ≠ offset → index1.has_in candidate.2 offset) := by
  obtain ⟨neighbor0, i1, i2, neighbor, -, h1, h2, hn, hcase⟩ := bind_candidate_cases h
  have f2 : i2.frame = index.frame :=
    (update_frame h2 (fun _ => rfl)).trans (update_frame h1 (fun _ => rfl))
  have hno : neighbor.offset = candidate.2 := frame_offset f2 hoffs _ _ hn
  have e2 : ∀ x y, i2.has_in x y ↔ index.has_in x y ∨ (x = candidate.2 ∧ y = offset) := by
    intro x y
    rw [has_in_in_insert h2, has_in_same h1 (fun _ => rfl)]
  rw [hno] at hcase
  rcases hcase with ⟨-, hl⟩ | ⟨-, farest, -, ⟨-, i3, i4, i5, h3, h4, h5, hl⟩ | ⟨-, rfl⟩⟩
  · have e := link_back_has_in hl
    refine ⟨fun hab => ?_, fun hab _ => ?_, fun _ => ?_⟩
    · rcases (e a b).1 hab with hab | hab
      · rcases (e2 a b).1 hab with hab | hab
        · exact Or.inl hab
        · exact Or.inr (Or.inl hab)
      · exact Or.inr (Or.inr hab)
    · exact (e a b).2 (Or.inl ((e2 a b).2 (Or.inl hab)))
    · exact (e _ _).2 (Or.inl ((e2 _ _).2 (Or.inr ⟨rfl, rfl⟩)))
  · have e := link_back_has_in hl
    have e5 := protect_has_in h5
    have e4 := has_in_in_erase h4
    have e3 := has_in_same h3 (fun _ => rfl)
    refine ⟨fun hab => ?_, fun hab hb => ?_, fun hne => ?_⟩
    · rcases (e a b).1 hab with hab | hab
      · have := (e3 a b).1 ((e4 a b).1 ((e5 a b).1 hab))
        rcases (e2 a b).1 this with hab | hab
        · exact Or.inl hab
        · exact Or.inr (Or.inl hab)
      · exact Or.inr (Or.inr hab)
    · exact (e a b).2 (Or.inl ((e5 a b).2 ((e4 a b).2
        ((e3 a b).2 ((e2 a b).2 (Or.inl hab))) hb)))
    · exact (e _ _).2 (Or.inl ((e5 _ _).2 ((e4 _ _).2
        ((e3 _ _).2 ((e2 _ _).2 (Or.inr ⟨rfl, rfl⟩))) (Ne.symm hne))))
  · refine ⟨fun hab => ?_, fun hab _ => (e2 a b).2 (Or.inl hab),
      fun _ => (e2 _ _).2 (Or.inr ⟨rfl, rfl⟩)⟩
    rcases (e2 a b).1 hab with hab | hab
    · exact Or.inl hab
    · exact Or.inr (Or.inl hab)

/-! ## The records after one turn of the binding loop -/

theorem update_get_ne {D : Type} {index index1 : Index D} {i : Nat} {f : Vector D → Vector D}
    (h : index.update i f = some index1) {j : Nat} (hj : j ≠ i) :
    index1.vectors[j]? = index.vectors[j]? := by
  rw [update_getElem? h j, if_neg hj]

theorem update_get_at {D : Type} {index index1 : Index D} {i : Nat} {f : Vector D → Vector D}
    (h : index.update i f = some index1) {v : Vector D} (hv : index.vectors[i]? = some v) :
    index1.vectors[i]? = some (f v) := by
  rw [update_getElem? h i, if_pos rfl, hv]
  rfl

theorem update_get_some {D : Type} {index index1 : Index D} {i : Nat}
    {f : Vector D → Vector D} (h : index.update i f = some index1) :
    ∃ v, index.vectors[i]? = some v := by
  obtain ⟨v, hv, -⟩ := update_eq_some h
  exact ⟨v, hv⟩

/-! ## The out-edges through the binding loop, entry by entry -/

theorem out_edges_of_getElem? {D : Type} {index : Index D} {j : Nat} {v : Vector D}
    (h : index.vectors[j]? = some v) : index.out_edges j = v.short_edge_out := by
  unfold Index.out_edges
  rw [h]

theorem out_edges_congr {D : Type} {index index1 : Index D} {j : Nat}
    (h : index1.vectors[j]? = index.vectors[j]?) : index1.out_edges j = index.out_edges j := by
  unfold Index.out_edges
  rw [h]

theorem update_out_edges_same {D : Type} {index index1 : Index D} {i : Nat}
    {f : Vector D → Vector D} (h : index.update i f = some index1)
    (hf : ∀ v, (f v).short_edge_out = v.short_edge_out) (j : Nat) :
    index1.out_edges j = index.out_edges j := by
  by_cases hj : j = i
  · obtain ⟨v, hv⟩ := update_get_some h
    rw [hj, out_edges_of_getElem? (update_get_at h hv), out_edges_of_getElem? hv, hf v]
  · exact out_edges_congr (update_get_ne h hj)

theorem update_out_edges_at {D : Type} {index index1 : Index D} {i : Nat}
    {f : Vector D → Vector D} (h : index.update i f = some index1)
    (g : List (D × Nat) → List (D × Nat))
    (hf : ∀ v, (f v).short_edge_out = g v.short_edge_out) :
    index1.out_edges i = g (index.out_edges i) := by
  obtain ⟨v, hv⟩ := update_get_some h
  rw [out_edges_of_getElem? (update_get_at h hv), out_edges_of_getElem? hv, hf v]

theorem link_back_out_edges {D : Type} [LinearOrder D] {index index1 : Index D}
    {offset neighbor_index neighbor_offset : Nat} {distance : D}
    (h : link_back index offset neighbor_index distance neighbor_offset = some index1) :
    index1.out_edges neighbor_index =
        multimap_insert (distance, offset) (index.out_edges neighbor_index) ∧
      ∀ j, j ≠ neighbor_index → index1.out_edges j = index.out_edges j := by
  obtain ⟨i1, h1, h2⟩ := link_back_cases h
  have e2 := update_out_edges_same h2 (fun _ => rfl)
  refine ⟨?_, fun j hj => ?_⟩
  · rw [e2]
    exact update_out_edges_at h1 _ (fun _ => rfl)
  · rw [e2]
    exact out_edges_congr (update_get_ne h1 hj)

theorem protect_out_edges {D : Type} [LinearOrder D] {index index1 : Index D}
    {neighbor_index farest_offset : Nat} {farest_distance : D}
    (h : protect index neighbor_index farest_distance farest_offset = some index1) :
    ∀ j, j ≠ neighbor_index → index1.out_edges j = index.out_edges j := by
  obtain ⟨neighbor, -, hcase⟩ := protect_cases h
  rcases hcase with ⟨rfl, -⟩ | ⟨-, -, -, h1⟩ | ⟨-, -, -, i1, h1, h2⟩
  · exact fun _ _ => rfl
  · exact fun j hj => out_edges_congr (update_get_ne h1 hj)
  · intro j _
    rw [update_out_edges_same h2 (fun _ => rfl), update_out_edges_same h1 (fun _ => rfl)]

/-- One turn of the binding loop, seen from the entries of `short_edge_out`: the new record
gains the candidate pair, and only the candidate's record changes otherwise. -/
theorem bind_candidate_out_edges {D : Type} [LinearOrder D] {index index1 : Index D}
    {offset : Nat} {candidate : D × Nat}
    (h : bind_candidate index offset candidate = some index1)
    (hoffs : ∀ (i : Nat) (v : Vector D), index.vectors[i]? = some v → v.offset = i)
    (hne : candidate.2 ≠ offset) :
    index1.out_edges offset = multimap_insert candidate (index.out_edges offset) ∧
      ∀ j, j ≠ offset → j ≠ candidate.2 → index1.out_edges j = index.out_edges j := by
  obtain ⟨neighbor0, i1, i2, neighbor, hn0, h1, h2, hn, hcase⟩ := bind_candidate_cases h
  have hno : neighbor0.offset = candidate.2 := hoffs _ _ hn0
  rw [hno] at h1
  have e2 := update_out_edges_same h2 (fun _ => rfl)
  have a2 : i2.out_edges offset = multimap_insert candidate (index.out_edges offset) := by
    rw [e2]
    exact update_out_edges_at h1 _ (fun _ => rfl)
  have b2 : ∀ j, j ≠ offset → i2.out_edges j = index.out_edges j := by
    intro j hj
    rw [e2]
    exact out_edges_congr (update_get_ne h1 hj)
  rcases hcase with ⟨-, hl⟩ | ⟨-, farest, -, ⟨-, i3, i4, i5, h3, h4, h5, hl⟩ | ⟨-, rfl⟩⟩
  · obtain ⟨-, c⟩ := link_back_out_edges hl
    exact ⟨by rw [c _ (Ne.symm hne), a2], fun j hj hjc => by rw [c j hjc, b2 j hj]⟩
  · obtain ⟨-, c⟩ := link_back_out_edges hl
    have d := protect_out_edges h5
    have e4 := update_out_edges_same h4 (fun _ => rfl)
    have e3 : ∀ j, j ≠ candidate.2 → i3.out_edges j = i2.out_edges j :=
      fun j hj => out_edges_congr (update_get_ne h3 hj)
    refine ⟨?_, fun j hj hjc => ?_⟩
    · rw [c _ (Ne.symm hne), d _ (Ne.symm hne), e4, e3 _ (Ne.symm hne), a2]
    · rw [c j hjc, d j hjc, e4, e3 j hjc, b2 j hj]
  · exact ⟨a2, fun j hj _ => b2 j hj⟩

/-- Turns of the binding loop for other candidates leave the out-edges of a record alone,
add to the in-edges only the new record or, at the new record, one of the candidates, and
remove only in-edges from a candidate. -/
theorem bind_short_edges_skip {D : Type} [LinearOrder D] {offset : Nat}
    (nearest_neighbors : List (D × Nat)) {index index1 : Index D}
    (h : bind_short_edges index offset nearest_neighbors = some index1)
    (hoffs : ∀ (i : Nat) (v : Vector D), index.vectors[i]? = some v → v.offset = i)
    (hne : ∀ e ∈ nearest_neighbors, e.2 ≠ offset) :
    (∀ j, j ≠ offset → j ∉ nearest_neighbors.map Prod.snd →
        index1.out_edges j = index.out_edges j) ∧
      (∀ a b, index1.has_in a b → index.has_in a b ∨ b = offset ∨
        (a = offset ∧ b ∈ nearest_neighbors.map Prod.snd)) ∧
      ∀ a b, index.has_in a b → b ∉ nearest_neighbors.map Prod.snd → index1.has_in a b := by
  induction nearest_neighbors generalizing index with
  | nil =>
    unfold bind_short_edges at h
    rw [← Option.some.inj h]
    exact ⟨fun _ _ _ => rfl, fun _ _ hab => Or.inl hab, fun _ _ hab _ => hab⟩
  | cons c rest ih =>
    unfold bind_short_edges at h
    obtain ⟨i1, h1, h⟩ := Option.bind_eq_some.1 h
    have hcne := hne c (List.mem_cons_self _ _)
    obtain ⟨o1, o2, o3⟩ := ih h (frame_offset (bind_candidate_frame h1) hoffs)
      (fun e he => hne e (List.mem_cons_of_mem _ he))
    obtain ⟨-, t2⟩ := bind_candidate_out_edges h1 hoffs hcne
    have t3 := bind_candidate_has_in h1 hoffs
    refine ⟨fun j hj hjn => ?_, fun a b hab => ?_, fun a b hab hb => ?_⟩
    · rw [List.map_cons, List.mem_cons, not_or] at hjn
      rw [o1 j hj hjn.2, t2 j hj hjn.1]
    · rcases o2 a b hab with hab | hab | ⟨ha, hb⟩
      · rcases (t3 a b).1 hab with hab | ⟨-, hab⟩ | ⟨ha, hb⟩
        · exact Or.inl hab
        · exact Or.inr (Or.inl hab)
        · have hmem : c.2 ∈ (c :: rest).map Prod.snd :=
            List.mem_map_of_mem Prod.snd (List.mem_cons_self _ _)
          rw [← hb] at hmem
          exact Or.inr (Or.inr ⟨ha, hmem⟩)
      · exact Or.inr (Or.inl hab)
      · have hmem : b ∈ (c :: rest).map Prod.snd := by
          rw [List.map_cons]
          exact List.mem_cons_of_mem _ hb
        exact Or.inr (Or.inr ⟨ha, hmem⟩)
    · rw [List.map_cons, List.mem_cons, not_or] at hb
      exact o3 a b ((t3 a b).2.1 hab hb.1) hb.2

/-! ## The out-edges of the new record -/

/-- A returned `add` on a sound index, step by step: the allocation appends the record at
offset `|vectors|`, the probe on the allocated index returns candidates that are older
records, and the binding loop runs over them. -/
theorem add_steps {D : Type} [LinearOrder D] {similarity : List D → List D → Nat → D}
    {distance_to_zero : List D → Nat → D} {stale : Stale_Read D} {index index1 : Index D} {id : Nat}
    {data : List D} (hs : index.sound)
    (h : add similarity distance_to_zero stale index id data = some index1) :
    ∃ (alloc : Index D) (probe : List (D × Nat) × List (D × Nat) × List (D × Nat)),
      add_allocate index id data = some (alloc, index.vectors.length) ∧
      alloc.vectors = index.vectors ++ [Vector.new id index.count data] ∧
      alloc.parameters = index.parameters ∧
      search_add similarity distance_to_zero stale alloc data = some probe ∧
      bind_short_edges alloc index.vectors.length probe.2.2 = some index1 ∧
      (∀ e ∈ probe.2.2, e.2 < index.vectors.length) := by
  have hlimit := add_limit_pos _ _ _ _ _ _ _ hs.1.1 h
  obtain ⟨alloc, halloc, hav, hap⟩ : ∃ alloc : Index D,
      add_allocate index id data = some (alloc, index.count) ∧
      alloc.vectors = index.vectors ++ [Vector.new id index.count data] ∧
      alloc.parameters = index.parameters :=
    ⟨_, add_allocate_empty index id data hs.1.1, rfl, rfl⟩
  obtain ⟨hal, haidx, halong, -⟩ := append_new_facts hs hav
  unfold add at h
  rw [halloc, Option.some_bind] at h
  simp only at h
  split at h
  · exact absurd h (by simp)
  · obtain ⟨probe, hp, hb⟩ := Option.bind_eq_some.1 h
    obtain ⟨probe1, hp1, hpm, -⟩ := search_add_spec similarity distance_to_zero stale alloc data
      index.vectors.length hs.1.2.2.1 (by omega) haidx halong (by rw [hap]; exact hlimit)
    rw [hp] at hp1
    obtain rfl := Option.some.inj hp1
    rw [hs.1.2.1] at hb
    have halloc1 : add_allocate index id data = some (alloc, index.vectors.length) := by
      rw [halloc, hs.1.2.1]
    exact ⟨alloc, probe, halloc1, hav, hap, hp, hb, hpm⟩

/-- The binding loop gives the new record one out-edge for each candidate, and puts the new
record into `short_edge_in` of each candidate. -/
theorem bind_short_edges_new_record {D : Type} [LinearOrder D] {offset : Nat}
    (nearest_neighbors : List (D × Nat)) {index index1 : Index D}
    (h : bind_short_edges index offset nearest_neighbors = some index1)
    (hoffs : ∀ (i : Nat) (v : Vector D), index.vectors[i]? = some v → v.offset = i)
    (hne : ∀ e ∈ nearest_neighbors, e.2 ≠ offset) :
    (index1.out_edges offset).Perm (nearest_neighbors ++ index.out_edges offset) ∧
      ∀ e ∈ nearest_neighbors, index1.has_in e.2 offset := by
  induction nearest_neighbors generalizing index with
  | nil =>
    unfold bind_short_edges at h
    rw [← Option.some.inj h]
    exact ⟨List.Perm.refl _, fun e he => absurd he (List.not_mem_nil e)⟩
  | cons c rest ih =>
    unfold bind_short_edges at h
    obtain ⟨i1, h1, h⟩ := Option.bind_eq_some.1 h
    have hcne := hne c (List.mem_cons_self _ _)
    have hoffs1 := frame_offset (bind_candidate_frame h1) hoffs
    have hne1 : ∀ e ∈ rest, e.2 ≠ offset := fun e he => hne e (List.mem_cons_of_mem _ he)
    obtain ⟨p, q⟩ := ih h hoffs1 hne1
    obtain ⟨t1, -⟩ := bind_candidate_out_edges h1 hoffs hcne
    obtain ⟨-, -, s3⟩ := bind_short_edges_skip rest h hoffs1 hne1
    refine ⟨?_, fun e he => ?_⟩
    · rw [t1] at p
      refine p.trans ?_
      refine (List.Perm.append_left rest (multimap_insert_perm c _)).trans ?_
      exact List.perm_middle
    · rcases List.mem_cons.1 he with he | he
      · rw [he]
        refine s3 _ _ ((bind_candidate_has_in h1 hoffs c.2 offset).2.2 hcne) ?_
        intro hmem
        obtain ⟨x, hx, hxo⟩ := List.mem_map.1 hmem
        exact hne1 x hx hxo
      · exact q e he

theorem append_new_out_edges {D : Type} {index alloc : Index D} {id offset : Nat}
    {data : List D} (hav : alloc.vectors = index.vectors ++ [Vector.new id offset data])
    (j : Nat) : alloc.out_edges j = index.out_edges j := by
  unfold Index.out_edges
  rw [hav]
  by_cases hj : j < index.vectors.length
  · rw [List.getElem?_append_left hj]
  · rw [List.getElem?_eq_none (Nat.le_of_not_lt hj : index.vectors.length ≤ j)]
    by_cases hj2 : j = index.vectors.length
    · rw [hj2, List.getElem?_append_right (le_refl _)]
      simp [Vector.new]
    · rw [List.getElem?_eq_none (by simp; omega)]

/-! ## Claim C26 -/

/-- C26: after a returned `add` on an index built by `add` calls on a fresh index, the new
record, stored at offset `|vectors|` with the given id and data, has as `short_edge_out`
exactly the candidate pairs that `search_add` returned for its data on the index as
allocated, each as often as the probe returned it, and its offset is in `short_edge_in` of
every candidate. -/
theorem new_record_outbound {D : Type} [LinearOrder D] [Zero D]
    (similarity : List D → List D → Nat → D) (distance_to_zero : List D → Nat → D)
    (stale : Stale_Read D)
    (space : Metric) (dimension short_edge_lower_limit magnification cover_range
      indeterminate : Nat)
    (entries : List (Nat × List D)) (index : Index D)
    (hbuilt : add_all similarity distance_to_zero stale
      (Index.new space dimension short_edge_lower_limit magnification cover_range indeterminate)
      entries = some index)
    (id : Nat) (data : List D) (index1 : Index D)
    (h : add similarity distance_to_zero stale index id data = some index1) :
    ∃ alloc probe n1,
      add_allocate index id data = some (alloc, index.vectors.length) ∧
      search_add similarity distance_to_zero stale alloc data = some probe ∧
      index1.vectors[index.vectors.length]? = some n1 ∧ n1.id = id ∧ n1.data = data ∧
      n1.short_edge_out.Perm probe.2.2 ∧
      ∀ c ∈ probe.2.2, ∃ u, index1.vectors[c.2]? = some u ∧
        index.vectors.length ∈ u.short_edge_in := by
  obtain ⟨hs, -⟩ := built_sound similarity distance_to_zero stale space dimension
    short_edge_lower_limit magnification cover_range indeterminate entries index hbuilt
  obtain ⟨alloc, probe, halloc, hav, -, hp, hb, hpm⟩ := add_steps hs h
  obtain ⟨hal, -, -, haoffs⟩ := append_new_facts hs hav
  have hlab := frame_label (bind_short_edges_frame _ hb) index.vectors.length
  have hnew : alloc.vectors[index.vectors.length]? =
      some (Vector.new id index.count data) := by
    rw [hav, List.getElem?_append_right (le_refl _)]
    simp
  rw [hnew] at hlab
  obtain ⟨n1, hn1, hl1⟩ := Option.map_eq_some'.1 hlab
  simp only [Vector.label, Vector.new, Prod.mk.injEq] at hl1
  obtain ⟨p, q⟩ := bind_short_edges_new_record probe.2.2 hb haoffs
    (fun e he => by have := hpm e he; omega)
  have hempty : alloc.out_edges index.vectors.length = [] := by
    rw [out_edges_of_getElem? hnew]
    rfl
  rw [out_edges_of_getElem? hn1, hempty, List.append_nil] at p
  exact ⟨alloc, probe, n1, halloc, hp, hn1, hl1.1, hl1.2.2, p, fun c hc => q c hc⟩

/-- C26, witness: the insertion of id 2 into `twin_one`, which gives `twin_two`; the probe
returns the candidate `(81, 1)` twice, and the new record holds that pair twice. -/
theorem new_record_outbound_witness :
    (add_all Euclidean2.distance Euclidean2.distance_to_zero gnu_read
        (Index.new Metric.Euclidean2 1 1 1 1 1 : Index Int) [(1, [10])] = some twin_one ∧
      add Euclidean2.distance Euclidean2.distance_to_zero gnu_read twin_one 2 [1] =
        some twin_two ∧
      add_candidates Euclidean2.distance Euclidean2.distance_to_zero gnu_read twin_one 2 [1] =
        some [(81, 1), (81, 1)]) ∧
    ∃ alloc probe n1,
      add_allocate twin_one 2 [1] = some (alloc, twin_one.vectors.length) ∧
      search_add Euclidean2.distance Euclidean2.distance_to_zero gnu_read alloc [1] =
        some probe ∧
      twin_two.vectors[twin_one.vectors.length]? = some n1 ∧ n1.id = 2 ∧
      n1.data = [1] ∧ n1.short_edge_out.Perm probe.2.2 ∧
      ∀ c ∈ probe.2.2, ∃ u, twin_two.vectors[c.2]? = some u ∧
        twin_one.vectors.length ∈ u.short_edge_in :=
  ⟨⟨twin_one_built, twin_two_added, by decide⟩,
    new_record_outbound Euclidean2.distance Euclidean2.distance_to_zero gnu_read
      Metric.Euclidean2 1 1 1 1 1 [(1, [10])] twin_one twin_one_built 2 [1]
      twin_two twin_two_added⟩

/-! ## Claim C28 -/

/-- One turn of the binding loop for a candidate whose record has `short_edge_lower_limit`
out-edges or more, none of them farther than the new record: its out-edges stay as they
were and it is not entered in `short_edge_in` of the new record. -/
theorem bind_candidate_far {D : Type} [LinearOrder D] {index index1 : Index D}
    {offset : Nat} {candidate : D × Nat}
    (h : bind_candidate index offset candidate = some index1)
    (hne : candidate.2 ≠ offset) {dmax : D} {far : Nat}
    (hsize : index.parameters.short_edge_lower_limit ≤ (index.out_edges candidate.2).length)
    (hlast : (index.out_edges candidate.2).getLast? = some (dmax, far))
    (hd : ¬ candidate.1 < dmax) :
    index1.out_edges candidate.2 = index.out_edges candidate.2 ∧
      (index1.has_in offset candidate.2 → index.has_in offset candidate.2) := by
  obtain ⟨nb0, i1, i2, neighbor, hn0, h1, h2, hnb, hcase⟩ := bind_candidate_cases h
  have ho1 : i1.out_edges candidate.2 = index.out_edges candidate.2 :=
    out_edges_congr (update_get_ne h1 hne)
  have ho2 : i2.out_edges candidate.2 = index.out_edges candidate.2 := by
    rw [update_out_edges_same h2 (fun _ => rfl), ho1]
  have hp2 : i2.parameters = index.parameters := by
    rw [update_parameters h2, update_parameters h1]
  have hnout : neighbor.short_edge_out = index.out_edges candidate.2 := by
    rw [← ho2, out_edges_of_getElem? hnb]
  have hin2 : i2.has_in offset candidate.2 → index.has_in offset candidate.2 := by
    intro hin
    rcases (has_in_in_insert h2 offset candidate.2).1 hin with hin | ⟨heq, -⟩
    · exact (has_in_same h1 (fun _ => rfl) offset candidate.2).1 hin
    · exact absurd heq.symm hne
  rcases hcase with ⟨hlt, -⟩ | ⟨-, farest, hf, hcase⟩
  · rw [hnout, hp2] at hlt
    omega
  · rw [hnout, hlast] at hf
    rcases hcase with ⟨hlt, -⟩ | ⟨-, heq⟩
    · rw [← Option.some.inj hf] at hlt
      exact absurd hlt hd
    · rw [heq]
      exact ⟨ho2, hin2⟩

/-- The binding loop over candidates of which every one with the offset `uo` is as far as
that: the out-edges of the record at `uo` stay as they were and `uo` is not entered in
`short_edge_in` of the new record. -/
theorem bind_short_edges_far {D : Type} [LinearOrder D] {offset : Nat}
    (candidates : List (D × Nat)) {index index1 : Index D}
    (h : bind_short_edges index offset candidates = some index1)
    (hoffs : ∀ (i : Nat) (v : Vector D), index.vectors[i]? = some v → v.offset = i)
    (hne : ∀ e ∈ candidates, e.2 ≠ offset) {uo : Nat} {dmax : D} {far : Nat}
    (huo : uo ≠ offset)
    (hsize : index.parameters.short_edge_lower_limit ≤ (index.out_edges uo).length)
    (hlast : (index.out_edges uo).getLast? = some (dmax, far))
    (hfar : ∀ e ∈ candidates, e.2 = uo → ¬ e.1 < dmax) :
    index1.out_edges uo = index.out_edges uo ∧
      (index1.has_in offset uo → index.has_in offset uo) := by
  induction candidates generalizing index with
  | nil =>
    unfold bind_short_edges at h
    rw [← Option.some.inj h]
    exact ⟨rfl, fun hin => hin⟩
  | cons c rest ih =>
    unfold bind_short_edges at h
    obtain ⟨i1, h1, h⟩ := Option.bind_eq_some.1 h
    have hcne := hne c (List.mem_cons_self _ _)
    have hoffs1 := frame_offset (bind_candidate_frame h1) hoffs
    have hp1 : i1.parameters = index.parameters := frame_parameters (bind_candidate_frame h1)
    have hstep : i1.out_edges uo = index.out_edges uo ∧
        (i1.has_in offset uo → index.has_in offset uo) := by
      by_cases hc : c.2 = uo
      · have key := bind_candidate_far h1 hcne (by rw [hc]; exact hsize)
          (by rw [hc]; exact hlast) (hfar c (List.mem_cons_self _ _) hc)
        rw [hc] at key
        exact key
      · refine ⟨(bind_candidate_out_edges h1 hoffs hcne).2 uo huo (Ne.symm hc), fun hin => ?_⟩
        rcases (bind_candidate_has_in h1 hoffs offset uo).1 hin with hin | ⟨heq, -⟩ | ⟨-, heq⟩
        · exact hin
        · exact absurd heq.symm hcne
        · exact absurd heq.symm hc
    obtain ⟨p, q⟩ := ih h hoffs1 (fun e he => hne e (List.mem_cons_of_mem _ he))
      (by rw [hp1, hstep.1]; exact hsize) (by rw [hstep.1]; exact hlast)
      (fun e he => hfar e (List.mem_cons_of_mem _ he))
    exact ⟨p.trans hstep.1, fun hin => hstep.2 (q hin)⟩

set_option maxRecDepth 100000 in
theorem line_far_added :
    add Euclidean2.distance Euclidean2.distance_to_zero gnu_read line_one 2 [200] =
        some line_far ∧
      add_candidates Euclidean2.distance Euclidean2.distance_to_zero gnu_read line_one 2
        [200] = some [(40000, 0)] := by
  constructor <;> rfl

/-- C28: in a returned `add` on an index built by `add` calls on a fresh index, a candidate
`(d, uo)` whose record had, before the call, at least `short_edge_lower_limit` out-edges,
the last of them `(dmax, far)`, with `d` not below `dmax`, keeps its `short_edge_out` as it
was, and its offset is not put into `short_edge_in` of the new record. -/
theorem far_newcomer_not_linked {D : Type} [LinearOrder D] [Zero D]
    (similarity : List D → List D → Nat → D) (distance_to_zero : List D → Nat → D)
    (stale : Stale_Read D) (space : Metric) (dimension short_edge_lower_limit magnification
      cover_range indeterminate : Nat)
    (entries : List (Nat × List D)) (index : Index D)
    (hbuilt : add_all similarity distance_to_zero stale
      (Index.new space dimension short_edge_lower_limit magnification cover_range indeterminate)
      entries = some index)
    (id : Nat) (data : List D) (index1 : Index D)
    (h : add similarity distance_to_zero stale index id data = some index1)
    (candidates : List (D × Nat))
    (hc : add_candidates similarity distance_to_zero stale index id data = some candidates)
    (d : D) (uo : Nat) (dmax : D) (far : Nat) (hmem : (d, uo) ∈ candidates)
    (hsize : short_edge_lower_limit ≤ (index.out_edges uo).length)
    (hlast : (index.out_edges uo).getLast? = some (dmax, far))
    (hd : ¬ d < dmax) :
    index1.out_edges uo = index.out_edges uo ∧
      ¬ index1.has_in index.vectors.length uo := by
  obtain ⟨hs, hpar⟩ := built_sound similarity distance_to_zero stale space dimension
    short_edge_lower_limit magnification cover_range indeterminate entries index hbuilt
  obtain ⟨alloc, probe, halloc, hav, hap, hp, hb, hpm⟩ := add_steps hs h
  obtain ⟨-, -, halong, haoffs⟩ := append_new_facts hs hav
  have hcs : candidates = probe.2.2 := by
    unfold add_candidates at hc
    rw [halloc, Option.some_bind] at hc
    simp only at hc
    rw [hp] at hc
    exact (Option.some.inj hc).symm
  rw [hcs] at hmem
  have hdist := search_add_candidates_distance hp halong
  have huo : uo ≠ index.vectors.length := by
    have := hpm _ hmem
    dsimp only at this
    omega
  have hfar : ∀ e ∈ probe.2.2, e.2 = uo → ¬ e.1 < dmax := by
    intro e he heq
    have h1 := hdist e he
    have h2 := hdist _ hmem
    dsimp only at h2
    rw [heq, h2] at h1
    rw [← Option.some.inj h1]
    exact hd
  have hlow : alloc.parameters.short_edge_lower_limit = short_edge_lower_limit := by
    rw [hap, hpar]
    rfl
  obtain ⟨p, q⟩ := bind_short_edges_far probe.2.2 hb haoffs
    (fun e he => by have := hpm e he; omega) huo
    (by rw [hlow, append_new_out_edges hav]; exact hsize)
    (by rw [append_new_out_edges hav]; exact hlast) hfar
  refine ⟨by rw [p, append_new_out_edges hav], fun hin => ?_⟩
  have hin1 := q hin
  unfold Index.has_in at hin1
  rw [append_new_lists hav _ rfl] at hin1
  obtain ⟨v, hv, -⟩ := hin1
  rw [List.getElem?_eq_none (le_refl _)] at hv
  exact absurd hv (by simp)

/-- C28, witness: the insertion of `(200)` into `line_one`.  The candidate is `(40000, 0)`;
the zero point has the single out-edge `(100, 1)`. -/
theorem far_newcomer_not_linked_witness :
    (add_all Euclidean2.distance Euclidean2.distance_to_zero gnu_read
        (Index.new Metric.Euclidean2 1 1 0 1 2 : Index Int) [(1, [10])] = some line_one ∧
      add Euclidean2.distance Euclidean2.distance_to_zero gnu_read line_one 2 [200] =
        some line_far ∧
      add_candidates Euclidean2.distance Euclidean2.distance_to_zero gnu_read line_one 2
        [200] = some [(40000, 0)] ∧
      ((40000 : Int), 0) ∈ [((40000 : Int), 0)] ∧ 1 ≤ (line_one.out_edges 0).length ∧
      (line_one.out_edges 0).getLast? = some (100, 1) ∧ ¬ (40000 : Int) < 100) ∧
    line_far.out_edges 0 = line_one.out_edges 0 ∧
      ¬ line_far.has_in line_one.vectors.length 0 :=
  ⟨⟨line_one_built, line_far_added.1, line_far_added.2, by decide, by decide, by decide,
      by decide⟩,
    far_newcomer_not_linked Euclidean2.distance Euclidean2.distance_to_zero gnu_read
      Metric.Euclidean2 1 1 0 1 2 [(1, [10])] line_one line_one_built 2 [200] line_far
      line_far_added.1 [(40000, 0)] line_far_added.2 40000 0 100 1 (by decide) (by decide)
      (by decide) (by decide)⟩

/-! ## Claims C14, C25, C27, C29 -/

set_option maxRecDepth 100000 in
/-- C14, evaluated at the failing input: lower limit 2, magnification 0 (termination number
2), and the vector `(1)` inserted three times under the ids 1, 2, 3, so that
`3 >= short_edge_lower_limit + 1`.  The probe of the second insertion evaluates the record
at offset 1 at distance 0 and returns the zero point twice, `[(1, 0), (1, 0)]`; the probe of
the third returns `[(1, 0), (0, 2)]`.  The record with id 1 is never a candidate again and
ends with one short out-edge, fewer than the lower limit. -/
theorem short_edge_out_below_lower_limit :
    (add_all Euclidean2.distance Euclidean2.distance_to_zero gnu_read
      (Index.new Metric.Euclidean2 1 2 0 1 4 : Index Int)
      [(1, [1]), (2, [1]), (3, [1])]).map
      (fun index => (index.parameters.short_edge_lower_limit,
        index.parameters.termination_number,
        index.vectors.map fun v => (v.id, v.short_edge_out))) =
      some (2, 2, [(2 ^ 64 - 1, [(1, 1), (1, 2)]), (1, [(1, 0)]),
        (2, [(0, 3), (1, 0)]), (3, [(0, 2), (1, 0)])]) ∧
    ((add_all Euclidean2.distance Euclidean2.distance_to_zero gnu_read
      (Index.new Metric.Euclidean2 1 2 0 1 4 : Index Int) [(1, [1])]).bind fun index =>
      add_candidates Euclidean2.distance Euclidean2.distance_to_zero gnu_read index 2 [1]) =
      some [(1, 0), (1, 0)] ∧
    ((add_all Euclidean2.distance Euclidean2.distance_to_zero gnu_read
      (Index.new Metric.Euclidean2 1 2 0 1 4 : Index Int)
      [(1, [1]), (2, [1])]).bind fun index =>
      add_candidates Euclidean2.distance Euclidean2.distance_to_zero gnu_read index 3 [1]) =
      some [(1, 0), (0, 2)] := by
  refine ⟨?_, ?_, ?_⟩ <;> rfl

set_option maxRecDepth 100000 in
/-- C25, evaluated at the failing input: the probe for the target `(11)` on `line_two` as
allocated for a third record (termination number 1).  It evaluates the zero point at 121,
the record at offset 1 at distance 1 and the record at offset 2 at distance 100, and returns
the one candidate `(100, 2)`: the record at offset 1 is evaluated, left out, and strictly
closer than the candidate.  Phase three pops the pair `(1, 1)` and then reads
`processing_distance` and `processing_offset` through references that by then give the
next pair of the queue (lines 219-227). -/
theorem probe_harvest_shifted :
    add_all Euclidean2.distance Euclidean2.distance_to_zero gnu_read line_index
      [(1, [10]), (2, [1])] = some line_two ∧
    ((add_allocate line_two 3 [11]).bind fun allocated =>
      search_add Euclidean2.distance Euclidean2.distance_to_zero gnu_read allocated.1 [11]) =
      some ([(121, 0)], [(1, 1), (1, 1)], [(100, 2)]) ∧
    ((add_allocate line_two 3 [11]).bind fun allocated =>
      [0, 1, 2].mapM fun o =>
        probe_distance Euclidean2.distance Euclidean2.distance_to_zero allocated.1 [11] o) =
      some [121, 1, 100] ∧
    add_candidates Euclidean2.distance Euclidean2.distance_to_zero gnu_read line_two 3 [11] =
      some [(100, 2)] := by
  refine ⟨line_two_built, ?_, ?_, ?_⟩ <;> rfl

set_option maxRecDepth 100000 in
/-- C27, evaluated at the failing input: lower limit 1, magnification 2 (termination number
3), an upper limit holding 2, and the vectors `(3)`, `(1)`, `(2)` inserted under the ids 1,
2, 3.  The probe of the third insertion returns the zero point twice,
`[(4, 0), (4, 0), (1, 2)]`.  Before the call the zero point has the `s = 1` out-edge
`(9, 1)`, and `4 < 9`; both turns of the zero point erase `(9, 1)` and put it back, and
after the call the zero point has 3 out-edges, neither `s` nor `s + 1`. -/
theorem evicting_candidate_twice :
    ((add_all Euclidean2.distance Euclidean2.distance_to_zero gnu_read
      (Index.new Metric.Euclidean2 1 1 2 1 2 : Index Int) [(1, [3]), (2, [1])]).bind
      fun index =>
      (add_candidates Euclidean2.distance Euclidean2.distance_to_zero gnu_read index 3
        [2]).bind fun candidates =>
      (add Euclidean2.distance Euclidean2.distance_to_zero gnu_read index 3 [2]).map
        fun index1 => (index.parameters.short_edge_lower_limit, candidates,
          index.out_edges 0, index1.out_edges 0)) =
      some (1, [(4, 0), (4, 0), (1, 2)], [(9, 1)], [(4, 3), (4, 3), (9, 1)]) := by
  rfl

set_option maxRecDepth 100000 in
/-- C29, evaluated at the failing input: with the stale read of `gnu_read`, the probe of
`add(index, 2, (1))` on `line_one` returns the `short_path` `[(1, 0)]`, whose one entry has
the offset 0 of the zero point; and the probe of `add(index, 3, (11))` on `line_two` returns
`[(1, 1), (1, 1)]`, the same pair twice, so that the offsets are not pairwise different and
the second entry is not smaller than the first.  The test at line 207 reads
`processing_offset` from the storage the push at line 171 has freed, finds no offset of a
record there, and line 212 appends the top of the queue, whether or not it has changed. -/
theorem short_path_repeats :
    add_all Euclidean2.distance Euclidean2.distance_to_zero gnu_read line_index [(1, [10])] =
      some line_one ∧
    ((add_allocate line_one 2 [1]).bind fun allocated =>
      (search_add Euclidean2.distance Euclidean2.distance_to_zero gnu_read allocated.1
        [1]).map fun probe => probe.2.1) = some [(1, 0)] ∧
    add_all Euclidean2.distance Euclidean2.distance_to_zero gnu_read line_index
      [(1, [10]), (2, [1])] = some line_two ∧
    ((add_allocate line_two 3 [11]).bind fun allocated =>
      (search_add Euclidean2.distance Euclidean2.distance_to_zero gnu_read allocated.1
        [11]).map fun probe => probe.2.1) = some [(1, 1), (1, 1)] := by
  refine ⟨line_one_built, ?_, line_two_built, ?_⟩ <;> rfl

/-! ## The wiring of in-edges and out-edges -/

theorem has_out_out_insert {D : Type} [LinearOrder D] {index index1 : Index D} {i : Nat}
    {x : D × Nat} (h : index.update i (Vector.out_insert x) = some index1) (a b : Nat) :
    index1.has_out a b ↔ index.has_out a b ∨ (a = i ∧ b = x.2) :=
  update_lists_insert h (fun v => v.short_edge_out.map Prod.snd)
    (fun v y => mem_out_insert x v y) a b

theorem has_out_same {D : Type} {index index1 : Index D} {i : Nat} {f : Vector D → Vector D}
    (h : index.update i f = some index1)
    (hf : ∀ v, (f v).short_edge_out = v.short_edge_out) (a b : Nat) :
    index1.has_out a b ↔ index.has_out a b :=
  update_lists_same h (fun v => v.short_edge_out.map Prod.snd)
    (fun v => congrArg (List.map Prod.snd) (hf v)) a b

/-- Erasing the last out-edge of a record takes away no other out-edge. -/
theorem has_out_out_erase_last {D : Type} {index index1 : Index D} {i : Nat} {v : Vector D}
    {farest : D × Nat} (h : index.update i Vector.out_erase_last = some index1)
    (hv : index.vectors[i]? = some v) (hlast : v.short_edge_out.getLast? = some farest)
    (a b : Nat) :
    (index1.has_out a b → index.has_out a b) ∧
      (index.has_out a b → ¬ (a = i ∧ b = farest.2) → index1.has_out a b) := by
  unfold Index.has_out
  rw [update_lists h]
  have hsplit : v.short_edge_out.dropLast ++ [farest] = v.short_edge_out :=
    List.dropLast_append_getLast? farest hlast
  by_cases ha : a = i
  · rw [if_pos ha, ha]
    constructor
    · rintro ⟨w, hw, hb⟩
      rw [hv] at hw
      obtain rfl := Option.some.inj hw
      refine ⟨v, hv, ?_⟩
      obtain ⟨e, he, heb⟩ := List.mem_map.1 hb
      exact List.mem_map.2 ⟨e, List.mem_of_mem_dropLast he, heb⟩
    · rintro ⟨w, hw, hb⟩ hne
      rw [hv] at hw
      obtain rfl := Option.some.inj hw
      refine ⟨v, hv, ?_⟩
      obtain ⟨e, he, heb⟩ := List.mem_map.1 hb
      rw [← hsplit] at he
      rcases List.mem_append.1 he with he | he
      · exact List.mem_map.2 ⟨e, he, heb⟩
      · rw [List.mem_singleton.1 he] at heb
        exact absurd ⟨rfl, heb.symm⟩ hne
  · rw [if_neg ha]
    exact ⟨fun hab => hab, fun hab _ => hab⟩

/-- After `short_edge_in.erase(o)` on a duplicate-free set the offset is gone. -/
theorem has_in_in_erase_gone {D : Type} {index index1 : Index D} {i o : Nat}
    (h : index.update i (Vector.in_erase o) = some index1)
    (hnd : index.each (fun v => v.short_edge_in.Nodup)) : ¬ index1.has_in i o := by
  unfold Index.has_in
  rw [update_lists h, if_pos rfl]
  rintro ⟨v, hv, ho⟩
  exact ((hnd i v hv).mem_erase_iff.1 ho).1 rfl

theorem link_back_has_out {D : Type} [LinearOrder D] {index index1 : Index D}
    {offset neighbor_index neighbor_offset : Nat} {distance : D}
    (h : link_back index offset neighbor_index distance neighbor_offset = some index1)
    (a b : Nat) :
    index1.has_out a b ↔ index.has_out a b ∨ (a = neighbor_index ∧ b = offset) := by
  obtain ⟨i1, h1, h2⟩ := link_back_cases h
  rw [has_out_same h2 (fun _ => rfl), has_out_out_insert h1]

/-- What `protect` does to the listings: the in-edges stay, the out-edges gain at most the
edge put back, and the `keep_connected` sets gain at most the pair of the neighbour and the
far end. -/
theorem protect_listings {D : Type} [LinearOrder D] {index index1 : Index D}
    {neighbor_index farest_offset : Nat} {farest_distance : D}
    (h : protect index neighbor_index farest_distance farest_offset = some index1)
    (hoffs : ∀ (i : Nat) (v : Vector D), index.vectors[i]? = some v → v.offset = i)
    (a b : Nat) :
    (index1.has_out a b → index.has_out a b ∨ (a = neighbor_index ∧ b = farest_offset)) ∧
      (index.has_out a b → index1.has_out a b) ∧
      (index1.has_keep a b → index.has_keep a b ∨
        (a = neighbor_index ∧ b = farest_offset) ∨
          (a = farest_offset ∧ b = neighbor_index)) := by
  refine ⟨?_, fun hab => ((protect_grows h) a b).1 hab, ?_⟩
  · obtain ⟨neighbor, hn, hcase⟩ := protect_cases h
    rcases hcase with ⟨rfl, -⟩ | ⟨-, -, -, h1⟩ | ⟨-, -, -, i1, h1, h2⟩
    · exact fun hab => Or.inl hab
    · intro hab
      exact (has_out_out_insert h1 a b).1 hab
    · intro hab
      rw [has_out_same h2 (fun _ => rfl), has_out_same h1 (fun _ => rfl)] at hab
      exact Or.inl hab
  · obtain ⟨neighbor, hn, hcase⟩ := protect_cases h
    rcases hcase with ⟨rfl, -⟩ | ⟨-, -, -, h1⟩ | ⟨-, -, -, i1, h1, h2⟩
    · exact fun hab => Or.inl hab
    · intro hab
      rw [has_keep_same h1 (fun _ => rfl)] at hab
      exact Or.inl hab
    · have hno : neighbor.offset = neighbor_index := hoffs _ _ hn
      rw [hno] at h2
      intro hab
      unfold Index.has_keep at hab ⊢
      rw [update_lists_insert h2 _ (fun v y => mem_set_insert _ y v.keep_connected),
        update_lists_insert h1 _ (fun v y => mem_set_insert _ y v.keep_connected)] at hab
      tauto

theorem link_back_wired {D : Type} [LinearOrder D] {index index1 : Index D}
    {offset neighbor_index : Nat} {distance : D}
    (h : link_back index offset neighbor_index distance neighbor_index = some index1)
    (hne : neighbor_index ≠ offset) (hw : index.wired) : index1.wired := by
  obtain ⟨w1, w2, w3, w4⟩ := hw
  refine ⟨?_, link_back_each h in_nodup_stable w2, ?_, ?_⟩
  · intro a b hab
    rw [link_back_has_out h]
    rcases (link_back_has_in h a b).1 hab with hab | ⟨ha, hb⟩
    · exact Or.inl (w1 a b hab)
    · exact Or.inr ⟨hb, ha⟩
  · intro a haa
    rcases (link_back_has_out h a a).1 haa with haa | ⟨ha, hb⟩
    · exact w3 a haa
    · exact hne (ha.symm.trans hb)
  · intro a haa
    rw [link_back_has_keep h] at haa
    exact w4 a haa

theorem protect_wired {D : Type} [LinearOrder D] {index index1 : Index D}
    {neighbor_index farest_offset : Nat} {farest_distance : D}
    (h : protect index neighbor_index farest_distance farest_offset = some index1)
    (hoffs : ∀ (i : Nat) (v : Vector D), index.vectors[i]? = some v → v.offset = i)
    (hne : farest_offset ≠ neighbor_index) (hw : index.wired) : index1.wired := by
  obtain ⟨w1, w2, w3, w4⟩ := hw
  refine ⟨?_, protect_each h in_nodup_stable w2, ?_, ?_⟩
  · intro a b hab
    rw [protect_has_in h] at hab
    exact (protect_listings h hoffs b a).2.1 (w1 a b hab)
  · intro a haa
    rcases (protect_listings h hoffs a a).1 haa with haa | ⟨ha, hb⟩
    · exact w3 a haa
    · exact hne (hb.symm.trans ha)
  · intro a haa
    rcases (protect_listings h hoffs a a).2.2 haa with haa | ⟨ha, hb⟩ | ⟨ha, hb⟩
    · exact w4 a haa
    · exact hne (hb.symm.trans ha)
    · exact hne (ha.symm.trans hb)

/-- One turn of the binding loop keeps the wiring. -/
theorem bind_candidate_wired {D : Type} [LinearOrder D] {index index1 : Index D}
    {offset : Nat} {candidate : D × Nat}
    (h : bind_candidate index offset candidate = some index1)
    (hoffs : ∀ (i : Nat) (v : Vector D), index.vectors[i]? = some v → v.offset = i)
    (hne : candidate.2 ≠ offset) (hw : index.wired) : index1.wired := by
  obtain ⟨neighbor0, i1, i2, neighbor, hn0, h1, h2, hn2, hcase⟩ := bind_candidate_cases h
  obtain ⟨w1, w2, w3, w4⟩ := hw
  have hno0 : neighbor0.offset = candidate.2 := hoffs _ _ hn0
  rw [hno0] at h1
  have f2 : i2.frame = index.frame :=
    (update_frame h2 (fun _ => rfl)).trans (update_frame h1 (fun _ => rfl))
  have hno : neighbor.offset = candidate.2 := frame_offset f2 hoffs _ _ hn2
  rw [hno] at hcase
  have out2 : ∀ a b, i2.has_out a b ↔
      index.has_out a b ∨ (a = offset ∧ b = candidate.2) := by
    intro a b
    rw [has_out_same h2 (fun _ => rfl), has_out_out_insert h1]
  have in2 : ∀ a b, i2.has_in a b ↔
      index.has_in a b ∨ (a = candidate.2 ∧ b = offset) := by
    intro a b
    rw [has_in_in_insert h2, has_in_same h1 (fun _ => rfl)]
  have hw2 : i2.wired := by
    refine ⟨?_, update_each h2 (fun v hv => (in_nodup_stable v hv).2.2.1 _)
      (update_each h1 (fun v hv => (in_nodup_stable v hv).1 _) w2), ?_, ?_⟩
    · intro a b hab
      rw [out2]
      rcases (in2 a b).1 hab with hab | ⟨ha, hb⟩
      · exact Or.inl (w1 a b hab)
      · exact Or.inr ⟨hb, ha⟩
    · intro a haa
      rcases (out2 a a).1 haa with haa | ⟨ha, hb⟩
      · exact w3 a haa
      · exact hne (hb.symm.trans ha)
    · intro a haa
      rw [has_keep_same h2 (fun _ => rfl), has_keep_same h1 (fun _ => rfl)] at haa
      exact w4 a haa
  rcases hcase with ⟨-, hl⟩ | ⟨-, farest, hlast, ⟨-, i3, i4, i5, h3, h4, h5, hl⟩ | ⟨-, rfl⟩⟩
  · exact link_back_wired hl hne hw2
  · obtain ⟨v1, v2, v3, v4⟩ := hw2
    have hfar : i2.has_out candidate.2 farest.2 :=
      ⟨neighbor, hn2, List.mem_map.2 ⟨farest, List.mem_of_mem_getLast? hlast, rfl⟩⟩
    have hfne : farest.2 ≠ candidate.2 := by
      intro heq
      rw [heq] at hfar
      exact v3 _ hfar
    have n3 : i3.each (fun v => v.short_edge_in.Nodup) :=
      update_each h3 (fun v hv => (in_nodup_stable v hv).2.1) v2
    have f4 : i4.frame = index.frame :=
      (update_frame h4 (fun _ => rfl)).trans ((update_frame h3 (fun _ => rfl)).trans f2)
    have hw4 : i4.wired := by
      refine ⟨?_, update_each h4 (fun v hv => (in_nodup_stable v hv).2.2.2.1 _) n3, ?_, ?_⟩
      · intro a b hab
        have hgone : ¬ (b = candidate.2 ∧ a = farest.2) := by
          rintro ⟨hb, ha⟩
          rw [ha, hb] at hab
          exact has_in_in_erase_gone h4 n3 hab
        have hab2 : i2.has_in a b :=
          (has_in_same h3 (fun _ => rfl) a b).1 ((has_in_in_erase h4 a b).1 hab)
        rw [has_out_same h4 (fun _ => rfl)]
        exact (has_out_out_erase_last h3 hn2 hlast b a).2 (v1 a b hab2) hgone
      · intro a haa
        rw [has_out_same h4 (fun _ => rfl)] at haa
        exact v3 a ((has_out_out_erase_last h3 hn2 hlast a a).1 haa)
      · intro a haa
        rw [has_keep_same h4 (fun _ => rfl), has_keep_same h3 (fun _ => rfl)] at haa
        exact v4 a haa
    have hw5 := protect_wired h5 (frame_offset f4 hoffs) hfne hw4
    exact link_back_wired hl hne hw5
  · exact hw2

theorem bind_short_edges_wired {D : Type} [LinearOrder D] {offset : Nat}
    (nearest_neighbors : List (D × Nat)) {index index1 : Index D}
    (h : bind_short_edges index offset nearest_neighbors = some index1)
    (hoffs : ∀ (i : Nat) (v : Vector D), index.vectors[i]? = some v → v.offset = i)
    (hne : ∀ e ∈ nearest_neighbors, e.2 ≠ offset) (hw : index.wired) : index1.wired := by
  induction nearest_neighbors generalizing index with
  | nil =>
    unfold bind_short_edges at h
    rw [← Option.some.inj h]
    exact hw
  | cons c rest ih =>
    unfold bind_short_edges at h
    obtain ⟨i1, h1, h⟩ := Option.bind_eq_some.1 h
    exact ih h (frame_offset (bind_candidate_frame h1) hoffs)
      (fun e he => hne e (List.mem_cons_of_mem _ he))
      (bind_candidate_wired h1 hoffs (hne c (List.mem_cons_self _ _)) hw)

theorem add_wired {D : Type} [LinearOrder D] {similarity : List D → List D → Nat → D}
    {distance_to_zero : List D → Nat → D} {stale : Stale_Read D} {index index1 : Index D} {id : Nat}
    {data : List D} (hs : index.sound) (hw : index.wired)
    (h : add similarity distance_to_zero stale index id data = some index1) :
    index1.wired := by
  obtain ⟨alloc, probe, -, hav, -, -, hb, hpm⟩ := add_steps hs h
  obtain ⟨-, -, -, haoffs⟩ := append_new_facts hs hav
  obtain ⟨w1, w2, w3, w4⟩ := hw
  refine bind_short_edges_wired _ hb haoffs (fun e he => by have := hpm e he; omega) ?_
  refine ⟨?_, append_new_each hav List.nodup_nil w2, ?_, ?_⟩
  · intro a b hab
    unfold Index.has_in at hab
    unfold Index.has_out
    rw [append_new_lists hav _ rfl] at hab ⊢
    exact w1 a b hab
  · intro a haa
    unfold Index.has_out at haa
    rw [append_new_lists hav _ rfl] at haa
    exact w3 a haa
  · intro a haa
    unfold Index.has_keep at haa
    rw [append_new_lists hav _ rfl] at haa
    exact w4 a haa

theorem add_all_wired {D : Type} [LinearOrder D]
    {similarity : List D → List D → Nat → D} {distance_to_zero : List D → Nat → D}
    {stale : Stale_Read D}
    (entries : List (Nat × List D)) {index index1 : Index D} (hs : index.sound)
    (hlow : 1 ≤ index.parameters.short_edge_lower_limit) (hw : index.wired)
    (h : add_all similarity distance_to_zero stale index entries = some index1) :
    index1.wired := by
  induction entries generalizing index with
  | nil =>
    unfold add_all at h
    exact Option.some.inj h ▸ hw
  | cons e rest ih =>
    unfold add_all at h
    obtain ⟨i1, h1, h⟩ := Option.bind_eq_some.1 h
    have hlimit := add_limit_pos _ _ _ _ _ _ _ hs.1.1 h1
    obtain ⟨i1x, h1x, s1, -, p1, -, -⟩ :=
      add_spec similarity distance_to_zero stale index e.1 e.2 hs hlow hlimit
    rw [h1] at h1x
    obtain rfl := Option.some.inj h1x
    exact ih s1 (by rw [p1]; exact hlow) (add_wired hs hw h1) h

theorem wired_new {D : Type} [Zero D] (space : Metric) (dimension short_edge_lower_limit
    magnification cover_range indeterminate : Nat) :
    (Index.new space dimension short_edge_lower_limit magnification cover_range
      indeterminate : Index D).wired := by
  have hrec : ∀ (j : Nat) (v : Vector D),
      (Index.new space dimension short_edge_lower_limit magnification cover_range
        indeterminate : Index D).vectors[j]? = some v →
      v.short_edge_out = [] ∧ v.short_edge_in = [] ∧ v.keep_connected = [] := by
    intro j v hv
    cases j with
    | zero =>
      simp only [Index.new, List.getElem?_cons_zero, Option.some.injEq] at hv
      rw [← hv]
      exact ⟨rfl, rfl, rfl⟩
    | succ k => simp [Index.new] at hv
  refine ⟨?_, ?_, ?_, ?_⟩
  · rintro a b ⟨v, hv, hb⟩
    dsimp only at hb
    rw [(hrec a v hv).2.1] at hb
    exact absurd hb (List.not_mem_nil b)
  · intro j v hv
    rw [(hrec j v hv).2.1]
    exact List.nodup_nil
  · rintro a ⟨v, hv, hb⟩
    dsimp only at hb
    rw [(hrec a v hv).1, List.map_nil] at hb
    exact absurd hb (List.not_mem_nil a)
  · rintro a ⟨v, hv, hb⟩
    dsimp only at hb
    rw [(hrec a v hv).2.2] at hb
    exact absurd hb (List.not_mem_nil a)

/-- An index built by `add` calls on a fresh index is wired consistently. -/
theorem built_wired {D : Type} [LinearOrder D] [Zero D]
    (similarity : List D → List D → Nat → D) (distance_to_zero : List D → Nat → D)
    (stale : Stale_Read D)
    (space : Metric) (dimension short_edge_lower_limit magnification cover_range
      indeterminate : Nat) (entries : List (Nat × List D)) (index : Index D)
    (hbuilt : add_all similarity distance_to_zero stale
      (Index.new space dimension short_edge_lower_limit magnification cover_range indeterminate)
      entries = some index) :
    index.wired := by
  rcases built_parameters_pos similarity distance_to_zero stale space dimension
    short_edge_lower_limit magnification cover_range indeterminate entries index hbuilt with
    ⟨-, hidx⟩ | ⟨hlow, -⟩
  · rw [hidx]
    exact wired_new _ _ _ _ _ _
  · exact add_all_wired entries (sound_new _ _ _ _ _ _) hlow (wired_new _ _ _ _ _ _) hbuilt

/-! ## Claim C31 -/

set_option maxRecDepth 100000 in
/-- C32 as stated fails: with `short_edge_lower_limit = 2`, `magnification = 2^64 - 1` and
an upper limit holding 0, the sum that gives `termination_number` wraps around to 1, so that
`max(termination_number, short_edge_upper_limit + 1) = 1`; after the insertions of `(10)`
and `(-10)` under the ids 1 and 2 the record at offset 1 has 2 short out-edges. -/
theorem out_degree_above_ceiling :
    (add_all Euclidean2.distance Euclidean2.distance_to_zero gnu_read
      (Index.new Metric.Euclidean2 1 2 (2 ^ 64 - 1) 1 0 : Index Int)
      [(1, [10]), (2, [-10])]).map
      (fun index => (index.parameters.short_edge_lower_limit,
        index.parameters.termination_number, index.parameters.short_edge_upper_limit,
        index.vectors.map fun v => (v.id, v.short_edge_out))) =
      some (2, 1, 0, [(2 ^ 64 - 1, [(100, 1)]), (1, [(100, 0), (400, 2)]),
        (2, [(400, 1)])]) := by
  rfl

/-- C32, as amended: after any run of `add` calls on a fresh index with
`short_edge_lower_limit >= 1`, every record has at most
`max(termination_number, short_edge_lower_limit, short_edge_upper_limit + 1)` short
out-edges, which is the bound `max(termination_number, short_edge_upper_limit + 1)` when the
termination number is not below the lower limit or the lower limit is at most the upper
limit plus one; and a further `add` leaves every record with at least as many short
out-edges as it had. -/
theorem out_degree_ceiling_and_growth {D : Type} [LinearOrder D] [Zero D]
    (similarity : List D → List D → Nat → D) (distance_to_zero : List D → Nat → D)
    (stale : Stale_Read D)
    (space : Metric) (dimension short_edge_lower_limit magnification cover_range
      short_edge_upper_limit : Nat)
    (hlow : 1 ≤ short_edge_lower_limit)
    (entries : List (Nat × List D)) (index : Index D)
    (hbuilt : add_all similarity distance_to_zero stale
      (Index.new space dimension short_edge_lower_limit magnification cover_range
        short_edge_upper_limit) entries = some index) :
    (∀ v ∈ index.vectors, v.short_edge_out.length ≤
      max ((short_edge_lower_limit + magnification) % 2 ^ 64)
        (max short_edge_lower_limit (short_edge_upper_limit + 1))) ∧
    ((short_edge_lower_limit ≤ (short_edge_lower_limit + magnification) % 2 ^ 64 ∨
        short_edge_lower_limit ≤ short_edge_upper_limit + 1) →
      ∀ v ∈ index.vectors, v.short_edge_out.length ≤
        max ((short_edge_lower_limit + magnification) % 2 ^ 64)
          (short_edge_upper_limit + 1)) ∧
    ∀ (id : Nat) (data : List D) (index1 : Index D),
      add similarity distance_to_zero stale index id data = some index1 →
      ∀ (j : Nat) (v : Vector D), index.vectors[j]? = some v →
        ∃ v1, index1.vectors[j]? = some v1 ∧
          v.short_edge_out.length ≤ v1.short_edge_out.length := by
  obtain ⟨hs, hp⟩ := built_sound similarity distance_to_zero stale space dimension
    short_edge_lower_limit magnification cover_range short_edge_upper_limit entries index
    hbuilt
  have hceil : ∀ v ∈ index.vectors, v.short_edge_out.length ≤
      max ((short_edge_lower_limit + magnification) % 2 ^ 64)
        (max short_edge_lower_limit (short_edge_upper_limit + 1)) := by
    have hdeg := add_all_out_degree similarity distance_to_zero stale entries
      (Index.new space dimension short_edge_lower_limit magnification cover_range
        short_edge_upper_limit) index
      (max ((short_edge_lower_limit + magnification) % 2 ^ 64)
        (max short_edge_lower_limit (short_edge_upper_limit + 1)))
      (sound_new _ _ _ _ _ _) hlow (le_max_left _ _)
      (le_trans (le_max_left _ _) (le_max_right _ _))
      (le_trans (le_max_right _ _) (le_max_right _ _))
      (fun j => by
        cases j with
        | zero => simp [Index.out_degree, Index.new, Vector.new]
        | succ k => simp [Index.out_degree, Index.new])
      hbuilt
    intro v hv
    obtain ⟨j, hj⟩ := List.mem_iff_getElem?.1 hv
    have := hdeg j
    simpa [Index.out_degree, hj] using this
  refine ⟨hceil, ?_, ?_⟩
  · intro hcase v hv
    have := hceil v hv
    revert this hcase
    generalize (short_edge_lower_limit + magnification) % 2 ^ 64 = limit
    intro h1 h2
    omega
  · intro id data index1 h j v hj
    have hlow1 : 1 ≤ index.parameters.short_edge_lower_limit := by
      rw [hp]
      exact hlow
    have hlimit := add_limit_pos _ _ _ _ _ _ _ hs.1.1 h
    obtain ⟨i1x, h1x, -, hlen, -, -, hmono⟩ :=
      add_spec similarity distance_to_zero stale index id data hs hlow1 hlimit
    rw [h] at h1x
    obtain rfl := Option.some.inj h1x
    have hjlt : j < index.vectors.length := (List.getElem?_eq_some.1 hj).1
    have hjlt1 : j < index1.vectors.length := by omega
    refine ⟨index1.vectors[j], List.getElem?_eq_getElem hjlt1, ?_⟩
    have := (hmono j (by omega)).1
    unfold Index.out_degree at this
    rw [hj, List.getElem?_eq_getElem hjlt1] at this
    exact this

set_option maxRecDepth 100000 in
theorem wrap_two_built :
    add_all Euclidean2.distance Euclidean2.distance_to_zero gnu_read
      (Index.new Metric.Euclidean2 1 2 (2 ^ 64 - 1) 1 0 : Index Int)
      [(1, [10]), (2, [-10])] = some wrap_two := by
  rfl

/-- C32, witness: the amended bound on the index `wrap_two`, where it is
`max(1, 2, 0 + 1) = 2` and the record at offset 1 has 2 short out-edges. -/
theorem out_degree_ceiling_and_growth_witness :
    (1 ≤ 2 ∧
      add_all Euclidean2.distance Euclidean2.distance_to_zero gnu_read
        (Index.new Metric.Euclidean2 1 2 (2 ^ 64 - 1) 1 0 : Index Int)
        [(1, [10]), (2, [-10])] = some wrap_two) ∧
    (∀ v ∈ wrap_two.vectors, v.short_edge_out.length ≤
      max ((2 + (2 ^ 64 - 1)) % 2 ^ 64) (max 2 (0 + 1))) ∧
    ((2 ≤ (2 + (2 ^ 64 - 1)) % 2 ^ 64 ∨ 2 ≤ 0 + 1) →
      ∀ v ∈ wrap_two.vectors, v.short_edge_out.length ≤
        max ((2 + (2 ^ 64 - 1)) % 2 ^ 64) (0 + 1)) ∧
    ∀ (id : Nat) (data : List Int) (index1 : Index Int),
      add Euclidean2.distance Euclidean2.distance_to_zero gnu_read wrap_two id data = some index1 →
      ∀ (j : Nat) (v : Vector Int), wrap_two.vectors[j]? = some v →
        ∃ v1, index1.vectors[j]? = some v1 ∧
          v.short_edge_out.length ≤ v1.short_edge_out.length :=
  ⟨⟨by decide, wrap_two_built⟩,
    out_degree_ceiling_and_growth Euclidean2.distance Euclidean2.distance_to_zero gnu_read
      Metric.Euclidean2 1 2 (2 ^ 64 - 1) 1 0 (by decide) [(1, [10]), (2, [-10])] wrap_two
      wrap_two_built⟩

/-! ## Claim C33 -/

/-- C33: after any run of `add` calls on a fresh index, whatever the cover range, every
record, the zero point included, has empty `long_edge_out` and `long_edge_in`; and a
returned `add` on any index with an empty stack `empty` leaves the long edges of every
stored record as they were and appends a record without long edges. -/
theorem add_keeps_long_edges {D : Type} [LinearOrder D] [Zero D]
    (similarity : List D → List D → Nat → D) (distance_to_zero : List D → Nat → D)
    (stale : Stale_Read D)
    (space : Metric) (dimension short_edge_lower_limit magnification cover_range
      indeterminate : Nat)
    (entries : List (Nat × List D)) (index : Index D)
    (hbuilt : add_all similarity distance_to_zero stale
      (Index.new space dimension short_edge_lower_limit magnification cover_range indeterminate)
      entries = some index) :
    (∀ v ∈ index.vectors, v.long_edge_out = [] ∧ v.long_edge_in = []) ∧
    ∀ (other : Index D) (id : Nat) (data : List D) (index1 : Index D),
      other.empty = [] → add similarity distance_to_zero stale other id data = some index1 →
      index1.vectors.map (fun v => (v.long_edge_out, v.long_edge_in)) =
        other.vectors.map (fun v => (v.long_edge_out, v.long_edge_in)) ++ [([], [])] := by
  obtain ⟨hs, -⟩ := built_sound similarity distance_to_zero stale space dimension
    short_edge_lower_limit magnification cover_range indeterminate entries index hbuilt
  constructor
  · intro v hv
    obtain ⟨j, hj⟩ := List.getElem?_of_mem hv
    exact (hs.1.2.2.2 j v hj).2
  · intro other id data index1 hempty h
    have hf := congrArg Prod.fst (add_frame hempty h)
    have hcore : index1.vectors.map Vector.core =
        other.vectors.map Vector.core ++ [(Vector.new id other.count data).core] := hf
    have hm := congrArg (List.map fun c : Nat × Nat × List D × List (D × Nat) × List (Nat × D) =>
      (c.2.2.2.1, c.2.2.2.2)) hcore
    rw [List.map_append, List.map_map, List.map_map] at hm
    exact hm

/-- C33, witness: the index `line_three`, built with cover range 1; the probe of its third
insertion returned a `short_path` of two entries. -/
theorem add_keeps_long_edges_witness :
    add_all Euclidean2.distance Euclidean2.distance_to_zero gnu_read
      (Index.new Metric.Euclidean2 1 1 0 1 2 : Index Int) [(1, [10]), (2, [1]), (3, [11])] =
      some line_three ∧
    (∀ v ∈ line_three.vectors, v.long_edge_out = [] ∧ v.long_edge_in = []) ∧
    ∀ (other : Index Int) (id : Nat) (data : List Int) (index1 : Index Int),
      other.empty = [] →
      add Euclidean2.distance Euclidean2.distance_to_zero gnu_read other id data = some index1 →
      index1.vectors.map (fun v => (v.long_edge_out, v.long_edge_in)) =
        other.vectors.map (fun v => (v.long_edge_out, v.long_edge_in)) ++ [([], [])] :=
  ⟨line_three_built,
    add_keeps_long_edges Euclidean2.distance Euclidean2.distance_to_zero gnu_read
      Metric.Euclidean2 1 1 0 1 2 [(1, [10]), (2, [1]), (3, [11])] line_three
      line_three_built⟩

/-! ## Claim C34 -/

/-- C34: after any run of `add` calls on a fresh index the stack `empty` holds nothing,
`count` is the number of records, every record sits at its own offset, and every offset
stored in `short_edge_out`, `short_edge_in` or `keep_connected` of a record is below the
number of records and differs from the offset of that record. -/
theorem built_well_formed {D : Type} [LinearOrder D] [Zero D]
    (similarity : List D → List D → Nat → D) (distance_to_zero : List D → Nat → D)
    (stale : Stale_Read D)
    (space : Metric) (dimension short_edge_lower_limit magnification cover_range
      indeterminate : Nat)
    (entries : List (Nat × List D)) (index : Index D)
    (hbuilt : add_all similarity distance_to_zero stale
      (Index.new space dimension short_edge_lower_limit magnification cover_range indeterminate)
      entries = some index) :
    index.empty = [] ∧ index.count = index.vectors.length ∧
    ∀ (i : Nat) (v : Vector D), index.vectors[i]? = some v →
      v.offset = i ∧
      (∀ e ∈ v.short_edge_out, e.2 < index.vectors.length ∧ e.2 ≠ v.offset) ∧
      (∀ o ∈ v.short_edge_in, o < index.vectors.length ∧ o ≠ v.offset) ∧
      ∀ o ∈ v.keep_connected, o < index.vectors.length ∧ o ≠ v.offset := by
  obtain ⟨hs, -⟩ := built_sound similarity distance_to_zero stale space dimension
    short_edge_lower_limit magnification cover_range indeterminate entries index hbuilt
  obtain ⟨w1, -, w3, w4⟩ := built_wired similarity distance_to_zero stale space dimension
    short_edge_lower_limit magnification cover_range indeterminate entries index hbuilt
  refine ⟨hs.1.1, hs.1.2.1, ?_⟩
  intro i v hv
  have hoff : v.offset = i := (hs.1.2.2.2 i v hv).1
  obtain ⟨b1, b2, b3⟩ := hs.2 i v hv
  rw [hoff]
  refine ⟨rfl, ?_, ?_, ?_⟩
  · intro e he
    refine ⟨b1 e he, fun heq => w3 i ⟨v, hv, List.mem_map.2 ⟨e, he, heq⟩⟩⟩
  · intro o ho
    refine ⟨b2 o ho, fun heq => ?_⟩
    rw [heq] at ho
    exact w3 i (w1 i i ⟨v, hv, ho⟩)
  · intro o ho
    refine ⟨b3 o ho, fun heq => ?_⟩
    rw [heq] at ho
    exact w4 i ⟨v, hv, ho⟩

/-- C34, witness: the index `reserve_index`, built with an upper limit holding 0, where the
zero point and the record at offset 2 hold each other in `keep_connected`. -/
theorem built_well_formed_witness :
    add_all Euclidean2.distance Euclidean2.distance_to_zero gnu_read
      (Index.new Metric.Euclidean2 1 1 0 1 0 : Index Int) [(1, [1]), (2, [3]), (3, [2])] =
      some reserve_index ∧
    reserve_index.empty = [] ∧ reserve_index.count = reserve_index.vectors.length ∧
    ∀ (i : Nat) (v : Vector Int), reserve_index.vectors[i]? = some v →
      v.offset = i ∧
      (∀ e ∈ v.short_edge_out, e.2 < reserve_index.vectors.length ∧ e.2 ≠ v.offset) ∧
      (∀ o ∈ v.short_edge_in, o < reserve_index.vectors.length ∧ o ≠ v.offset) ∧
      ∀ o ∈ v.keep_connected, o < reserve_index.vectors.length ∧ o ≠ v.offset :=
  ⟨reserve_index_built,
    built_well_formed Euclidean2.distance Euclidean2.distance_to_zero gnu_read
      Metric.Euclidean2 1 1 0 1 0 [(1, [1]), (2, [3]), (3, [2])] reserve_index
      reserve_index_built⟩

/-! ## Claim C37 -/

set_option maxRecDepth 100000 in
/-- C37, evaluated at the failing input: the constructor leaves `short_edge_upper_limit` with
whatever value the member holds, so two indexes constructed with the same arguments
(Euclidean², dimension 1, lower limit 1, magnification 0, cover range 1) may hold the
ceilings 0 and 2; the ceiling 0 is below the lower limit 1; and the same three insertions
`stranded_entries` give two different graphs.  The third insertion reaches line 410, where
the ceiling 0 leads to the `keep_connected` pair of `reserve_index` and the ceiling 2 to the
out-edge put back in `stranded_index`. -/
theorem upper_limit_not_derived :
    (∀ (space : Metric) (dimension short_edge_lower_limit magnification cover_range
        indeterminate : Nat),
      (Index.new space dimension short_edge_lower_limit magnification cover_range
        indeterminate : Index Int).parameters.short_edge_upper_limit = indeterminate) ∧
    (Index.new Metric.Euclidean2 1 1 0 1 0 : Index Int).parameters.short_edge_upper_limit ≠
      (Index.new Metric.Euclidean2 1 1 0 1 2 : Index Int).parameters.short_edge_upper_limit ∧
    (Index.new Metric.Euclidean2 1 1 0 1 0 : Index Int).parameters.short_edge_upper_limit <
      (Index.new Metric.Euclidean2 1 1 0 1 0 : Index Int).parameters.short_edge_lower_limit ∧
    add_all Euclidean2.distance Euclidean2.distance_to_zero gnu_read
      (Index.new Metric.Euclidean2 1 1 0 1 0 : Index Int) stranded_entries =
      some reserve_index ∧
    add_all Euclidean2.distance Euclidean2.distance_to_zero gnu_read
      (Index.new Metric.Euclidean2 1 1 0 1 2 : Index Int) stranded_entries =
      some stranded_index ∧
    (reserve_index.vectors.map fun v => (v.short_edge_out, v.keep_connected)) ≠
      stranded_index.vectors.map fun v => (v.short_edge_out, v.keep_connected) :=
  ⟨fun _ _ _ _ _ _ => rfl, by decide, by decide, reserve_index_built, stranded_index_built,
    by decide⟩

/-! ## Claim C38 -/

/-- The marking loop of `connected` keeps every mark and marks every offset of its list. -/
theorem connected_mark_marks (offsets : List Nat) (visited : List Bool) (next : List Nat)
    (state : List Bool × List Nat)
    (h : connected_mark offsets (visited, next) = some state) :
    (∀ t : Nat, visited[t]? = some true → state.1[t]? = some true) ∧
      ∀ t ∈ offsets, state.1[t]? = some true := by
  induction offsets generalizing visited next with
  | nil =>
    unfold connected_mark at h
    rw [← Option.some.inj h]
    exact ⟨fun t ht => ht, fun t ht => absurd ht (List.not_mem_nil t)⟩
  | cons o rest ih =>
    unfold connected_mark at h
    split at h
    · exact absurd h (by simp)
    · next hvo =>
      obtain ⟨k1, k2⟩ := ih visited next h
      refine ⟨k1, fun t ht => ?_⟩
      rcases List.mem_cons.1 ht with ht | ht
      · rw [ht]
        exact k1 o hvo
      · exact k2 t ht
    · next hvo =>
      obtain ⟨k1, k2⟩ := ih _ _ h
      have holt : o < visited.length := (List.getElem?_eq_some.1 hvo).1
      have hset : ∀ t : Nat, visited[t]? = some true →
          (visited.set o true)[t]? = some true := by
        intro t ht
        by_cases hto : t = o
        · rw [hto, List.getElem?_set_self holt]
        · rw [List.getElem?_set_ne (Ne.symm hto)]
          exact ht
      refine ⟨fun t ht => k1 t (hset t ht), fun t ht => ?_⟩
      rcases List.mem_cons.1 ht with ht | ht
      · rw [ht]
        exact k1 o (List.getElem?_set_self holt)
      · exact k2 t ht

theorem connected_round_marks {D : Type} (index : Index D) (last : List Nat)
    (state state1 : List Bool × List Nat)
    (h : connected_round index last state = some state1) :
    (∀ t : Nat, state.1[t]? = some true → state1.1[t]? = some true) ∧
      ∀ i ∈ last, ∀ r, index.vectors[i]? = some r → ∀ t,
        (t ∈ r.short_edge_in ∨ t ∈ r.short_edge_out.map Prod.snd ∨ t ∈ r.keep_connected) →
        state1.1[t]? = some true := by
  induction last generalizing state with
  | nil =>
    unfold connected_round at h
    rw [← Option.some.inj h]
    exact ⟨fun t ht => ht, fun i hi => absurd hi (List.not_mem_nil i)⟩
  | cons i rest ih =>
    unfold connected_round at h
    split at h
    · exact absurd h (by simp)
    · next r hr =>
      obtain ⟨s1, e1, h⟩ := Option.bind_eq_some.1 h
      obtain ⟨s2, e2, h⟩ := Option.bind_eq_some.1 h
      obtain ⟨s3, e3, h⟩ := Option.bind_eq_some.1 h
      obtain ⟨a1, b1⟩ := connected_mark_marks _ state.1 state.2 s1 e1
      obtain ⟨a2, b2⟩ := connected_mark_marks _ s1.1 s1.2 s2 e2
      obtain ⟨a3, b3⟩ := connected_mark_marks _ s2.1 s2.2 s3 e3
      obtain ⟨a4, b4⟩ := ih s3 h
      refine ⟨fun t ht => a4 t (a3 t (a2 t (a1 t ht))), fun j hj w hw t ht => ?_⟩
      rcases List.mem_cons.1 hj with hj | hj
      · rw [hj, hr] at hw
        obtain rfl := Option.some.inj hw
        rcases ht with ht | ht | ht
        · exact a4 t (a3 t (a2 t (b1 t ht)))
        · exact a4 t (a3 t (b2 t ht))
        · exact a4 t (b3 t ht)
      · exact b4 j hj w hw t ht

theorem connected_rounds_marks {D : Type} (index : Index D) (last : List Nat) (rounds : Nat)
    (state state1 : List Bool × List Nat)
    (h : connected_rounds index last rounds state = some state1) :
    (∀ t : Nat, state.1[t]? = some true → state1.1[t]? = some true) ∧
      (0 < rounds → ∀ i ∈ last, ∀ r, index.vectors[i]? = some r → ∀ t,
        (t ∈ r.short_edge_in ∨ t ∈ r.short_edge_out.map Prod.snd ∨ t ∈ r.keep_connected) →
        state1.1[t]? = some true) := by
  induction rounds generalizing state with
  | zero =>
    unfold connected_rounds at h
    rw [← Option.some.inj h]
    exact ⟨fun t ht => ht, fun hpos => absurd hpos (lt_irrefl 0)⟩
  | succ k ih =>
    unfold connected_rounds at h
    obtain ⟨s1, e1, h⟩ := Option.bind_eq_some.1 h
    obtain ⟨a1, b1⟩ := connected_round_marks index last state s1 e1
    obtain ⟨a2, -⟩ := ih s1 h
    exact ⟨fun t ht => a2 t (a1 t ht), fun _ i hi r hr t ht => a2 t (b1 i hi r hr t ht)⟩

/-- C38: on an index whose records sit at their own offsets and whose stored short-edge and
`keep_connected` offsets are below the number of records, `connected(index, v, t)` for a
record `v` of the index returns true exactly when `t` is the offset of `v` or is stored in
`short_edge_in`, `short_edge_out` or `keep_connected` of `v` itself, and it returns
whenever `t` is below the number of records. -/
theorem connected_one_hop {D : Type} (index : Index D)
    (hoffs : ∀ (i : Nat) (v : Vector D), index.vectors[i]? = some v → v.offset = i)
    (hidx : index.edges_below index.vectors.length)
    (vector : Vector D) (hv : vector ∈ index.vectors) (t : Nat) :
    (connected index vector t = some true ↔
      t = vector.offset ∨ t ∈ vector.short_edge_in ∨
        t ∈ vector.short_edge_out.map Prod.snd ∨ t ∈ vector.keep_connected) ∧
    (t < index.vectors.length → ∃ b, connected index vector t = some b) := by
  obtain ⟨i, hi⟩ := List.getElem?_of_mem hv
  have hio : vector.offset = i := hoffs i vector hi
  have hilt : i < index.vectors.length := (List.getElem?_eq_some.1 hi).1
  have hself : index.vectors[vector.offset]? = some vector := by
    rw [hio]
    exact hi
  refine ⟨⟨fun h => ?_, fun h => ?_⟩, fun ht => ?_⟩
  · rcases connected_true index vector t hself h with h0 | ⟨w, hw, hm⟩ | ⟨w, hw, hm⟩ |
      ⟨w, hw, hm⟩
    · exact Or.inl h0
    · rw [hself] at hw
      obtain rfl := Option.some.inj hw
      exact Or.inr (Or.inl hm)
    · rw [hself] at hw
      obtain rfl := Option.some.inj hw
      exact Or.inr (Or.inr (Or.inl hm))
    · rw [hself] at hw
      obtain rfl := Option.some.inj hw
      exact Or.inr (Or.inr (Or.inr hm))
  · have hlen : ((List.replicate index.vectors.length false).set vector.offset true).length =
        index.vectors.length := by simp
    have hlast : ∀ j ∈ set_insert vector.offset [], j < index.vectors.length := by
      intro j hj
      rcases (mem_set_insert _ _ _).1 hj with h1 | h1
      · omega
      · exact absurd h1 (List.not_mem_nil j)
    obtain ⟨s1, e1, -⟩ := connected_rounds_spec index hidx (set_insert vector.offset []) hlast
      4 ((List.replicate index.vectors.length false).set vector.offset true, []) hlen
    obtain ⟨a1, b1⟩ := connected_rounds_marks index _ 4 _ s1 e1
    have hmark : s1.1[t]? = some true := by
      rcases h with h | h
      · refine a1 t ?_
        rw [h]
        exact List.getElem?_set_self (by rw [List.length_replicate]; omega)
      · exact b1 (by decide) vector.offset
          ((mem_set_insert _ _ _).2 (Or.inl rfl)) vector hself t
          (by
            rcases h with h | h | h
            · exact Or.inl h
            · exact Or.inr (Or.inl h)
            · exact Or.inr (Or.inr h))
    unfold connected
    simp only
    rw [if_pos (by rw [List.length_replicate]; omega), e1]
    exact hmark
  · exact connected_spec index hidx vector (by omega) t ht

/-- C38, witness: in `stranded_index` the record at offset 3 lists only the offset 2, and
the offset 0 lies two hops away. -/
theorem connected_one_hop_witness :
    ((∀ (i : Nat) (v : Vector Int), stranded_index.vectors[i]? = some v → v.offset = i) ∧
      stranded_index.edges_below stranded_index.vectors.length ∧
      ({ id := 3, offset := 3, data := [2], short_edge_out := [(1, 2)],
         short_edge_in := [2], long_edge_out := [], long_edge_in := [],
         keep_connected := [] } : Vector Int) ∈ stranded_index.vectors) ∧
    (connected stranded_index
        { id := 3, offset := 3, data := [2], short_edge_out := [(1, 2)],
          short_edge_in := [2], long_edge_out := [], long_edge_in := [],
          keep_connected := [] } 0 = some true ↔
      0 = 3 ∨ 0 ∈ [2] ∨ 0 ∈ [((1 : Int), 2)].map Prod.snd ∨ 0 ∈ ([] : List Nat)) ∧
    (0 < stranded_index.vectors.length →
      ∃ b, connected stranded_index
        { id := 3, offset := 3, data := [2], short_edge_out := [(1, 2)],
          short_edge_in := [2], long_edge_out := [], long_edge_in := [],
          keep_connected := [] } 0 = some b) :=
  ⟨⟨fun i v hv => ((built_sound Euclidean2.distance Euclidean2.distance_to_zero gnu_read
        Metric.Euclidean2 1 1 0 1 2 stranded_entries stranded_index
        stranded_index_built).1.1.2.2.2 i v hv).1,
      (built_sound Euclidean2.distance Euclidean2.distance_to_zero gnu_read
        Metric.Euclidean2 1 1 0 1 2 stranded_entries stranded_index
        stranded_index_built).1.2,
      by decide⟩,
    connected_one_hop stranded_index
      (fun i v hv => ((built_sound Euclidean2.distance Euclidean2.distance_to_zero gnu_read
        Metric.Euclidean2 1 1 0 1 2 stranded_entries stranded_index
        stranded_index_built).1.1.2.2.2 i v hv).1)
      (built_sound Euclidean2.distance Euclidean2.distance_to_zero gnu_read
        Metric.Euclidean2 1 1 0 1 2 stranded_entries stranded_index
        stranded_index_built).1.2
      { id := 3, offset := 3, data := [2], short_edge_out := [(1, 2)],
        short_edge_in := [2], long_edge_out := [], long_edge_in := [],
        keep_connected := [] } (by decide) 0⟩

/-! ## The query of `ehnsw.h`: claims C35 and C36 -/

/-- C35: `ehnsw::query` makes its two checks before anything else.  On an index without
stored vectors it throws `std::logic_error`; on an index with stored vectors and a query
vector whose length differs from that of the first stored vector it throws
`std::invalid_argument`; and it throws in no other case.  The index is a `const` reference
of the function, which has no effect on it. -/
theorem query_rejects_bad_input {D : Type} [LinearOrder D]
    (distance_calculation : List D → List D → D) (index : ehnsw.Index D)
    (query_vector : List D) (top_k relaxed_monotonicity : Nat) :
    (index.vectors = [] →
      ehnsw.query distance_calculation index query_vector top_k relaxed_monotonicity =
        some (Except.error ehnsw.Exception.logic_error)) ∧
    (∀ first rest, index.vectors = first :: rest →
      query_vector.length ≠ first.data.length →
      ehnsw.query distance_calculation index query_vector top_k relaxed_monotonicity =
        some (Except.error ehnsw.Exception.invalid_argument)) ∧
    ∀ e, ehnsw.query distance_calculation index query_vector top_k relaxed_monotonicity =
        some (Except.error e) →
      (index.vectors = [] ∧ e = ehnsw.Exception.logic_error) ∨
        ∃ first rest, index.vectors = first :: rest ∧
          query_vector.length ≠ first.data.length ∧
          e = ehnsw.Exception.invalid_argument := by
  have hmap : ∀ (x : Option (List (D × Nat))) (e : ehnsw.Exception),
      x.map Except.ok ≠ some (Except.error e) := by
    intro x e hx
    cases x with
    | none => simp at hx
    | some a => simp at hx
  refine ⟨?_, ?_, ?_⟩
  · intro hv
    unfold ehnsw.query
    rw [hv]
  · intro first rest hv hne
    unfold ehnsw.query
    rw [hv]
    simp only
    rw [if_pos hne]
  · intro e h
    unfold ehnsw.query at h
    cases hv : index.vectors with
    | nil =>
      rw [hv] at h
      simp only [Option.some.injEq, Except.error.injEq] at h
      exact Or.inl ⟨rfl, h.symm⟩
    | cons first rest =>
      rw [hv] at h
      simp only at h
      right
      refine ⟨first, rest, rfl, ?_⟩
      split at h
      · rename_i hne
        simp only [Option.some.injEq, Except.error.injEq] at h
        exact ⟨hne, h.symm⟩
      · exfalso
        split at h
        · exact hmap _ _ h
        · split at h
          · obtain ⟨start, -, h⟩ := Option.bind_eq_some.1 h
            exact hmap _ _ h
          · obtain ⟨start, -, h⟩ := Option.bind_eq_some.1 h
            obtain ⟨result, -, h⟩ := Option.bind_eq_some.1 h
            obtain ⟨result1, -, h⟩ := Option.bind_eq_some.1 h
            split at h
            · exact absurd h (by simp)
            · exact hmap _ _ h

theorem map_insert_mem {D : Type} [LinearOrder D] (x y : D × Nat) (m : List (D × Nat))
    (h : y ∈ ehnsw.map_insert x m) : y = x ∨ y ∈ m := by
  induction m with
  | nil =>
    unfold ehnsw.map_insert at h
    exact Or.inl (List.mem_singleton.1 h)
  | cons z zs ih =>
    unfold ehnsw.map_insert at h
    split at h
    · exact List.mem_cons.1 h
    · split at h
      · rcases List.mem_cons.1 h with h | h
        · exact Or.inr (h ▸ List.mem_cons_self _ _)
        · rcases ih h with h | h
          · exact Or.inl h
          · exact Or.inr (List.mem_cons_of_mem _ h)
      · exact Or.inr h

/-- A map loses no entry by an insertion. -/
theorem map_insert_keeps {D : Type} [LinearOrder D] (x y : D × Nat) (m : List (D × Nat))
    (h : y ∈ m) : y ∈ ehnsw.map_insert x m := by
  induction m with
  | nil => exact absurd h (List.not_mem_nil y)
  | cons z zs ih =>
    unfold ehnsw.map_insert
    split
    · exact List.mem_cons_of_mem _ h
    · split
      · rcases List.mem_cons.1 h with h | h
        · exact h ▸ List.mem_cons_self _ _
        · exact List.mem_cons_of_mem _ (ih h)
      · exact h

/-- After an insertion the map has an entry with the key of the inserted pair. -/
theorem map_insert_key {D : Type} [LinearOrder D] (x : D × Nat) (m : List (D × Nat)) :
    x.1 ∈ (ehnsw.map_insert x m).map Prod.fst := by
  induction m with
  | nil =>
    unfold ehnsw.map_insert
    exact List.mem_map.2 ⟨x, List.mem_singleton_self x, rfl⟩
  | cons z zs ih =>
    unfold ehnsw.map_insert
    split
    · exact List.mem_map.2 ⟨x, List.mem_cons_self _ _, rfl⟩
    · rename_i h1
      split
      · rw [List.map_cons]
        exact List.mem_cons_of_mem _ ih
      · rename_i h2
        rw [List.map_cons, le_antisymm (not_lt.1 h2) (not_lt.1 h1)]
        exact List.mem_cons_self _ _

/-- An insertion keeps the keys of a map in strictly ascending order. -/
theorem map_insert_sorted {D : Type} [LinearOrder D] (x : D × Nat) (m : List (D × Nat))
    (h : m.Pairwise (fun a b => a.1 < b.1)) :
    (ehnsw.map_insert x m).Pairwise (fun a b => a.1 < b.1) := by
  induction m with
  | nil =>
    unfold ehnsw.map_insert
    exact List.pairwise_singleton _ x
  | cons z zs ih =>
    obtain ⟨hz, hzs⟩ := List.pairwise_cons.1 h
    unfold ehnsw.map_insert
    split
    · rename_i h1
      refine List.pairwise_cons.2 ⟨fun w hw => ?_, h⟩
      rcases List.mem_cons.1 hw with hw | hw
      · rw [hw]
        exact h1
      · exact lt_trans h1 (hz w hw)
    · split
      · rename_i h2
        refine List.pairwise_cons.2 ⟨fun w hw => ?_, ih hzs⟩
        rcases map_insert_mem x w zs hw with hw | hw
        · rw [hw]
          exact h2
        · exact hz w hw
      · exact h

/-- The scanning loop loses no entry of the map it starts with. -/
theorem scan_keeps {D : Type} [LinearOrder D] (distance_calculation : List D → List D → D)
    (index : ehnsw.Index D) (query_vector : List D) :
    ∀ (offsets : List Nat) (result r : List (D × Nat)),
      ehnsw.scan distance_calculation index query_vector offsets result = some r →
      ∀ e ∈ result, e ∈ r := by
  intro offsets
  induction offsets with
  | nil =>
    intro result r hr e he
    unfold ehnsw.scan at hr
    rw [← Option.some.inj hr]
    exact he
  | cons o rest ih =>
    intro result r hr e he
    unfold ehnsw.scan at hr
    split at hr
    · exact absurd hr (by simp)
    · exact ih _ r hr e (map_insert_keeps _ _ _ he)

/-- The scanning loop over offsets of stored vectors returns a map with ascending keys in
which every entry pairs an offset with the distance of its vector, and in which the distance
of every scanned vector is a key. -/
theorem scan_spec {D : Type} [LinearOrder D] (distance_calculation : List D → List D → D)
    (index : ehnsw.Index D) (query_vector : List D) :
    ∀ (offsets : List Nat) (result : List (D × Nat)),
      (∀ o ∈ offsets, o < index.vectors.length) →
      result.Pairwise (fun a b => a.1 < b.1) →
      (∀ e ∈ result, ∃ v, index.vectors[e.2]? = some v ∧
        e.1 = distance_calculation query_vector v.data) →
      ∃ r, ehnsw.scan distance_calculation index query_vector offsets result = some r ∧
        r.Pairwise (fun a b => a.1 < b.1) ∧
        (∀ e ∈ r, ∃ v, index.vectors[e.2]? = some v ∧
          e.1 = distance_calculation query_vector v.data) ∧
        (∀ e ∈ r, e ∈ result ∨ e.2 ∈ offsets) ∧
        ∀ o ∈ offsets, ∀ v, index.vectors[o]? = some v →
          distance_calculation query_vector v.data ∈ r.map Prod.fst := by
  intro offsets
  induction offsets with
  | nil =>
    intro result _ hsorted hpairs
    exact ⟨result, rfl, hsorted, hpairs, fun e he => Or.inl he,
      fun o ho => absurd ho (List.not_mem_nil o)⟩
  | cons o rest ih =>
    intro result hrange hsorted hpairs
    have holt : o < index.vectors.length := hrange o (List.mem_cons_self _ _)
    have hget : index.vectors[o]? = some index.vectors[o] := List.getElem?_eq_getElem holt
    obtain ⟨r, hr, s1, p1, m1, k1⟩ := ih
      (ehnsw.map_insert (distance_calculation query_vector index.vectors[o].data, o) result)
      (fun x hx => hrange x (List.mem_cons_of_mem _ hx))
      (map_insert_sorted _ _ hsorted)
      (fun e he => by
        rcases map_insert_mem _ _ _ he with he | he
        · rw [he]
          exact ⟨index.vectors[o], hget, rfl⟩
        · exact hpairs e he)
    have hkeep : ∀ e ∈ ehnsw.map_insert
        (distance_calculation query_vector index.vectors[o].data, o) result, e ∈ r :=
      scan_keeps distance_calculation index query_vector rest _ r hr
    refine ⟨r, ?_, s1, p1, ?_, ?_⟩
    · unfold ehnsw.scan
      rw [hget]
      exact hr
    · intro e he
      rcases m1 e he with h1 | h1
      · rcases map_insert_mem _ _ _ h1 with h2 | h2
        · rw [h2]
          exact Or.inr (List.mem_cons_self _ _)
        · exact Or.inl h2
      · exact Or.inr (List.mem_cons_of_mem _ h1)
    · intro x hx v hv
      rcases List.mem_cons.1 hx with hx | hx
      · rw [hx, hget] at hv
        rw [← Option.some.inj hv]
        obtain ⟨e, he, hek⟩ := List.mem_map.1 (map_insert_key
          (distance_calculation query_vector index.vectors[o].data, o) result)
        exact List.mem_map.2 ⟨e, hkeep e he, hek⟩
      · exact k1 x hx v hv

/-- C36, what the code does in place of the claim: in the brute-force branch of
`ehnsw::query` (lines 361-371), taken when `top_k` exceeds the number of stored vectors, the
query returns a map with ascending keys; every entry pairs the offset of a stored vector
with the distance of that vector to the query; the distance of every stored vector is a key
of the map; when the stored vectors have pairwise different distances to the query every
offset has its entry; and of two stored vectors with the same distance to the query only one
has an entry, so the result does not hold one entry for each stored vector. -/
theorem query_brute_force_one_per_distance {D : Type} [LinearOrder D]
    (distance_calculation : List D → List D → D) (index : ehnsw.Index D)
    (query_vector : List D) (top_k relaxed_monotonicity : Nat)
    (first : ehnsw.Vector D) (rest : List (ehnsw.Vector D))
    (hv : index.vectors = first :: rest) (hq : query_vector.length = first.data.length)
    (hk : index.vectors.length < top_k) :
    ∃ result,
      ehnsw.query distance_calculation index query_vector top_k relaxed_monotonicity =
        some (Except.ok result) ∧
      result.Pairwise (fun a b => a.1 < b.1) ∧
      (∀ e ∈ result, ∃ v, index.vectors[e.2]? = some v ∧
        e.1 = distance_calculation query_vector v.data) ∧
      (∀ (o : Nat) (v : ehnsw.Vector D), index.vectors[o]? = some v →
        distance_calculation query_vector v.data ∈ result.map Prod.fst) ∧
      ((index.vectors.map fun v => distance_calculation query_vector v.data).Nodup →
        ∀ (o : Nat) (v : ehnsw.Vector D), index.vectors[o]? = some v →
          (distance_calculation query_vector v.data, o) ∈ result) ∧
      ∀ (o1 o2 : Nat) (v1 v2 : ehnsw.Vector D), o1 ≠ o2 →
        index.vectors[o1]? = some v1 → index.vectors[o2]? = some v2 →
        distance_calculation query_vector v1.data =
          distance_calculation query_vector v2.data →
        ¬ (o1 ∈ result.map Prod.snd ∧ o2 ∈ result.map Prod.snd) := by
  obtain ⟨r, hr, hsorted, hpairs, -, hkeys⟩ := scan_spec distance_calculation index
    query_vector (List.range index.vectors.length) []
    (fun o ho => List.mem_range.1 ho) List.Pairwise.nil
    (fun e he => absurd he (List.not_mem_nil e))
  have hall : ∀ (o : Nat) (v : ehnsw.Vector D), index.vectors[o]? = some v →
      distance_calculation query_vector v.data ∈ r.map Prod.fst :=
    fun o v ho => hkeys o (List.mem_range.2 (List.getElem?_eq_some.1 ho).1) v ho
  have hkeyeq : ∀ e1 ∈ r, ∀ e2 ∈ r, e1.1 = e2.1 → e1 = e2 := by
    intro e1 h1 e2 h2 heq
    by_contra hne
    have hdiff : r.Pairwise (fun a b => a.1 ≠ b.1) := hsorted.imp (fun hab => ne_of_lt hab)
    exact hdiff.forall (fun a b hab => hab.symm) h1 h2 hne heq
  refine ⟨r, ?_, hsorted, hpairs, hall, ?_, ?_⟩
  · unfold ehnsw.query
    rw [hv] at hk ⊢
    simp only
    rw [if_neg (not_not.2 hq), if_pos hk, hv.symm, hr]
    rfl
  · intro hnd o v ho
    obtain ⟨e, he, hed⟩ := List.mem_map.1 (hall o v ho)
    obtain ⟨w, hw, hew⟩ := hpairs e he
    have holt := (List.getElem?_eq_some.1 ho).1
    have hwlt := (List.getElem?_eq_some.1 hw).1
    have h1 : (index.vectors.map fun v => distance_calculation query_vector v.data)[o]? =
        some (distance_calculation query_vector v.data) := by
      rw [List.getElem?_map, ho]
      rfl
    have h2 : (index.vectors.map fun v => distance_calculation query_vector v.data)[e.2]? =
        some (distance_calculation query_vector v.data) := by
      rw [List.getElem?_map, hw, ← hed, hew]
      rfl
    have hidx : e.2 = o := by
      have hl1 : e.2 < (index.vectors.map
          fun v => distance_calculation query_vector v.data).length := by
        rw [List.length_map]
        exact hwlt
      have hl2 : o < (index.vectors.map
          fun v => distance_calculation query_vector v.data).length := by
        rw [List.length_map]
        exact holt
      rw [List.getElem?_eq_getElem hl1] at h2
      rw [List.getElem?_eq_getElem hl2] at h1
      exact (List.Nodup.getElem_inj_iff hnd).1
        ((Option.some.inj h2).trans (Option.some.inj h1).symm)
    have : e = (distance_calculation query_vector v.data, o) := Prod.ext hed hidx
    rw [← this]
    exact he
  · intro o1 o2 v1 v2 hne h1 h2 heq ⟨m1, m2⟩
    obtain ⟨e1, he1, ho1⟩ := List.mem_map.1 m1
    obtain ⟨e2, he2, ho2⟩ := List.mem_map.1 m2
    obtain ⟨w1, hw1, hd1⟩ := hpairs e1 he1
    obtain ⟨w2, hw2, hd2⟩ := hpairs e2 he2
    rw [ho1, h1] at hw1
    rw [ho2, h2] at hw2
    rw [← Option.some.inj hw1] at hd1
    rw [← Option.some.inj hw2] at hd2
    have := hkeyeq e1 he1 e2 he2 (hd1.trans (heq.trans hd2.symm))
    rw [this] at ho1
    exact hne (ho1.symm.trans ho2)

/-- C36, evaluated at the failing input: on `tie_index`, which stores `(1)` and `(-1)`, the
query for `(0)` with `top_k = 3` returns the single pair `(1, 0)`; the vector at offset 1,
which has the same distance 1, has no entry; and the result is the same whatever the layers
hold. -/
theorem query_brute_force_one_per_distance_witness :
    (tie_index.vectors = { data := [1] } :: [{ data := [-1] }] ∧
      ([0] : List Int).length = ([1] : List Int).length ∧ tie_index.vectors.length < 3) ∧
    ehnsw.query ehnsw.euclidean2 tie_index [0] 3 0 = some (Except.ok [(1, 0)]) ∧
    (∀ (layers : List (ehnsw.Layer Int)) (a b c : Nat),
      ehnsw.query ehnsw.euclidean2
        ({ vectors := [{ data := [1] }, { data := [-1] }], layers := layers,
           minimum_connect_number := a, relaxed_monotonicity := b, step := c } :
          ehnsw.Index Int) [0] 3 0 =
        some (Except.ok [(1, 0)])) ∧
    ∃ result,
      ehnsw.query ehnsw.euclidean2 tie_index [0] 3 0 = some (Except.ok result) ∧
      result.Pairwise (fun a b => a.1 < b.1) ∧
      (∀ e ∈ result, ∃ v, tie_index.vectors[e.2]? = some v ∧
        e.1 = ehnsw.euclidean2 [0] v.data) ∧
      (∀ (o : Nat) (v : ehnsw.Vector Int), tie_index.vectors[o]? = some v →
        ehnsw.euclidean2 [0] v.data ∈ result.map Prod.fst) ∧
      ((tie_index.vectors.map fun v => ehnsw.euclidean2 [0] v.data).Nodup →
        ∀ (o : Nat) (v : ehnsw.Vector Int), tie_index.vectors[o]? = some v →
          (ehnsw.euclidean2 [0] v.data, o) ∈ result) ∧
      ∀ (o1 o2 : Nat) (v1 v2 : ehnsw.Vector Int), o1 ≠ o2 →
        tie_index.vectors[o1]? = some v1 → tie_index.vectors[o2]? = some v2 →
        ehnsw.euclidean2 [0] v1.data = ehnsw.euclidean2 [0] v2.data →
        ¬ (o1 ∈ result.map Prod.snd ∧ o2 ∈ result.map Prod.snd) :=
  ⟨⟨rfl, rfl, by decide⟩, by rfl, fun _ _ _ _ => by rfl,
    query_brute_force_one_per_distance ehnsw.euclidean2 tie_index [0] 3 0 { data := [1] }
      [{ data := [-1] }] rfl rfl (by decide)⟩

/-- C35, witness: the query on a freshly constructed index throws `std::logic_error`, and
the query for the empty vector on `tie_index`, which stores vectors of length 1, throws
`std::invalid_argument`. -/
theorem query_rejects_bad_input_witness :
    ehnsw.query ehnsw.euclidean2 (ehnsw.Index.new : ehnsw.Index Int) [0] 1 0 =
      some (Except.error ehnsw.Exception.logic_error) ∧
    ehnsw.query ehnsw.euclidean2 tie_index [] 1 0 =
      some (Except.error ehnsw.Exception.invalid_argument) :=
  ⟨(query_rejects_bad_input ehnsw.euclidean2 (ehnsw.Index.new : ehnsw.Index Int) [0] 1 0).1
      rfl,
    (query_rejects_bad_input ehnsw.euclidean2 tie_index [] 1 0).2.1 { data := [1] }
      [{ data := [-1] }] rfl (by decide)⟩

/-! ## The fuel of the search loop of `ehnsw.h` -/

theorem length_map_insert_le {D : Type} [LinearOrder D] (x : D × Nat) (m : List (D × Nat)) :
    (ehnsw.map_insert x m).length ≤ m.length + 1 := by
  induction m with
  | nil => exact le_refl _
  | cons y ys ih =>
    unfold ehnsw.map_insert
    split
    · exact le_refl _
    · split
      · simp only [List.length_cons]
        omega
      · simp only [List.length_cons]
        omega

/-- Of two tests on the elements of a list, the narrower one holds for fewer elements, and
for at least one fewer when some element passes the wider test only. -/
theorem countP_drop {α : Type} (p q : α → Bool) (l : List α)
    (hqp : ∀ x, q x = true → p x = true) :
    l.countP q ≤ l.countP p ∧
      ∀ o ∈ l, p o = true → q o = false → l.countP q + 1 ≤ l.countP p := by
  induction l with
  | nil => exact ⟨le_refl _, fun o ho => absurd ho (List.not_mem_nil o)⟩
  | cons x xs ih =>
    obtain ⟨ih1, ih2⟩ := ih
    have hstep : (if q x = true then 1 else 0) ≤ (if p x = true then 1 else 0) := by
      by_cases hq : q x = true
      · rw [if_pos hq, if_pos (hqp x hq)]
      · rw [if_neg hq]
        exact Nat.zero_le _
    rw [List.countP_cons, List.countP_cons]
    refine ⟨by omega, fun o ho hp hq => ?_⟩
    rcases List.mem_cons.1 ho with ho | ho
    · rw [← ho, hp, hq]
      simp only [if_true, Bool.false_eq_true, if_false]
      omega
    · have := ih2 o ho hp hq
      omega

/-- The loops that enter new offsets into `waiting_vectors` do not raise the sum of the
length of the queue and the number of stored entries without a flag. -/
theorem expand_measure {D : Type} [LinearOrder D]
    (distance_calculation : List D → List D → D) (index : ehnsw.Index D)
    (query_vector : List D) (stored : List Nat) :
    ∀ (offsets flags : List Nat) (waiting : List (D × Nat)) (s : List Nat × List (D × Nat)),
      ehnsw.expand distance_calculation index query_vector offsets (flags, waiting) = some s →
      (∀ o ∈ offsets, o ∈ stored) →
      s.2.length + stored.countP (fun x => decide (x ∉ s.1)) ≤
        waiting.length + stored.countP (fun x => decide (x ∉ flags)) := by
  intro offsets
  induction offsets with
  | nil =>
    intro flags waiting s h _
    unfold ehnsw.expand at h
    rw [← Option.some.inj h]
  | cons o rest ih =>
    intro flags waiting s h hsub
    have hrest : ∀ x ∈ rest, x ∈ stored := fun x hx => hsub x (List.mem_cons_of_mem _ hx)
    unfold ehnsw.expand at h
    split at h
    · exact ih _ _ _ h hrest
    · rename_i hnew
      split at h
      · exact absurd h (by simp)
      · rename_i vector hvec
        have h1 := ih _ _ _ h hrest
        have h2 := length_map_insert_le
          (distance_calculation query_vector vector.data, o) waiting
        have h3 := (countP_drop (fun x => decide (x ∉ flags))
          (fun x => decide (x ∉ flags ++ [o])) stored (fun x hx => by
            simp only [decide_eq_true_eq, List.mem_append, not_or] at hx ⊢
            exact hx.1)).2 o (hsub o (List.mem_cons_self _ _))
          (by simp only [decide_eq_true_eq]; exact hnew)
          (by simp)
        omega

/-- With enough fuel the search loop of `nearest_neighbors` gives the same result whatever
the fuel is: a unit of fuel is used for each pair taken off the queue, and the length of
the queue plus the number of stored entries without a flag goes down with each of them. -/
theorem nearest_neighbors_loop_fuel {D : Type} [LinearOrder D]
    (distance_calculation : List D → List D → D) (index : ehnsw.Index D)
    (layer : ehnsw.Layer D) (query_vector : List D) (top_k relaxed_monotonicity : Nat) :
    ∀ (fuel1 fuel2 : Nat) (waiting : List (D × Nat)) (flags : List Nat) (out_of_bound : Nat)
      (nearest : List (D × Nat)),
      waiting.length + layer.stored.countP (fun x => decide (x ∉ flags)) < fuel1 →
      waiting.length + layer.stored.countP (fun x => decide (x ∉ flags)) < fuel2 →
      ehnsw.nearest_neighbors_loop distance_calculation index layer query_vector top_k
          relaxed_monotonicity fuel1 waiting flags out_of_bound nearest =
        ehnsw.nearest_neighbors_loop distance_calculation index layer query_vector top_k
          relaxed_monotonicity fuel2 waiting flags out_of_bound nearest := by
  intro fuel1
  induction fuel1 with
  | zero =>
    intro fuel2 waiting flags out_of_bound nearest h1 _
    exact absurd h1 (Nat.not_lt_zero _)
  | succ f1 ih =>
    intro fuel2 waiting flags out_of_bound nearest h1 h2
    cases fuel2 with
    | zero => exact absurd h2 (Nat.not_lt_zero _)
    | succ f2 =>
      cases waiting with
      | nil => simp [ehnsw.nearest_neighbors_loop]
      | cons processing waiting =>
        unfold ehnsw.nearest_neighbors_loop
        simp only
        split
        · rfl
        · cases hfind : layer.vectors.find? (fun e => e.1 == processing.2) with
          | none => rfl
          | some entry =>
            simp only
            have hentry : entry ∈ layer.vectors := List.mem_of_find?_eq_some hfind
            have hout : ∀ o ∈ entry.2.out.map Prod.snd, o ∈ layer.stored := by
              intro o ho
              unfold ehnsw.Layer.stored
              exact List.mem_flatten.2 ⟨_, List.mem_map.2 ⟨entry, hentry, rfl⟩,
                List.mem_append_left _ ho⟩
            have hin : ∀ o ∈ entry.2.in_edges, o ∈ layer.stored := by
              intro o ho
              unfold ehnsw.Layer.stored
              exact List.mem_flatten.2 ⟨_, List.mem_map.2 ⟨entry, hentry, rfl⟩,
                List.mem_append_right _ ho⟩
            have hset := (countP_drop (fun x => decide (x ∉ flags))
              (fun x => decide (x ∉ set_insert processing.2 flags)) layer.stored
              (fun x hx => by
                simp only [decide_eq_true_eq, mem_set_insert, not_or] at hx ⊢
                exact hx.2)).1
            cases he1 : ehnsw.expand distance_calculation index query_vector
                (entry.2.out.map Prod.snd) (set_insert processing.2 flags, waiting) with
            | none => rfl
            | some s1 =>
              simp only [Option.some_bind]
              cases he2 : ehnsw.expand distance_calculation index query_vector
                  entry.2.in_edges s1 with
              | none => rfl
              | some s2 =>
                simp only [Option.some_bind]
                have m1 := expand_measure distance_calculation index query_vector
                  layer.stored _ _ _ s1 he1 hout
                have m2 := expand_measure distance_calculation index query_vector
                  layer.stored _ s1.1 s1.2 s2 he2 hin
                simp only [List.length_cons] at h1 h2
                exact ih f2 _ _ _ _ (by omega) (by omega)

theorem length_stored {D : Type} (layer : ehnsw.Layer D) :
    layer.stored.length =
      (layer.vectors.map fun e => e.2.out.length + e.2.in_edges.length).sum := by
  unfold ehnsw.Layer.stored
  rw [List.length_flatten, List.map_map]
  congr 1
  apply List.map_congr_left
  intro e _
  simp

/-- The fuel that `nearest_neighbors` gives to its loop is enough: more fuel gives the same
result. -/
theorem nearest_neighbors_fuel {D : Type} [LinearOrder D]
    (distance_calculation : List D → List D → D) (index : ehnsw.Index D)
    (layer : ehnsw.Layer D) (query_vector : List D) (top_k relaxed_monotonicity : Nat)
    (first : D × Nat) (fuel : Nat)
    (h : (layer.vectors.map fun e => e.2.out.length + e.2.in_edges.length).sum + 2 ≤ fuel) :
    ehnsw.nearest_neighbors_loop distance_calculation index layer query_vector top_k
        relaxed_monotonicity fuel (ehnsw.map_insert first []) [] 0 [] =
      ehnsw.nearest_neighbors_loop distance_calculation index layer query_vector top_k
        relaxed_monotonicity
        ((layer.vectors.map fun e => e.2.out.length + e.2.in_edges.length).sum + 2)
        (ehnsw.map_insert first []) [] 0 [] := by
  have hcount : layer.stored.countP (fun x => decide (x ∉ ([] : List Nat))) =
      layer.stored.length := by
    rw [List.countP_eq_length]
    intro x _
    simp
  have hlen := length_stored layer
  have hone : (ehnsw.map_insert first ([] : List (D × Nat))).length = 1 := rfl
  exact nearest_neighbors_loop_fuel distance_calculation index layer query_vector top_k
    relaxed_monotonicity _ _ _ _ _ _ (by omega) (by omega)

end HSG
